import Mathlib

/-!
# Glyph layout and text wrapping of `BitmapFont`

A shallow embedding of `src/framework/graphics/bitmapfont.cpp`: the layout engine
(`calculateGlyphsPositions`, `calculateTextRectSize`), the UTF-8 helper `_utf8`, the wrapping
engine (`wrapText`) and the colour-run shifter (`updateColors`), followed by theorems about them.

Conventions of the embedding:
* a text is the list of its bytes (`List Nat`, every byte below 256);
* C++ `int` is `Int` (no overflow is modelled), `uint8_t` is `Nat` reduced modulo 256 where the
  source casts;
* the 256-entry glyph tables are functions of the byte value;
* the thread-local scratch vectors `s_glyphsPositions` and `s_lineWidths` are explicit state;
* a `while`/`for` loop over the text is a recursion over the remaining bytes.
-/

namespace BitmapFont

/-! ## Data model -/

/-- A pixel coordinate pair (`Point`). -/
structure Point where
  x : Int
  y : Int
deriving DecidableEq, Repr

/-- A pixel extent (`Size`). -/
structure Size where
  width : Int
  height : Int
deriving DecidableEq, Repr

/-- Modelled from the spec: the class `Rect` is declared outside the sources at hand. The code
reads and writes a rectangle through its four edges (`left`, `top`, `right`, `bottom` and their
setters), `translate`, `intersects`, `isValid`, `width`, `height`, and builds one from a corner
and a size; a rectangle is kept as those four edges, `x2` and `y2` being the last pixel column
and row it covers. -/
structure Rect where
  x1 : Int
  y1 : Int
  x2 : Int
  y2 : Int
deriving DecidableEq, Repr

/-- The constructor `Rect(topLeft, size)` (and `setRect(x, y, width, height)`). -/
def Rect.ofPointSize (p : Point) (s : Size) : Rect :=
  { x1 := p.x, y1 := p.y, x2 := p.x + s.width - 1, y2 := p.y + s.height - 1 }

/-- The accessor `width()`. -/
def Rect.width (r : Rect) : Int := r.x2 - r.x1 + 1

/-- The accessor `height()`. -/
def Rect.height (r : Rect) : Int := r.y2 - r.y1 + 1

/-- The test `isValid()`: the rectangle covers at least one pixel. -/
def Rect.isValid (r : Rect) : Bool := decide (r.x1 ≤ r.x2) && decide (r.y1 ≤ r.y2)

/-- The test `isNull()`: width and height are both zero. -/
def Rect.isNull (r : Rect) : Bool := decide (r.x2 = r.x1 - 1) && decide (r.y2 = r.y1 - 1)

/-- The call `translate(p)`. -/
def Rect.translate (r : Rect) (p : Point) : Rect :=
  { x1 := r.x1 + p.x, y1 := r.y1 + p.y, x2 := r.x2 + p.x, y2 := r.y2 + p.y }

/-- The corner `topLeft()`. -/
def Rect.topLeft (r : Rect) : Point := ⟨r.x1, r.y1⟩

/-- The test `a.intersects(b)`: neither rectangle is null and their horizontal and vertical
extents (each put in increasing order) overlap. -/
def Rect.intersects (a b : Rect) : Bool :=
  if a.isNull || b.isNull then false
  else
    let l1 := if a.x2 - a.x1 + 1 < 0 then a.x2 else a.x1
    let r1 := if a.x2 - a.x1 + 1 < 0 then a.x1 else a.x2
    let l2 := if b.x2 - b.x1 + 1 < 0 then b.x2 else b.x1
    let r2 := if b.x2 - b.x1 + 1 < 0 then b.x1 else b.x2
    if l1 > r2 ∨ l2 > r1 then false
    else
      let t1 := if a.y2 - a.y1 + 1 < 0 then a.y2 else a.y1
      let b1 := if a.y2 - a.y1 + 1 < 0 then a.y1 else a.y2
      let t2 := if b.y2 - b.y1 + 1 < 0 then b.y2 else b.y1
      let b2 := if b.y2 - b.y1 + 1 < 0 then b.y1 else b.y2
      if t1 > b2 ∨ t2 > b1 then false else true

/-- An RGBA colour; the wrapping engine only carries it around. -/
structure Color where
  rgba : Nat
deriving DecidableEq, Repr

/-- The glyph metrics table of a font object (the `m_…` members the layout and wrapping engines
read). -/
structure Font where
  glyphsSize : Nat → Size
  glyphsTextureCoords : Nat → Rect
  glyphsOffset : Nat → Point
  glyphsAdvance : Nat → Int
  kerning : Nat → Nat → Int
  glyphSpacing : Size
  glyphHeight : Int
  yOffset : Int

/-- Modelled from the spec: `Fw::AlignmentFlag` is declared outside the sources at hand; the
layout code only tests single bits of it (`align & Fw::AlignRight`, …), so an alignment is the
record of those four tests. `Left` and `Top` are the absence of the other bit on their axis. -/
structure AlignmentFlag where
  alignRight : Bool
  alignHorizontalCenter : Bool
  alignBottom : Bool
  alignVerticalCenter : Bool
deriving DecidableEq, Repr

/-- The flag `Fw::AlignTopLeft`: none of the tested bits is set. -/
def AlignTopLeft : AlignmentFlag :=
  { alignRight := false, alignHorizontalCenter := false,
    alignBottom := false, alignVerticalCenter := false }

/-- The content of the two thread-local scratch vectors. -/
structure Scratch where
  glyphsPositions : List Point
  lineWidths : List Int
deriving DecidableEq, Repr

/-- The static initialisers `s_glyphsPositions(1)` and `s_lineWidths(1)`. -/
def Scratch.initial : Scratch :=
  { glyphsPositions := [⟨0, 0⟩], lineWidths := [0] }

/-- The call `v.resize(n)` of a vector, used by the source only to grow: the new entries are
value-initialised. -/
def resize {α : Type} (v : List α) (n : Nat) (d : α) : List α :=
  if v.length < n then v ++ List.replicate (n - v.length) d else v.take n

/-! ## Layout engine -/

/-- The variables of the line-width pre-pass of `calculateGlyphsPositions`. -/
structure PrePass where
  lines : Nat
  lineWidths : List Int
  maxLineWidth : Int
  prevGlyph : Int
deriving DecidableEq, Repr

/-- One iteration of the pre-pass loop on byte `g`; `spaced` is the outcome of the test
`i + 1 != textLength && p[i + 1] != '\n'`. -/
def prePassStep (f : Font) (g : Nat) (spaced : Bool) (s : PrePass) : PrePass :=
  if g = 10 then
    let lines := s.lines + 1
    let lw := if lines + 1 > s.lineWidths.length then resize s.lineWidths (lines + 1) 0
              else s.lineWidths
    { lines := lines, lineWidths := lw.set lines 0, maxLineWidth := s.maxLineWidth,
      prevGlyph := -1 }
  else if g ≥ 32 then
    let w0 := s.lineWidths.getD s.lines 0
    let w1 := if s.prevGlyph ≥ 0 then w0 + f.kerning s.prevGlyph.toNat g else w0
    let w2 := w1 + f.glyphsAdvance g
    let w3 := if spaced then w2 + f.glyphSpacing.width else w2
    { lines := s.lines, lineWidths := s.lineWidths.set s.lines w3,
      maxLineWidth := if w3 > s.maxLineWidth then w3 else s.maxLineWidth,
      prevGlyph := g }
  else s

/-- The test `i + 1 != textLength && p[i + 1] != '\n'` on the bytes after index `i`. -/
def nextIsNotNewline (rest : List Nat) : Bool :=
  match rest with
  | [] => false
  | n :: _ => n != 10

/-- The pre-pass loop over the remaining bytes. -/
def prePass (f : Font) : List Nat → PrePass → PrePass
  | [], s => s
  | g :: rest, s => prePass f rest (prePassStep f g (nextIsNotNewline rest) s)

/-- The variables of the main positioning pass. -/
structure MainPass where
  vpos : Point
  lines : Nat
  prevGlyph : Int
  glyphsPositions : List Point
deriving DecidableEq, Repr

/-- The start x of line `lines` for the alignment. -/
def lineStartX (align : AlignmentFlag) (needLines : Bool) (maxLineWidth : Int)
    (lineWidths : List Int) (lines : Nat) : Int :=
  if align.alignRight then
    maxLineWidth - (if needLines then lineWidths.getD lines 0 else 0)
  else if align.alignHorizontalCenter then
    (maxLineWidth - (if needLines then lineWidths.getD lines 0 else 0)).tdiv 2
  else 0

/-- One iteration of the main pass on byte `g` at index `i`. -/
def mainPassStep (f : Font) (align : AlignmentFlag) (needLines : Bool) (maxLineWidth : Int)
    (lineWidths : List Int) (i g : Nat) (s : MainPass) : MainPass :=
  let s1 : MainPass :=
    if g = 10 ∨ i = 0 then
      let s0 : MainPass :=
        if g = 10 then
          { s with vpos := ⟨s.vpos.x, s.vpos.y + (f.glyphHeight + f.glyphSpacing.height)⟩,
                   lines := s.lines + 1, prevGlyph := -1 }
        else s
      { s0 with vpos := ⟨lineStartX align needLines maxLineWidth lineWidths s0.lines, s0.vpos.y⟩ }
    else s
  if g ≥ 32 ∧ g ≠ 10 then
    let x := if s1.prevGlyph ≥ 0 then s1.vpos.x + f.kerning s1.prevGlyph.toNat g else s1.vpos.x
    { vpos := ⟨x + (f.glyphsAdvance g + f.glyphSpacing.width), s1.vpos.y⟩,
      lines := s1.lines, prevGlyph := g,
      glyphsPositions := s1.glyphsPositions.set i ⟨x, s1.vpos.y⟩ }
  else s1

/-- The main pass over the remaining bytes, the first of them at index `i`. -/
def mainPass (f : Font) (align : AlignmentFlag) (needLines : Bool) (maxLineWidth : Int)
    (lineWidths : List Int) : List Nat → Nat → MainPass → MainPass
  | [], _, s => s
  | g :: rest, i, s =>
    mainPass f align needLines maxLineWidth lineWidths rest (i + 1)
      (mainPassStep f align needLines maxLineWidth lineWidths i g s)

/-- The variables of the tight-bounding-box pass. -/
structure Extent where
  minX : Int
  maxX : Int
  hasGlyph : Bool
deriving DecidableEq, Repr

/-- One iteration of the bounding-box pass. -/
def extentStep (f : Font) (pos : List Point) (i g : Nat) (e : Extent) : Extent :=
  if g < 32 ∨ g = 10 then e
  else
    let x0 := (pos.getD i ⟨0, 0⟩).x + (f.glyphsOffset g).x
    let x1 := x0 + (f.glyphsSize g).width
    if !e.hasGlyph then { minX := x0, maxX := x1, hasGlyph := true }
    else { minX := min e.minX x0, maxX := max e.maxX x1, hasGlyph := true }

/-- The bounding-box pass over the remaining bytes. -/
def extentPass (f : Font) (pos : List Point) : List Nat → Nat → Extent → Extent
  | [], _, e => e
  | g :: rest, i, e => extentPass f pos rest (i + 1) (extentStep f pos i g e)

/-- The pass `glyphsPositions[i].x -= minX` over the placed glyphs. -/
def shiftPass (minX : Int) : List Nat → Nat → List Point → List Point
  | [], _, pos => pos
  | g :: rest, i, pos =>
    shiftPass minX rest (i + 1)
      (if g ≥ 32 ∧ g ≠ 10 then
        pos.set i ⟨(pos.getD i ⟨0, 0⟩).x - minX, (pos.getD i ⟨0, 0⟩).y⟩
       else pos)

/-- What a call of `calculateGlyphsPositions` leaves behind: the positions buffer it was given,
the scratch line widths, and the box written through `textBoxSize` (when that is not null). -/
structure Layout where
  glyphsPositions : List Point
  lineWidths : List Int
  textBoxSize : Option Size
deriving DecidableEq, Repr

/-- The local `needLines` of `calculateGlyphsPositions`; `wantBox` says that `textBoxSize` is
not null. -/
def needLines (align : AlignmentFlag) (wantBox : Bool) : Bool :=
  align.alignRight || align.alignHorizontalCenter || wantBox

/-- The pre-pass block of `calculateGlyphsPositions`: its variables when the block is left (the
initial ones when `needLines` is false). -/
def layoutPrePass (f : Font) (text : List Nat) (align : AlignmentFlag) (lineWidths : List Int)
    (wantBox : Bool) : PrePass :=
  if needLines align wantBox then
    let lw0 := if lineWidths.isEmpty then resize lineWidths 1 0 else lineWidths
    prePass f text { lines := 0, lineWidths := lw0.set 0 0, maxLineWidth := 0, prevGlyph := -1 }
  else { lines := 0, lineWidths := lineWidths, maxLineWidth := 0, prevGlyph := -1 }

/-- The main pass of `calculateGlyphsPositions` on the positions buffer grown to the text
length: its variables when the loop is left. -/
def layoutMainPass (f : Font) (text : List Nat) (align : AlignmentFlag)
    (glyphsPositions : List Point) (lineWidths : List Int) (wantBox : Bool) : MainPass :=
  let pre := layoutPrePass f text align lineWidths wantBox
  let pos0 := if glyphsPositions.length < text.length then resize glyphsPositions text.length ⟨0, 0⟩
              else glyphsPositions
  mainPass f align (needLines align wantBox) pre.maxLineWidth pre.lineWidths text 0
    { vpos := ⟨0, f.yOffset⟩, lines := 0, prevGlyph := -1, glyphsPositions := pos0 }

/-- The tight horizontal extent `minX`, `maxX`, `hasGlyph` of the placed glyphs, as the
bounding-box loop of `calculateGlyphsPositions` leaves it. -/
def layoutExtent (f : Font) (text : List Nat) (align : AlignmentFlag)
    (glyphsPositions : List Point) (lineWidths : List Int) (wantBox : Bool) : Extent :=
  extentPass f (layoutMainPass f text align glyphsPositions lineWidths wantBox).glyphsPositions
    text 0 { minX := 0, maxX := 0, hasGlyph := false }

/-- The function `BitmapFont::calculateGlyphsPositions`; `wantBox` says that `textBoxSize` is
not null. -/
def calculateGlyphsPositions (f : Font) (text : List Nat) (align : AlignmentFlag)
    (glyphsPositions : List Point) (lineWidths : List Int) (wantBox : Bool) : Layout :=
  if wantBox ∧ text.length = 0 then
    { glyphsPositions := glyphsPositions, lineWidths := lineWidths,
      textBoxSize := some ⟨0, f.glyphHeight⟩ }
  else
    let pre := layoutPrePass f text align lineWidths wantBox
    let maxLineWidth := pre.maxLineWidth
    let m := layoutMainPass f text align glyphsPositions lineWidths wantBox
    let e := layoutExtent f text align glyphsPositions lineWidths wantBox
    let shifted : Bool := e.hasGlyph && decide (e.minX < 0)
    let pos1 := if shifted then shiftPass e.minX text 0 m.glyphsPositions else m.glyphsPositions
    let e1 : Extent := if shifted then { e with maxX := e.maxX - e.minX, minX := 0 } else e
    { glyphsPositions := pos1, lineWidths := pre.lineWidths,
      textBoxSize :=
        if wantBox then
          some ⟨if e1.hasGlyph then max maxLineWidth (e1.maxX - e1.minX) else maxLineWidth,
                m.vpos.y + f.glyphHeight⟩
        else none }

/-- The function `BitmapFont::calculateTextRectSize`: the box of a top-left layout computed in
the scratch buffers, and the scratch buffers afterwards. -/
def calculateTextRectSize (f : Font) (text : List Nat) (sc : Scratch) : Size × Scratch :=
  let r := calculateGlyphsPositions f text AlignTopLeft sc.glyphsPositions sc.lineWidths true
  (r.textBoxSize.getD ⟨0, 0⟩, { glyphsPositions := r.glyphsPositions, lineWidths := r.lineWidths })

/-! ## Clipper and quad emitter -/

/-- The outcome of `clipAndTranslateGlyph`: the returned flag and the two rectangles it was
given by reference, as it leaves them. -/
structure Clipped where
  visible : Bool
  glyphScreenCoords : Rect
  glyphTextureCoords : Rect
deriving DecidableEq, Repr

/-- The function `BitmapFont::clipAndTranslateGlyph`. -/
def clipAndTranslateGlyph (glyphScreenCoords glyphTextureCoords screenCoords : Rect) : Clipped :=
  if glyphScreenCoords.y2 < 0 ∨ glyphScreenCoords.x2 < 0 then
    { visible := false, glyphScreenCoords := glyphScreenCoords,
      glyphTextureCoords := glyphTextureCoords }
  else
    let t1 : Rect := if glyphScreenCoords.y1 < 0
      then { glyphTextureCoords with y1 := glyphTextureCoords.y1 - glyphScreenCoords.y1 }
      else glyphTextureCoords
    let g1 : Rect := if glyphScreenCoords.y1 < 0 then { glyphScreenCoords with y1 := 0 }
      else glyphScreenCoords
    let t2 : Rect := if g1.x1 < 0 then { t1 with x1 := t1.x1 - g1.x1 } else t1
    let g2 : Rect := if g1.x1 < 0 then { g1 with x1 := 0 } else g1
    let g3 := g2.translate screenCoords.topLeft
    if !screenCoords.intersects g3 then
      { visible := false, glyphScreenCoords := g3, glyphTextureCoords := t2 }
    else
      let t4 : Rect := if g3.y2 > screenCoords.y2
        then { t2 with y2 := t2.y2 + (screenCoords.y2 - g3.y2) } else t2
      let g4 : Rect := if g3.y2 > screenCoords.y2 then { g3 with y2 := screenCoords.y2 } else g3
      let t5 : Rect := if g4.x2 > screenCoords.x2
        then { t4 with x2 := t4.x2 + (screenCoords.x2 - g4.x2) } else t4
      let g5 : Rect := if g4.x2 > screenCoords.x2 then { g4 with x2 := screenCoords.x2 } else g4
      { visible := true, glyphScreenCoords := g5, glyphTextureCoords := t5 }

/-- The alignment offset `(dx, dy)` that `getDrawTextCoords`, `fillTextCoords` and
`fillTextColorCoords` compute from the destination rectangle and the text box. -/
def alignOffset (align : AlignmentFlag) (screenCoords : Rect) (textBoxSize : Size) : Point :=
  { x := if align.alignRight then screenCoords.width - textBoxSize.width
         else if align.alignHorizontalCenter then
           (screenCoords.width - textBoxSize.width).tdiv 2
         else 0,
    y := if align.alignBottom then screenCoords.height - textBoxSize.height
         else if align.alignVerticalCenter then
           (screenCoords.height - textBoxSize.height).tdiv 2
         else 0 }

/-- The loop of `getDrawTextCoords` (and of `fillTextCoords`) over the bytes from index `i` on:
the rectangle pairs it appends. `region` is the origin of the atlas region of the texture, when
it has one. -/
def emitGlyphs (f : Font) (region : Option Point) (d : Point) (screenCoords : Rect)
    (glyphsPositions : List Point) : List Nat → Nat → List (Rect × Rect)
  | [], _ => []
  | glyph :: rest, i =>
    if glyph < 32 then emitGlyphs f region d screenCoords glyphsPositions rest (i + 1)
    else
      let p := glyphsPositions.getD i ⟨0, 0⟩
      let o := f.glyphsOffset glyph
      let c := clipAndTranslateGlyph
        (Rect.ofPointSize ⟨p.x + d.x + o.x, p.y + d.y + o.y⟩ (f.glyphsSize glyph))
        (f.glyphsTextureCoords glyph) screenCoords
      if !c.visible then emitGlyphs f region d screenCoords glyphsPositions rest (i + 1)
      else
        (c.glyphScreenCoords,
          match region with
          | some r => c.glyphTextureCoords.translate r
          | none => c.glyphTextureCoords)
        :: emitGlyphs f region d screenCoords glyphsPositions rest (i + 1)

/-- The function `BitmapFont::getDrawTextCoords`; `hasTexture` says that `m_texture` is set. The
function `fillTextCoords` adds the same pairs to its coordinate buffer. -/
def getDrawTextCoords (f : Font) (hasTexture : Bool) (region : Option Point) (text : List Nat)
    (textBoxSize : Size) (align : AlignmentFlag) (screenCoords : Rect)
    (glyphsPositions : List Point) : List (Rect × Rect) :=
  if !screenCoords.isValid || !hasTexture then []
  else
    emitGlyphs f region (alignOffset align screenCoords textBoxSize) screenCoords glyphsPositions
      text 0

/-! ## UTF-8 helper and character classes -/

/-- The helper `_isAscii`. -/
def _isAscii (c : Nat) : Bool := c < 0x80

/-- The helper `_isSpace`: a space or a tab. -/
def _isSpace (c : Nat) : Bool := c = 32 || c = 9

/-- The helper `_isHyphen`. -/
def _isHyphen (c : Nat) : Bool := c = 45

/-- The byte `s[k]` of the bytes from the cursor on. The source guards a `k`-byte look-ahead by
`s + k <= e`, so the last byte it reads may be the one at `e`, just past the text; that byte is
read as `0`, the terminator of the backing string. -/
def byteAt (s : List Nat) (k : Nat) : Nat := s.getD k 0

/-- The helper `_utf8(s, e, cp, len)` on the bytes `s` from the cursor to the end: `none` is the
`false` return (cursor at the end), otherwise the decoded code point and its length. -/
def _utf8 (s : List Nat) : Option (Nat × Nat) :=
  match s with
  | [] => none
  | c0 :: _ =>
    if c0 < 0x80 then some (c0, 1)
    else if c0 &&& 0xE0 = 0xC0 ∧ 1 ≤ s.length then
      some (((c0 &&& 0x1F) <<< 6) ||| (byteAt s 1 &&& 0x3F), 2)
    else if c0 &&& 0xF0 = 0xE0 ∧ 2 ≤ s.length then
      some (((c0 &&& 0x0F) <<< 12) ||| ((byteAt s 1 &&& 0x3F) <<< 6) ||| (byteAt s 2 &&& 0x3F), 3)
    else if c0 &&& 0xF8 = 0xF0 ∧ 3 ≤ s.length then
      some (((c0 &&& 0x07) <<< 18) ||| ((byteAt s 1 &&& 0x3F) <<< 12)
            ||| ((byteAt s 2 &&& 0x3F) <<< 6) ||| (byteAt s 3 &&& 0x3F), 4)
    else some (c0, 1)

/-- The helper `_isCJK`. -/
def _isCJK (cp : Nat) : Bool :=
  (cp ≥ 0x4E00 && cp ≤ 0x9FFF) || (cp ≥ 0x3400 && cp ≤ 0x4DBF) || (cp ≥ 0x3040 && cp ≤ 0x309F)
    || (cp ≥ 0x30A0 && cp ≤ 0x30FF) || (cp ≥ 0xAC00 && cp ≤ 0xD7AF)

/-! ## Wrapping engine -/

/-- Modelled from the spec: the enumeration `HyphenationMode` (declared in the absent header). -/
inductive HyphenationMode where
  | None
  | Manual
  | Auto
deriving DecidableEq, Repr

/-- Modelled from the spec: the enumeration `OverflowWrapMode` (declared in the absent header). -/
inductive OverflowWrapMode where
  | Normal
  | BreakWord
  | Anywhere
deriving DecidableEq, Repr

/-- Modelled from the spec: the enumeration `WordBreakMode` (declared in the absent header). -/
inductive WordBreakMode where
  | Normal
  | BreakAll
deriving DecidableEq, Repr

/-- Modelled from the spec: the record `WrapOptions` (declared in the absent header), with the
fields `wrapText` reads. -/
structure WrapOptions where
  allowNoBreakSpace : Bool
  allowWordJoiner : Bool
  allowZeroWidthBreak : Bool
  allowSoftHyphen : Bool
  hyphenationMode : HyphenationMode
  overflowWrapMode : OverflowWrapMode
  wordBreakMode : WordBreakMode
  keepCJKWordsTogether : Bool
deriving DecidableEq, Repr

/-- A colour-run list: pairs of a start byte index and a colour. -/
abbrev ColorRuns := List (Int × Color)

/-- The function `BitmapFont::updateColors`; `none` is the null pointer. -/
def updateColors (colors : Option ColorRuns) (pos newTextLen : Int) : Option ColorRuns :=
  match colors with
  | none => none
  | some cs => some (cs.map fun it => if it.1 > pos then (it.1 + newTextLen, it.2) else it)

/-- The local variables of `wrapText` (with the colour list and the scratch buffers it
mutates). -/
structure WrapState where
  out : List Nat
  colors : Option ColorRuns
  scratch : Scratch
  lastGlyph : Nat
  lineW : Int
  lastBreakOut : Int
  lastBreakLineW : Int
  lastBreakHy : Bool
  lastBreakHyCount : Int
deriving DecidableEq, Repr

/-- The lambda `glyphAdvanceWithKerning`. -/
def glyphAdvanceWithKerning (f : Font) (prevGlyph glyph : Nat) : Int :=
  if prevGlyph ≠ 0xFF then f.glyphsAdvance glyph + f.kerning prevGlyph glyph
  else f.glyphsAdvance glyph

/-- The lambda `pushChar`. -/
def pushChar (st : WrapState) (ch : Nat) : WrapState :=
  { st with out := st.out ++ [ch],
            colors := updateColors st.colors ((st.out.length : Int) + 1 - 1) 1 }

/-- The lambda `pushSlice`: appends the `n` bytes from the cursor on. -/
def pushSlice (st : WrapState) (s : List Nat) (n : Nat) : WrapState :=
  { st with out := st.out ++ (List.range n).map (byteAt s),
            colors := updateColors st.colors (st.out.length : Int) (n : Int) }

/-- The assignments that forget the break candidate. -/
def clearBreak (st : WrapState) : WrapState :=
  { st with lastBreakOut := -1, lastBreakLineW := 0, lastBreakHy := false, lastBreakHyCount := 0 }

/-- The lambda `newline`. -/
def newline (st : WrapState) : WrapState :=
  { clearBreak { st with out := st.out ++ [10],
                         colors := updateColors st.colors ((st.out.length : Int) + 1 - 1) 1,
                         lineW := 0 } with lastGlyph := 0xFF }

/-- The lambda `measure`: the width and the scratch buffers afterwards. -/
def measure (f : Font) (st : WrapState) (s : List Nat) (len cp : Nat) : Int × WrapState :=
  if len = 1 ∧ cp < 256 then
    (glyphAdvanceWithKerning f st.lastGlyph (cp % 256) + f.glyphSpacing.width, st)
  else
    let r := calculateTextRectSize f ((List.range len).map (byteAt s)) st.scratch
    (r.1.width, { st with scratch := r.2 })

/-- The lambda `markBreak`. -/
def markBreak (st : WrapState) (hy : Bool) (hyc : Int) : WrapState :=
  { st with lastBreakOut := (st.out.length : Int), lastBreakLineW := st.lineW,
            lastBreakHy := hy, lastBreakHyCount := hyc }

/-- The call `out.insert(out.begin() + pos, ch)`. -/
def insertAt (out : List Nat) (pos : Int) (ch : Nat) : List Nat :=
  out.take pos.toNat ++ ch :: out.drop pos.toNat

/-- The lambda `commitBreak`. -/
def commitBreak (o : WrapOptions) (st : WrapState) (forced : Bool) : WrapState :=
  if st.lastBreakOut ≥ 0 then
    let st1 : WrapState :=
      if st.lastBreakHy ∧ st.lastBreakHyCount > 0 then
        { st with out := insertAt st.out st.lastBreakOut 45,
                  colors := updateColors st.colors st.lastBreakOut 1,
                  lastBreakOut := st.lastBreakOut + 1 }
      else st
    clearBreak
      { st1 with out := insertAt st1.out st1.lastBreakOut 10,
                 colors := updateColors st1.colors st1.lastBreakOut 1,
                 lineW := max 0 (st1.lineW - st1.lastBreakLineW) }
  else
    let st1 : WrapState :=
      if forced ∧ o.hyphenationMode = HyphenationMode.Auto then
        { st with out := st.out ++ [45],
                  colors := updateColors st.colors ((st.out.length : Int) + 1 - 1) 1 }
      else st
    newline st1

/-- The overflow handling shared by the ASCII default branch and the multi-byte branch. -/
def breakOnOverflow (o : WrapOptions) (anywhere : Bool) (st : WrapState) : WrapState :=
  if st.lastBreakOut ≥ 0 then commitBreak o st false
  else if o.overflowWrapMode = OverflowWrapMode.BreakWord ∨ anywhere then commitBreak o st true
  else newline st

/-- The branch of the loop for a literal `'\n'`: a hard line reset. -/
def stepNewline (st : WrapState) : WrapState :=
  { clearBreak { pushChar st 10 with lineW := 0 } with lastGlyph := 0xFF }

/-- The branch for a no-break space (`cp == 0x00A0`). -/
def stepNoBreakSpace (f : Font) (maxW : Int) (o : WrapOptions) (cur : List Nat) (len cp : Nat)
    (st : WrapState) : WrapState :=
  let m := measure f st cur len cp
  let w := m.1
  let st0 := m.2
  let st1 := if st0.lineW + w > maxW then commitBreak o st0 true else st0
  let st2 := pushSlice st1 cur len
  { st2 with lineW := st2.lineW + w, lastGlyph := cp % 256 }

/-- The branch for a word joiner (`cp == 0x2060`). -/
def stepWordJoiner (f : Font) (maxW : Int) (o : WrapOptions) (cur : List Nat) (len cp : Nat)
    (st : WrapState) : WrapState :=
  let m := measure f st cur len cp
  let w := m.1
  let st0 := m.2
  let st1 := if st0.lineW + w > maxW then commitBreak o st0 true else st0
  let st2 := pushSlice st1 cur len
  { st2 with lineW := st2.lineW + w, lastGlyph := if cp < 256 then cp % 256 else 0xFF }

/-- The branch for a soft hyphen (`cp == 0x00AD`). -/
def stepSoftHyphen (o : WrapOptions) (st : WrapState) : WrapState :=
  let show_ : Bool := o.hyphenationMode = HyphenationMode.Manual
                      ∨ o.hyphenationMode = HyphenationMode.Auto
  markBreak st show_ (if show_ then 1 else 0)

/-- The branch for an ASCII space or tab. -/
def stepSpace (f : Font) (maxW : Int) (o : WrapOptions) (st : WrapState) : WrapState :=
  let w := glyphAdvanceWithKerning f st.lastGlyph 32 + f.glyphSpacing.width
  if st.lineW + w > maxW then
    markBreak (commitBreak o st false) false 0
  else
    let st1 := pushChar st 32
    { markBreak { st1 with lineW := st1.lineW + w } false 0 with lastGlyph := 32 }

/-- The branch for an ASCII hyphen. -/
def stepHyphen (f : Font) (maxW : Int) (o : WrapOptions) (c : Nat) (st : WrapState) :
    WrapState :=
  let w := glyphAdvanceWithKerning f st.lastGlyph c + f.glyphSpacing.width
  let st1 := if st.lineW + w > maxW then commitBreak o st false else st
  let st2 := pushChar st1 c
  { markBreak { st2 with lineW := st2.lineW + w } false 0 with lastGlyph := c }

/-- The branch for any other single-byte ASCII character. -/
def stepAscii (f : Font) (maxW : Int) (o : WrapOptions) (c : Nat) (st : WrapState) :
    WrapState :=
  let w := glyphAdvanceWithKerning f st.lastGlyph c + f.glyphSpacing.width
  let anywhere : Bool := o.overflowWrapMode = OverflowWrapMode.Anywhere
                         ∨ o.wordBreakMode = WordBreakMode.BreakAll
  let st1 := if st.lineW + w > maxW then breakOnOverflow o anywhere st else st
  let st2 := pushChar st1 c
  { st2 with lineW := st2.lineW + w, lastGlyph := c }

/-- The final branch, for a multi-byte sequence or a single byte of 0x80 and above. -/
def stepWide (f : Font) (maxW : Int) (o : WrapOptions) (cur : List Nat) (len cp : Nat)
    (st : WrapState) : WrapState :=
  let m := measure f st cur len cp
  let w := m.1
  let st0 := m.2
  let anywhere : Bool := o.overflowWrapMode = OverflowWrapMode.Anywhere
                         ∨ o.wordBreakMode = WordBreakMode.BreakAll
                         ∨ (!o.keepCJKWordsTogether ∧ _isCJK cp)
  let st1 := if st0.lineW + w > maxW then breakOnOverflow o anywhere st0 else st0
  let st2 := pushSlice st1 cur len
  { st2 with lineW := st2.lineW + w, lastGlyph := if cp < 256 then cp % 256 else 0xFF }

/-- One iteration of the `while (cur < end)` loop of `wrapText` on the bytes `cur` from the cursor
to the end: the variables afterwards and the number of bytes the cursor advanced. -/
def wrapStep (f : Font) (maxW : Int) (o : WrapOptions) (cur : List Nat) (st : WrapState) :
    WrapState × Nat :=
  match cur with
  | [] => (st, 0)
  | c :: _ =>
    if c = 10 then (stepNewline st, 1)
    else
      match _utf8 cur with
      | none => (st, 0)
      | some (cp, len) =>
        if cp = 0x00A0 ∧ o.allowNoBreakSpace then (stepNoBreakSpace f maxW o cur len cp st, len)
        else if cp = 0x2060 ∧ o.allowWordJoiner then (stepWordJoiner f maxW o cur len cp st, len)
        else if cp = 0x200B ∧ o.allowZeroWidthBreak then (markBreak st false 0, len)
        else if cp = 0x00AD ∧ o.allowSoftHyphen then (stepSoftHyphen o st, len)
        else if len = 1 ∧ _isAscii c then
          if _isSpace c then (stepSpace f maxW o st, 1)
          else if _isHyphen c then (stepHyphen f maxW o c st, 1)
          else (stepAscii f maxW o c st, 1)
        else (stepWide f maxW o cur len cp st, len)

/-- The loop `while (cur < end)`: every iteration advances the cursor by at least one byte, so
`fuel` iterations with `fuel` at least the number of remaining bytes run it to its end. -/
def wrapLoop (f : Font) (maxW : Int) (o : WrapOptions) : Nat → List Nat → WrapState → WrapState
  | 0, _, st => st
  | _ + 1, [], st => st
  | fuel + 1, c :: rest, st =>
    let r := wrapStep f maxW o (c :: rest) st
    wrapLoop f maxW o fuel ((c :: rest).drop r.2) r.1

/-- What a call of `wrapText` leaves behind: the returned string, the colour list behind the
`colors` pointer (`none` for a null pointer) and the scratch buffers. -/
structure Wrapped where
  out : List Nat
  colors : Option ColorRuns
  scratch : Scratch
deriving DecidableEq, Repr

/-- The function `BitmapFont::wrapText`. -/
def wrapText (f : Font) (text : List Nat) (maxWidth : Int) (o : WrapOptions)
    (colors : Option ColorRuns) (sc : Scratch) : Wrapped :=
  if text.isEmpty ∨ maxWidth ≤ 0 then { out := text, colors := colors, scratch := sc }
  else
    let st := wrapLoop f (max 0 maxWidth) o text.length text
      { out := [], colors := colors, scratch := sc, lastGlyph := 0xFF, lineW := 0,
        lastBreakOut := -1, lastBreakLineW := 0, lastBreakHy := false, lastBreakHyCount := 0 }
    { out := st.out, colors := st.colors, scratch := st.scratch }

end BitmapFont

namespace BitmapFont

/-! ## Outline offsets -/

/-- The integers `lo, lo + 1, …, hi` in increasing order: the values a loop
`for (int v = lo; v <= hi; ++v)` visits. -/
def intRange (lo hi : Int) : List Int :=
  (List.range (hi - lo + 1).toNat).map fun (k : Nat) => lo + Int.ofNat k

/-- The members `m_outlineOffsets` and `m_outlineThickness`. -/
structure Outline where
  offsets : List Point
  thickness : Int
deriving DecidableEq, Repr

/-- The function `BitmapFont::updateOutlineOffsets`, from the value of `m_outlineThickness`. -/
def updateOutlineOffsets (thickness : Int) : Outline :=
  if thickness ≤ 0 then { offsets := [], thickness := thickness }
  else
    let radius := thickness
    let radiusSquared := radius * radius
    let offsets := (intRange (-radius) radius).flatMap fun y =>
      (intRange (-radius) radius).filterMap fun x =>
        if x = 0 ∧ y = 0 then none
        else if x * x + y * y > radiusSquared then none
        else some (⟨x, y⟩ : Point)
    { offsets := offsets, thickness := if offsets.isEmpty then 0 else thickness }

/-! ## Atlas builder -/

/-- The call `std::clamp(v, lo, hi)`. -/
def clamp (v lo hi : Int) : Int := if v < lo then lo else if hi < v then hi else v

/-- The record `TrueTypeFontSettings`, without the floating-point `pixelSize`. -/
structure TrueTypeFontSettings where
  file : String
  atlasSize : Size
  oversample : Size
  firstGlyph : Int
  lastGlyph : Int
  padding : Int
deriving DecidableEq, Repr

/-- The metric tables of `TrueTypeFontBuildResult` (the atlas image is left out). -/
structure TrueTypeFontBuildResult where
  textureCoords : Nat → Rect
  glyphSize : Nat → Size
  glyphOffset : Nat → Point
  glyphAdvance : Nat → Int
  glyphHeight : Int
  baseline : Int
  kerning : Nat → Nat → Int

/-- The failures of `TrueTypeFontBuilder::build`, one per `throw`. -/
inductive BuildError where
  | missingPath
  | emptyFile
  | cannotLocate
  | cannotParse
  | invalidGlyphRange
  | cannotStartPacking
  | cannotPack
deriving DecidableEq, Repr

/-- The corners `x0`, `y0`, `x1`, `y1` of a packed glyph box (`stbtt_packedchar`). -/
structure PackedBox where
  x0 : Int
  y0 : Int
  x1 : Int
  y1 : Int
deriving DecidableEq, Repr

/-- Modelled from the spec: the external collaborators of the atlas builder, the resource manager
and the outline rasterizer, as the outcomes of the calls `build` makes: whether the file read is
empty, the font offset, whether the font parses, whether packing starts and succeeds for the
resolved atlas size, padding, oversampling and glyph range, and then, already rounded to
integers, the packed box, offset and advance of each glyph, the line height and baseline, the
internal glyph index of each code point, and the kerning of a pair in font units and scaled. -/
structure Rasterizer where
  bufferEmpty : Bool
  fontOffset : Int
  initFont : Bool
  packBegin : Int → Int → Int → Bool
  packFontRange : Int → Int → Int → Int → Bool
  packedBox : Nat → PackedBox
  packedOffset : Nat → Point
  packedAdvance : Nat → Int
  lineHeight : Int
  baseline : Int
  glyphIndex : Nat → Int
  kernAdvance : Nat → Nat → Int
  scaledKern : Nat → Nat → Int

/-- The tail of `TrueTypeFontBuilder::build`, after packing has succeeded: the tables of the
result for the resolved glyph range. `blank` is the value-initialised `result` object, whose
entries outside the range stay as they are. -/
def buildTables (ext : Rasterizer) (blank : TrueTypeFontBuildResult) (firstGlyph lastGlyph : Int) :
    TrueTypeFontBuildResult :=
  let inRange : Nat → Bool := fun g =>
    decide (firstGlyph ≤ (g : Int)) && decide ((g : Int) ≤ lastGlyph)
  { textureCoords := fun g =>
      if inRange g then
        Rect.ofPointSize ⟨(ext.packedBox g).x0, (ext.packedBox g).y0⟩
          ⟨(ext.packedBox g).x1 - (ext.packedBox g).x0,
           (ext.packedBox g).y1 - (ext.packedBox g).y0⟩
      else blank.textureCoords g,
    glyphSize := fun g =>
      if inRange g then
        ⟨(ext.packedBox g).x1 - (ext.packedBox g).x0,
         (ext.packedBox g).y1 - (ext.packedBox g).y0⟩
      else blank.glyphSize g,
    glyphOffset := fun g => if inRange g then ext.packedOffset g else blank.glyphOffset g,
    glyphAdvance := fun g => if inRange g then ext.packedAdvance g else blank.glyphAdvance g,
    glyphHeight := ext.lineHeight,
    baseline := ext.baseline,
    kerning := fun a b =>
      if inRange a && inRange b && decide (ext.glyphIndex a ≠ 0)
          && decide (ext.glyphIndex b ≠ 0) && decide (ext.kernAdvance a b ≠ 0) then
        clamp (ext.scaledKern a b) (-32768) 32767
      else blank.kerning a b }

/-- The function `TrueTypeFontBuilder::build`; `blank` is the value-initialised `result`
object. -/
def build (ext : Rasterizer) (blank : TrueTypeFontBuildResult) (settings : TrueTypeFontSettings) :
    Except BuildError TrueTypeFontBuildResult :=
  if settings.file = "" then Except.error BuildError.missingPath
  else if ext.bufferEmpty then Except.error BuildError.emptyFile
  else if ext.fontOffset < 0 then Except.error BuildError.cannotLocate
  else if !ext.initFont then Except.error BuildError.cannotParse
  else
    let firstGlyph := clamp settings.firstGlyph 0 255
    let lastGlyph := clamp settings.lastGlyph firstGlyph 255
    let glyphCount := max 0 (lastGlyph - firstGlyph + 1)
    if glyphCount = 0 then Except.error BuildError.invalidGlyphRange
    else
      let atlasWidth := max 64 settings.atlasSize.width
      let atlasHeight := max 64 settings.atlasSize.height
      if !ext.packBegin atlasWidth atlasHeight settings.padding then
        Except.error BuildError.cannotStartPacking
      else
        let oversampleX := clamp settings.oversample.width 1 8
        let oversampleY := clamp settings.oversample.height 1 8
        if !ext.packFontRange oversampleX oversampleY firstGlyph glyphCount then
          Except.error BuildError.cannotPack
        else Except.ok (buildTables ext blank firstGlyph lastGlyph)

/-! ## Font loader -/

/-- Modelled from the spec: the entries `BitmapFont::load` reads from the `ttf-file` branch of the
font node, each `none` when the node has no such child; `file` is the resolved path. -/
structure TtfNode where
  file : String
  atlasSize : Option Size
  oversample : Option Size
  padding : Option Int
  glyphRange : Option Point
  lastGlyph : Option Int
deriving DecidableEq, Repr

/-- Modelled from the spec: the entries `BitmapFont::load` reads from the font node, each `none`
when the node has no such child (`height` and `glyph-size` have no default on the fixed-sheet
path and are read as 0 and `(0, 0)` when absent here). -/
structure FontNode where
  spacing : Option Size
  firstGlyph : Option Int
  yOffset : Option Int
  outlineThickness : Option Int
  ttf : Option TtfNode
  height : Option Int
  spaceWidth : Option Int
  glyphSize : Option Size
  fixedGlyphWidth : Option Int
deriving DecidableEq, Repr

/-- Modelled from the spec: a loaded image, as its size and the bytes of its RGBA pixel buffer by
index. -/
structure Image where
  size : Size
  pixels : Int → Nat

/-- The state of the font object that `load` writes: the glyph tables, `m_firstGlyph`, the
outline members, and whether `m_texture` is set. -/
structure FontObject where
  font : Font
  firstGlyph : Int
  outline : Outline
  hasTexture : Bool

/-- The atlas cell of glyph `g` on a fixed sheet: the rectangle both
`calculateGlyphsWidthsAutomatically` and `load` compute (division by a zero cell count, undefined
in the source, reads as zero). -/
def sheetCell (firstGlyph : Int) (sheetWidth : Int) (glyphSize : Size) (g : Nat) (w h : Int) :
    Rect :=
  let numHorizontalGlyphs := sheetWidth.tdiv glyphSize.width
  Rect.ofPointSize
    ⟨(((g : Int) - firstGlyph).tmod numHorizontalGlyphs) * glyphSize.width,
     (((g : Int) - firstGlyph).tdiv numHorizontalGlyphs) * glyphSize.height⟩ ⟨w, h⟩

/-- The width `calculateGlyphsWidthsAutomatically` finds for glyph `g`: one past the last column
of its cell that holds a pixel with non-zero alpha, or the cell width when there is none. -/
def autoGlyphWidth (image : Image) (firstGlyph : Int) (glyphSize : Size) (glyphHeight : Int)
    (g : Nat) : Int :=
  let glyphCoords := sheetCell firstGlyph image.size.width glyphSize g glyphSize.width glyphHeight
  (intRange glyphCoords.x1 glyphCoords.x2).foldl
    (fun width x =>
      if (intRange glyphCoords.y1 glyphCoords.y2).any
          (fun y => image.pixels ((y * image.size.width * 4) + x * 4 + 3) != 0)
      then x - glyphCoords.x1 + 1 else width)
    glyphSize.width

/-- The function `BitmapFont::calculateGlyphsWidthsAutomatically` on the size table: `none` is
the null image pointer. Only the table entries of byte values are modelled (a `m_firstGlyph`
below zero indexes outside the table in the source). -/
def calculateGlyphsWidthsAutomatically (image : Option Image) (firstGlyph : Int)
    (glyphSize : Size) (glyphHeight : Int) (glyphsSize : Nat → Size) : Nat → Size :=
  match image with
  | none => glyphsSize
  | some img =>
    fun g =>
      if firstGlyph ≤ (g : Int) ∧ g < 256 then
        ⟨autoGlyphWidth img firstGlyph glyphSize glyphHeight g, glyphHeight⟩
      else glyphsSize g

/-- The overrides both paths of `load` apply to DEL and newline:
`m_glyphsSize[127].setWidth(1)`, `m_glyphsAdvance[127] = 1`, `m_glyphsSize['\n'] = {1,
m_glyphHeight}`, `m_glyphsAdvance['\n'] = 0`. -/
def overrideDelAndNewline (f : Font) : Font :=
  { f with
    glyphsSize := fun g =>
      if g = 10 then ⟨1, f.glyphHeight⟩
      else if g = 127 then ⟨1, (f.glyphsSize 127).height⟩
      else f.glyphsSize g,
    glyphsAdvance := fun g =>
      if g = 10 then 0 else if g = 127 then 1 else f.glyphsAdvance g }

/-- The two assignments `m_glyphsSize[32].setWidth(w)` and `m_glyphsAdvance[32] = w`. -/
def setSpaceWidth (f : Font) (w : Int) : Font :=
  { f with
    glyphsSize := fun g => if g = 32 then ⟨w, (f.glyphsSize 32).height⟩ else f.glyphsSize g,
    glyphsAdvance := fun g => if g = 32 then w else f.glyphsAdvance g }

/-- The outline path of `load`, after `build` has returned `result`: the glyph tables of the font
object. `f` holds the members set before (`m_glyphSpacing`, `m_yOffset`). -/
def loadOutlineTables (node : FontNode) (result : TrueTypeFontBuildResult) (f : Font) : Font :=
  let glyphHeight0 := node.height.getD result.glyphHeight
  let minYOffset := (List.range 256).foldl (fun m g => min m (result.glyphOffset g).y) 0
  let maxYOffset := (List.range 256).foldl
    (fun m g => max m ((result.glyphOffset g).y + (result.glyphSize g).height)) 0
  let yShift := -minYOffset
  let f1 : Font :=
    { glyphsSize := result.glyphSize,
      glyphsTextureCoords := result.textureCoords,
      glyphsOffset := fun g => ⟨(result.glyphOffset g).x, (result.glyphOffset g).y + yShift⟩,
      glyphsAdvance := result.glyphAdvance,
      kerning := result.kerning,
      glyphSpacing := f.glyphSpacing,
      glyphHeight := max glyphHeight0 (maxYOffset - minYOffset),
      yOffset := match node.yOffset with
        | some customYOffset => customYOffset + yShift
        | none => yShift }
  let f2 := overrideDelAndNewline f1
  let f3 :=
    if (f2.glyphsSize 32).width = 0 then
      setSpaceWidth f2 (max (f2.glyphsAdvance 32) (f2.glyphHeight.tdiv 4))
    else f2
  setSpaceWidth f3 (node.spaceWidth.getD (f3.glyphsAdvance 32))

/-- The fixed-sheet path of `load` once the texture is there: the glyph tables of the font
object. `f` holds the members set before, `firstGlyph` is `m_firstGlyph`, `textureSize` the size
of the sheet texture and `image` the sheet image (`none` when it does not load). -/
def loadSheetTables (node : FontNode) (firstGlyph : Int) (textureSize : Size)
    (image : Option Image) (f : Font) : Font :=
  let glyphSize := node.glyphSize.getD ⟨0, 0⟩
  let spaceWidth := node.spaceWidth.getD glyphSize.width
  let f0 : Font := { f with glyphHeight := node.height.getD 0 }
  let inSheet : Nat → Bool := fun g => decide (firstGlyph ≤ (g : Int)) && decide (g < 256)
  let f1 : Font :=
    match node.fixedGlyphWidth with
    | some w =>
      { f0 with glyphsSize := fun g => if inSheet g then ⟨w, f0.glyphHeight⟩ else f0.glyphsSize g }
    | none =>
      { f0 with glyphsSize :=
          (calculateGlyphsWidthsAutomatically image firstGlyph glyphSize f0.glyphHeight
            f0.glyphsSize) }
  let f2 := overrideDelAndNewline (setSpaceWidth f1 spaceWidth)
  let f3 : Font :=
    { f2 with
      glyphsTextureCoords := fun g =>
        if inSheet g then
          sheetCell firstGlyph textureSize.width glyphSize g (f2.glyphsSize g).width f2.glyphHeight
        else f2.glyphsTextureCoords g,
      glyphsOffset := fun g => if inSheet g then ⟨0, 0⟩ else f2.glyphsOffset g,
      glyphsAdvance := fun g => if inSheet g then (f2.glyphsSize g).width else f2.glyphsAdvance g }
  { f3 with
    glyphsOffset := fun g => if g < 32 then ⟨0, 0⟩ else f3.glyphsOffset g,
    glyphsAdvance := fun g => if g < 32 then (f3.glyphsSize g).width else f3.glyphsAdvance g }

/-- The function `BitmapFont::load` on the font object `obj`. The outside world is given by the
rasterizer `ext` and the value-initialised build result `blank` (outline path), and by the size
of the sheet texture, `none` when the texture manager returns none, and the sheet image
(fixed-sheet path). An exception of `build` leaves `load` as that error. -/
def load (ext : Rasterizer) (blank : TrueTypeFontBuildResult) (textureSize : Option Size)
    (image : Option Image) (node : FontNode) (obj : FontObject) : Except BuildError FontObject :=
  let firstGlyph := node.firstGlyph.getD 32
  let thickness := max 0 (node.outlineThickness.getD 0)
  let f0 : Font :=
    { obj.font with kerning := fun _ _ => 0,
                    glyphSpacing := node.spacing.getD ⟨0, 0⟩,
                    yOffset := node.yOffset.getD 0 }
  let outline := updateOutlineOffsets thickness
  match node.ttf with
  | some ttf =>
    let first := match ttf.glyphRange with
      | some range => clamp range.x 0 255
      | none => firstGlyph
    let last := match ttf.glyphRange with
      | some range => clamp range.y first 255
      | none => clamp (ttf.lastGlyph.getD 255) first 255
    let settings : TrueTypeFontSettings :=
      { file := ttf.file,
        atlasSize := ttf.atlasSize.getD ⟨1024, 1024⟩,
        oversample := ttf.oversample.getD ⟨1, 1⟩,
        firstGlyph := first, lastGlyph := last,
        padding := ttf.padding.getD 1 }
    match build ext blank settings with
    | Except.error e => Except.error e
    | Except.ok result =>
      Except.ok { font := loadOutlineTables node result f0, firstGlyph := firstGlyph,
                  outline := outline, hasTexture := true }
  | none =>
    match textureSize with
    | none =>
      Except.ok { font := { f0 with glyphHeight := node.height.getD 0 },
                  firstGlyph := firstGlyph, outline := outline, hasTexture := false }
    | some ts =>
      Except.ok { font := loadSheetTables node firstGlyph ts image f0, firstGlyph := firstGlyph,
                  outline := outline, hasTexture := true }

/-! ## Vocabulary of the statements -/

/-- The bytes of an ASCII string literal. -/
def bytesOf (s : String) : List Nat := s.toList.map Char.toNat

/-- A glyph table in which every glyph has advance `a` and a box of `a` by 16 pixels (the same
atlas rectangle for all), with no offset, no kerning, no glyph spacing and `glyphHeight = 16`. -/
def uniformFont (a : Int) : Font :=
  { glyphsSize := fun _ => ⟨a, 16⟩, glyphsTextureCoords := fun _ => Rect.ofPointSize ⟨0, 0⟩ ⟨a, 16⟩,
    glyphsOffset := fun _ => ⟨0, 0⟩, glyphsAdvance := fun _ => a,
    kerning := fun _ _ => 0, glyphSpacing := ⟨0, 0⟩, glyphHeight := 16, yOffset := 0 }

/-- Wrap options with hyphenation `None`, overflow-wrap `Normal` and word-break `Normal`, every
special code point enabled and CJK text breaking per character. -/
def plainOptions : WrapOptions :=
  { allowNoBreakSpace := true, allowWordJoiner := true, allowZeroWidthBreak := true,
    allowSoftHyphen := true, hyphenationMode := HyphenationMode.None,
    overflowWrapMode := OverflowWrapMode.Normal, wordBreakMode := WordBreakMode.Normal,
    keepCJKWordsTogether := false }

/-- The lines of a text: the pieces between its `'\n'` bytes. -/
def splitLines : List Nat → List (List Nat)
  | [] => [[]]
  | c :: rest =>
    if c = 10 then [] :: splitLines rest
    else
      match splitLines rest with
      | [] => [[c]]
      | l :: ls => (c :: l) :: ls

/-- The accumulated width of a line: the sum of advance plus horizontal spacing over its bytes. -/
def accumulatedWidth (f : Font) (line : List Nat) : Int :=
  (line.map fun g => f.glyphsAdvance g + f.glyphSpacing.width).sum

/-- Strictly increasing start indices of a colour-run list (vacuous for the null pointer). -/
def runsIncreasing (colors : Option ColorRuns) : Prop :=
  match colors with
  | none => True
  | some cs => cs.Pairwise fun a b => a.1 < b.1

/-- A byte that is an ordinary printable ASCII character for both engines: a glyph of the
layout engine (at least 32) and a single-byte character of the wrapping engine (below 0x80). -/
def isPlain (c : Nat) : Prop := 32 ≤ c ∧ c < 128

/-- The wrapping engine's own measure never overflows on the bytes `text` from the cursor on,
starting from previous glyph `last` and line width `lineW`: each byte's advance (with kerning
against the previous glyph of the line) plus spacing keeps the running width within `maxW`;
a `'\n'` restarts the line. -/
def staysWithin (f : Font) (maxW : Int) : List Nat → Nat → Int → Prop
  | [], _, _ => True
  | c :: rest, last, lineW =>
    if c = 10 then staysWithin f maxW rest 0xFF 0
    else
      lineW + (glyphAdvanceWithKerning f last c + f.glyphSpacing.width) ≤ maxW
      ∧ staysWithin f maxW rest c
          (lineW + (glyphAdvanceWithKerning f last c + f.glyphSpacing.width))

/-- The previous glyph and running line width of the wrapping engine after the bytes `text`. -/
def lineEnd (f : Font) : List Nat → Nat → Int → Nat × Int
  | [], last, lineW => (last, lineW)
  | c :: rest, last, lineW =>
    if c = 10 then lineEnd f rest 0xFF 0
    else lineEnd f rest c (lineW + (glyphAdvanceWithKerning f last c + f.glyphSpacing.width))

/-- The previous glyph of the layout pre-pass (`-1` for none) and of the wrapping loop (`0xFF`
for none) denote the same glyph. -/
def samePrev (p : Int) (last : Nat) : Prop :=
  (p = -1 ∧ last = 0xFF) ∨ (p = (last : Int) ∧ last < 128)

/-- The x below which no further glyph of the current line is placed when pen increments are
non-negative: the position of the previous glyph of the line, or the pen x when the line has no
glyph yet. -/
def penFloor (f : Font) (s : MainPass) : Int :=
  if s.prevGlyph ≥ 0 then
    s.vpos.x - (f.glyphsAdvance s.prevGlyph.toNat + f.glyphSpacing.width)
  else s.vpos.x

/-- The right shift the final pass of `calculateGlyphsPositions` applies to every placed glyph:
`-minX` when the leftmost glyph edge `minX` is negative, otherwise none. -/
def layoutShift (f : Font) (text : List Nat) (align : AlignmentFlag)
    (glyphsPositions : List Point) (lineWidths : List Int) (wantBox : Bool) : Int :=
  if (layoutExtent f text align glyphsPositions lineWidths wantBox).hasGlyph = true
      ∧ (layoutExtent f text align glyphsPositions lineWidths wantBox).minX < 0 then
    -(layoutExtent f text align glyphsPositions lineWidths wantBox).minX
  else 0

/-- The left edge of the glyph `g` placed at index `i`: its position plus its x-offset. -/
def glyphLeft (f : Font) (pos : List Point) (i g : Nat) : Int :=
  (pos.getD i ⟨0, 0⟩).x + (f.glyphsOffset g).x

/-- The right edge of the glyph `g` placed at index `i`: its left edge plus its width. -/
def glyphRight (f : Font) (pos : List Point) (i g : Nat) : Int :=
  glyphLeft f pos i g + (f.glyphsSize g).width

/-- The glyph rectangle after `clipAndTranslateGlyph` has trimmed its top and left edge at zero
and translated it into the viewport. -/
def trimmedGlyph (G S : Rect) : Rect :=
  { x1 := (if G.x1 < 0 then 0 else G.x1) + S.x1, y1 := (if G.y1 < 0 then 0 else G.y1) + S.y1,
    x2 := G.x2 + S.x1, y2 := G.y2 + S.y1 }

/-- A rasterizer for which every external call succeeds: each glyph is packed as an 8 by 16 box
with offset `(0, -12)` and advance 9, the line height is 16, and the font has no kerning. -/
def plainRasterizer : Rasterizer :=
  { bufferEmpty := false, fontOffset := 0, initFont := true,
    packBegin := fun _ _ _ => true, packFontRange := fun _ _ _ _ => true,
    packedBox := fun _ => ⟨0, 0, 8, 16⟩, packedOffset := fun _ => ⟨0, -12⟩,
    packedAdvance := fun _ => 9, lineHeight := 16, baseline := 12,
    glyphIndex := fun g => (g : Int), kernAdvance := fun _ _ => 0, scaledKern := fun _ _ => 0 }

/-- A build result with every table entry zero. -/
def zeroBuildResult : TrueTypeFontBuildResult :=
  { textureCoords := fun _ => ⟨0, 0, 0, 0⟩, glyphSize := fun _ => ⟨0, 0⟩,
    glyphOffset := fun _ => ⟨0, 0⟩, glyphAdvance := fun _ => 0, glyphHeight := 0, baseline := 0,
    kerning := fun _ _ => 0 }

/-- Settings asking for the glyph range from 100 down to 50. -/
def reversedRangeSettings : TrueTypeFontSettings :=
  { file := "font.ttf", atlasSize := ⟨512, 512⟩, oversample := ⟨1, 1⟩, firstGlyph := 100,
    lastGlyph := 50, padding := 1 }

/-- A font node of the fixed-sheet path: first glyph 32, height 16, cells of 8 by 16 and a fixed
glyph width of 8. -/
def sheetNode : FontNode :=
  { spacing := none, firstGlyph := some 32, yOffset := none, outlineThickness := none,
    ttf := none, height := some 16, spaceWidth := none, glyphSize := some ⟨8, 16⟩,
    fixedGlyphWidth := some 8 }

/-- A font object before `load`, every table entry zero. -/
def zeroFontObject : FontObject :=
  { font := uniformFont 0, firstGlyph := 0, outline := { offsets := [], thickness := 0 },
    hasTexture := false }

/-- A font node of the outline path: the file `font.ttf` with every other entry left to its
default. -/
def outlineNode : FontNode :=
  { spacing := none, firstGlyph := none, yOffset := none, outlineThickness := none,
    ttf := some { file := "font.ttf", atlasSize := none, oversample := none, padding := none,
                  glyphRange := none, lastGlyph := none },
    height := none, spaceWidth := none, glyphSize := none, fixedGlyphWidth := none }

/-- The words of a text: its maximal non-empty runs of bytes other than `' '` and `'\n'`. -/
def wordsOf : List Nat → List (List Nat)
  | [] => []
  | c :: rest =>
    if c = 32 ∨ c = 10 then wordsOf rest
    else
      match rest with
      | [] => [[c]]
      | d :: _ =>
        if d = 32 ∨ d = 10 then [c] :: wordsOf rest
        else
          match wordsOf rest with
          | [] => [[c]]
          | w :: ws => (c :: w) :: ws

/-- The variables of `wrapText` when its loop is entered, with no colour list. -/
def wrapStart (sc : Scratch) : WrapState :=
  { out := [], colors := none, scratch := sc, lastGlyph := 0xFF, lineW := 0,
    lastBreakOut := -1, lastBreakLineW := 0, lastBreakHy := false, lastBreakHyCount := 0 }

/-- The visible content of a text: its bytes other than `' '`, `'\t'` and `'\n'`, in order. -/
def visibleBytes (t : List Nat) : List Nat :=
  t.filter fun c => c != 32 && c != 9 && c != 10

/-- One iteration of the loop of `wrapText` on an ASCII byte `c` (below `0x80`): the branch for
`'\n'`, for a space or tab, for a hyphen, or for any other single-byte character. -/
def asciiStep (f : Font) (maxW : Int) (o : WrapOptions) (c : Nat) (st : WrapState) : WrapState :=
  if c = 10 then stepNewline st
  else if _isSpace c then stepSpace f maxW o st
  else if _isHyphen c then stepHyphen f maxW o c st
  else stepAscii f maxW o c st

/-- The iterations of the loop of `wrapText` over an ASCII text, one per byte. -/
def asciiRun (f : Font) (maxW : Int) (o : WrapOptions) : List Nat → WrapState → WrapState
  | [], st => st
  | c :: t, st => asciiRun f maxW o t (asciiStep f maxW o c st)

/-- The variables of `wrapText` with the bytes `p` put in front of the output built so far; the
break candidate, an index into the output, moves along with it. -/
def shiftOut (p : List Nat) (st : WrapState) : WrapState :=
  { st with out := p ++ st.out,
            lastBreakOut := if st.lastBreakOut ≥ 0 then st.lastBreakOut + (p.length : Int)
                            else st.lastBreakOut }

/-- Two states of the main pass with the same pen: the same variables apart from the positions
buffer. -/
def samePen (s s' : MainPass) : Prop :=
  s.vpos = s'.vpos ∧ s.lines = s'.lines ∧ s.prevGlyph = s'.prevGlyph

/-- Two states of the line-width pre-pass that agree on everything the pass and its readers
use: the counters, and the widths of the lines reached so far. -/
def sameWidths (s s' : PrePass) : Prop :=
  s.lines = s'.lines ∧ s.maxLineWidth = s'.maxLineWidth ∧ s.prevGlyph = s'.prevGlyph
  ∧ s.lines < s.lineWidths.length ∧ s'.lines < s'.lineWidths.length
  ∧ ∀ k, k ≤ s.lines → s.lineWidths.getD k 0 = s'.lineWidths.getD k 0

/-! ## Theorems -/

/-- C1: with uniform advance 10, no kerning, zero glyph spacing and `glyphHeight = 16`,
wrapping `"ab cd"` at `maxWidth = 25` with hyphenation `None`, overflow-wrap `Normal` and
word-break `Normal` returns exactly `"ab\ncd"` (whatever the other glyph-table fields, the other
options, the colour list and the scratch buffers are). -/
theorem wrapText_ab_cd (f : Font) (o : WrapOptions) (colors : Option ColorRuns) (sc : Scratch) :
    (wrapText { f with glyphsAdvance := fun _ => 10, kerning := fun _ _ => 0,
                       glyphSpacing := ⟨0, 0⟩, glyphHeight := 16 }
      (bytesOf "ab cd") 25
      { o with hyphenationMode := HyphenationMode.None,
               overflowWrapMode := OverflowWrapMode.Normal,
               wordBreakMode := WordBreakMode.Normal }
      colors sc).out = bytesOf "ab\ncd" := by
  rfl

/-- C2 (as stated, refuted): with advance 8 per glyph and `maxWidth = 20` only two letters fit
on a line, so `"hello"` under `BreakWord` is not wrapped to `"he\nllo"` (hyphenation `None`) nor
to `"he-\nllo"` (hyphenation `Auto`). -/
theorem wrapText_hello_not_two_lines :
    (wrapText (uniformFont 8) (bytesOf "hello") 20
        { plainOptions with overflowWrapMode := OverflowWrapMode.BreakWord }
        none Scratch.initial).out ≠ bytesOf "he\nllo"
    ∧ (wrapText (uniformFont 8) (bytesOf "hello") 20
        { plainOptions with overflowWrapMode := OverflowWrapMode.BreakWord,
                            hyphenationMode := HyphenationMode.Auto }
        none Scratch.initial).out ≠ bytesOf "he-\nllo" := by
  constructor <;> decide

/-- C2 (amended): with advance 8 per letter, no kerning and zero glyph spacing,
`wrapText("hello", 20)` under `BreakWord` breaks after every second letter: it returns
`"he\nll\no"` when hyphenation is `None` and `"he-\nll-\no"` when it is `Auto`. -/
theorem wrapText_hello_break_word (f : Font) (o : WrapOptions) (colors : Option ColorRuns)
    (sc : Scratch) :
    (wrapText { f with glyphsAdvance := fun g => if 97 ≤ g ∧ g ≤ 122 then 8 else f.glyphsAdvance g,
                       kerning := fun _ _ => 0, glyphSpacing := ⟨0, 0⟩ }
        (bytesOf "hello") 20
        { o with overflowWrapMode := OverflowWrapMode.BreakWord,
                 hyphenationMode := HyphenationMode.None }
        colors sc).out = bytesOf "he\nll\no"
    ∧ (wrapText { f with glyphsAdvance := fun g => if 97 ≤ g ∧ g ≤ 122 then 8 else f.glyphsAdvance g,
                         kerning := fun _ _ => 0, glyphSpacing := ⟨0, 0⟩ }
        (bytesOf "hello") 20
        { o with overflowWrapMode := OverflowWrapMode.BreakWord,
                 hyphenationMode := HyphenationMode.Auto }
        colors sc).out = bytesOf "he-\nll-\no" := by
  constructor <;> rfl

/-- C3 (the code at the failing input): with uniform advance 10, no kerning and no spacing every
glyph fits in `maxWidth = 25`, yet `"ab cde"` is wrapped to `"ab\n\ncde"`, whose third line has
accumulated width 30: not every line of the output is within `maxWidth`. -/
theorem wrapText_line_exceeds_maxWidth :
    (wrapText (uniformFont 10) (bytesOf "ab cde") 25 plainOptions none Scratch.initial).out
      = bytesOf "ab\n\ncde"
    ∧ accumulatedWidth (uniformFont 10) (bytesOf "cde") = 30
    ∧ ¬ ∀ line ∈ splitLines
          (wrapText (uniformFont 10) (bytesOf "ab cde") 25 plainOptions none Scratch.initial).out,
        accumulatedWidth (uniformFont 10) line ≤ 25 := by
  refine ⟨by decide, by decide, ?_⟩
  intro h
  have h1 := h (bytesOf "cde") (by decide)
  revert h1
  decide

/-- C6 (the code at the failing input): `"abc"` fits in `maxWidth = 100` and is returned
unchanged, nothing is inserted, yet the run that started at index 1 starts at index 4
afterwards: every copied byte shifted it. -/
theorem wrapText_shifts_runs_without_insertion :
    (wrapText (uniformFont 10) (bytesOf "abc") 100 plainOptions
        (some [(0, ⟨1⟩), (1, ⟨2⟩)]) Scratch.initial).out = bytesOf "abc"
    ∧ (wrapText (uniformFont 10) (bytesOf "abc") 100 plainOptions
        (some [(0, ⟨1⟩), (1, ⟨2⟩)]) Scratch.initial).colors = some [(0, ⟨1⟩), (4, ⟨2⟩)] := by
  constructor <;> decide

/-! ### Colour runs -/

/-- C7: `updateColors(colors, pos, n)` keeps the number of runs and every run's colour, adds `n`
to the start index of every run that starts after `pos` and leaves the runs that start at or
before `pos` unchanged; on a null pointer it does nothing. Instance: a newline inserted at
output position 5 shifts the runs starting at 6 and 9 by one and leaves those at 3 and 5. -/
theorem updateColors_shifts_runs_after_pos (cs : ColorRuns) (pos n : Int) :
    (∃ cs' : ColorRuns, updateColors (some cs) pos n = some cs' ∧ cs'.length = cs.length ∧
      ∀ (i : Nat) (r : Int × Color), cs[i]? = some r →
        ∃ r' : Int × Color, cs'[i]? = some r' ∧ r'.2 = r.2 ∧
          (r.1 > pos → r'.1 = r.1 + n) ∧ (r.1 ≤ pos → r'.1 = r.1))
    ∧ updateColors none pos n = none
    ∧ updateColors (some [(3, ⟨1⟩), (5, ⟨2⟩), (6, ⟨3⟩), (9, ⟨4⟩)]) 5 1
        = some [(3, ⟨1⟩), (5, ⟨2⟩), (7, ⟨3⟩), (10, ⟨4⟩)] := by
  refine ⟨⟨_, rfl, by simp, ?_⟩, rfl, by decide⟩
  intro i r hr
  refine ⟨_, by rw [List.getElem?_map, hr]; rfl, ?_⟩
  by_cases h : r.1 > pos
  · simp [h]
  · simp [h]

/-- Shifting the runs after `pos` by a non-negative amount keeps the start indices strictly
increasing. -/
theorem runsIncreasing_updateColors (colors : Option ColorRuns) (pos n : Int) (hn : 0 ≤ n)
    (h : runsIncreasing colors) : runsIncreasing (updateColors colors pos n) := by
  cases colors with
  | none => trivial
  | some cs =>
    simp only [runsIncreasing, updateColors] at h ⊢
    rw [List.pairwise_map]
    refine h.imp ?_
    intro a b hab
    by_cases ha : a.1 > pos <;> by_cases hb : b.1 > pos <;> simp only [ha, hb, if_true, if_false]
      <;> omega

/-! ### What the wrapping loop does to the colour list

Every write to the colour list is a call of `updateColors` with a non-negative length, so a
property of the list that such calls preserve is an invariant of the loop. -/

theorem pushChar_colors (P : Option ColorRuns → Prop)
    (hP : ∀ (c : Option ColorRuns) (pos n : Int), 0 ≤ n → P c → P (updateColors c pos n))
    (st : WrapState) (ch : Nat) (h : P st.colors) : P (pushChar st ch).colors :=
  hP _ _ 1 (by decide) h

theorem pushSlice_colors (P : Option ColorRuns → Prop)
    (hP : ∀ (c : Option ColorRuns) (pos n : Int), 0 ≤ n → P c → P (updateColors c pos n))
    (st : WrapState) (s : List Nat) (n : Nat) (h : P st.colors) : P (pushSlice st s n).colors :=
  hP _ _ n (Int.ofNat_nonneg n) h

theorem newline_colors (P : Option ColorRuns → Prop)
    (hP : ∀ (c : Option ColorRuns) (pos n : Int), 0 ≤ n → P c → P (updateColors c pos n))
    (st : WrapState) (h : P st.colors) : P (newline st).colors :=
  hP _ _ 1 (by decide) h

theorem commitBreak_colors (P : Option ColorRuns → Prop)
    (hP : ∀ (c : Option ColorRuns) (pos n : Int), 0 ≤ n → P c → P (updateColors c pos n))
    (o : WrapOptions) (st : WrapState) (forced : Bool) (h : P st.colors) :
    P (commitBreak o st forced).colors := by
  unfold commitBreak
  split_ifs
  · exact hP _ _ 1 (by decide) (hP _ _ 1 (by decide) h)
  · exact hP _ _ 1 (by decide) h
  · exact newline_colors P hP _ (hP _ _ 1 (by decide) h)
  · exact newline_colors P hP _ h

theorem breakOnOverflow_colors (P : Option ColorRuns → Prop)
    (hP : ∀ (c : Option ColorRuns) (pos n : Int), 0 ≤ n → P c → P (updateColors c pos n))
    (o : WrapOptions) (anywhere : Bool) (st : WrapState) (h : P st.colors) :
    P (breakOnOverflow o anywhere st).colors := by
  unfold breakOnOverflow
  split_ifs
  · exact commitBreak_colors P hP _ _ _ h
  · exact commitBreak_colors P hP _ _ _ h
  · exact newline_colors P hP _ h

theorem measure_colors (f : Font) (st : WrapState) (s : List Nat) (len cp : Nat) :
    (measure f st s len cp).2.colors = st.colors := by
  unfold measure
  split_ifs <;> rfl

theorem stepNoBreakSpace_colors (P : Option ColorRuns → Prop)
    (hP : ∀ (c : Option ColorRuns) (pos n : Int), 0 ≤ n → P c → P (updateColors c pos n))
    (f : Font) (maxW : Int) (o : WrapOptions) (cur : List Nat) (len cp : Nat) (st : WrapState)
    (h : P st.colors) : P (stepNoBreakSpace f maxW o cur len cp st).colors := by
  have hm : P (measure f st cur len cp).2.colors := by rw [measure_colors]; exact h
  unfold stepNoBreakSpace
  show P (pushSlice _ cur len).colors
  refine pushSlice_colors P hP _ _ _ ?_
  split_ifs
  · exact commitBreak_colors P hP _ _ _ hm
  · exact hm

theorem stepWordJoiner_colors (P : Option ColorRuns → Prop)
    (hP : ∀ (c : Option ColorRuns) (pos n : Int), 0 ≤ n → P c → P (updateColors c pos n))
    (f : Font) (maxW : Int) (o : WrapOptions) (cur : List Nat) (len cp : Nat) (st : WrapState)
    (h : P st.colors) : P (stepWordJoiner f maxW o cur len cp st).colors := by
  have hm : P (measure f st cur len cp).2.colors := by rw [measure_colors]; exact h
  unfold stepWordJoiner
  show P (pushSlice _ cur len).colors
  refine pushSlice_colors P hP _ _ _ ?_
  split_ifs
  · exact commitBreak_colors P hP _ _ _ hm
  · exact hm

theorem stepSpace_colors (P : Option ColorRuns → Prop)
    (hP : ∀ (c : Option ColorRuns) (pos n : Int), 0 ≤ n → P c → P (updateColors c pos n))
    (f : Font) (maxW : Int) (o : WrapOptions) (st : WrapState) (h : P st.colors) :
    P (stepSpace f maxW o st).colors := by
  unfold stepSpace
  dsimp only
  split_ifs
  · exact commitBreak_colors P hP _ _ _ h
  · exact pushChar_colors P hP _ 32 h

theorem stepHyphen_colors (P : Option ColorRuns → Prop)
    (hP : ∀ (c : Option ColorRuns) (pos n : Int), 0 ≤ n → P c → P (updateColors c pos n))
    (f : Font) (maxW : Int) (o : WrapOptions) (c : Nat) (st : WrapState) (h : P st.colors) :
    P (stepHyphen f maxW o c st).colors := by
  unfold stepHyphen
  show P (pushChar _ c).colors
  refine pushChar_colors P hP _ _ ?_
  split_ifs
  · exact commitBreak_colors P hP _ _ _ h
  · exact h

theorem stepAscii_colors (P : Option ColorRuns → Prop)
    (hP : ∀ (c : Option ColorRuns) (pos n : Int), 0 ≤ n → P c → P (updateColors c pos n))
    (f : Font) (maxW : Int) (o : WrapOptions) (c : Nat) (st : WrapState) (h : P st.colors) :
    P (stepAscii f maxW o c st).colors := by
  unfold stepAscii
  show P (pushChar _ c).colors
  refine pushChar_colors P hP _ _ ?_
  split_ifs
  · exact breakOnOverflow_colors P hP _ _ _ h
  · exact h

theorem stepWide_colors (P : Option ColorRuns → Prop)
    (hP : ∀ (c : Option ColorRuns) (pos n : Int), 0 ≤ n → P c → P (updateColors c pos n))
    (f : Font) (maxW : Int) (o : WrapOptions) (cur : List Nat) (len cp : Nat) (st : WrapState)
    (h : P st.colors) : P (stepWide f maxW o cur len cp st).colors := by
  have hm : P (measure f st cur len cp).2.colors := by rw [measure_colors]; exact h
  unfold stepWide
  show P (pushSlice _ cur len).colors
  refine pushSlice_colors P hP _ _ _ ?_
  split_ifs
  · exact breakOnOverflow_colors P hP _ _ _ hm
  · exact hm

theorem wrapStep_colors (P : Option ColorRuns → Prop)
    (hP : ∀ (c : Option ColorRuns) (pos n : Int), 0 ≤ n → P c → P (updateColors c pos n))
    (f : Font) (maxW : Int) (o : WrapOptions) (cur : List Nat) (st : WrapState)
    (h : P st.colors) : P (wrapStep f maxW o cur st).1.colors := by
  unfold wrapStep
  split
  · exact h
  · split
    · exact pushChar_colors P hP _ 10 h
    · split
      · exact h
      · split
        · exact stepNoBreakSpace_colors P hP _ _ _ _ _ _ _ h
        · split
          · exact stepWordJoiner_colors P hP _ _ _ _ _ _ _ h
          · split
            · exact h
            · split
              · exact h
              · split
                · split
                  · exact stepSpace_colors P hP _ _ _ _ h
                  · split
                    · exact stepHyphen_colors P hP _ _ _ _ _ h
                    · exact stepAscii_colors P hP _ _ _ _ _ h
                · exact stepWide_colors P hP _ _ _ _ _ _ _ h

theorem wrapLoop_colors (P : Option ColorRuns → Prop)
    (hP : ∀ (c : Option ColorRuns) (pos n : Int), 0 ≤ n → P c → P (updateColors c pos n))
    (f : Font) (maxW : Int) (o : WrapOptions) (fuel : Nat) :
    ∀ (cur : List Nat) (st : WrapState),
      P st.colors → P (wrapLoop f maxW o fuel cur st).colors := by
  induction fuel with
  | zero => intro cur st h; exact h
  | succ k ih =>
    intro cur st h
    cases cur with
    | nil => exact h
    | cons c rest => exact ih _ _ (wrapStep_colors P hP f maxW o _ st h)

theorem wrapText_colors (P : Option ColorRuns → Prop)
    (hP : ∀ (c : Option ColorRuns) (pos n : Int), 0 ≤ n → P c → P (updateColors c pos n))
    (f : Font) (text : List Nat) (maxWidth : Int) (o : WrapOptions)
    (colors : Option ColorRuns) (sc : Scratch) (h : P colors) :
    P (wrapText f text maxWidth o colors sc).colors := by
  unfold wrapText
  split_ifs
  · exact h
  · exact wrapLoop_colors P hP f _ o _ _ _ h

/-- C8: if the run list has strictly increasing start indices, it still has after
`updateColors(colors, pos, n)` for every `pos` and every `n ≥ 0`, and after `wrapText` with
every glyph table, text, width and options. -/
theorem updateColors_wrapText_keep_runs_increasing (cs : ColorRuns)
    (h : runsIncreasing (some cs)) :
    (∀ pos n : Int, 0 ≤ n → runsIncreasing (updateColors (some cs) pos n))
    ∧ ∀ (f : Font) (text : List Nat) (maxWidth : Int) (o : WrapOptions) (sc : Scratch),
        runsIncreasing (wrapText f text maxWidth o (some cs) sc).colors :=
  ⟨fun pos n hn => runsIncreasing_updateColors _ pos n hn h,
   fun f text maxWidth o sc =>
     wrapText_colors runsIncreasing runsIncreasing_updateColors f text maxWidth o _ sc h⟩

/-- C8 at a concrete run list, for a break with an inserted newline. -/
theorem updateColors_wrapText_keep_runs_increasing_witness :
    runsIncreasing (some [(0, ⟨1⟩), (2, ⟨2⟩), (3, ⟨3⟩)])
    ∧ runsIncreasing (updateColors (some [(0, ⟨1⟩), (2, ⟨2⟩), (3, ⟨3⟩)]) 2 1)
    ∧ runsIncreasing (wrapText (uniformFont 10) (bytesOf "ab cd") 25 plainOptions
        (some [(0, ⟨1⟩), (2, ⟨2⟩), (3, ⟨3⟩)]) Scratch.initial).colors :=
  have h : runsIncreasing (some [(0, ⟨1⟩), (2, ⟨2⟩), (3, ⟨3⟩)]) := by
    simp [runsIncreasing]
  ⟨h, (updateColors_wrapText_keep_runs_increasing _ h).1 2 1 (by decide),
   (updateColors_wrapText_keep_runs_increasing _ h).2 _ _ _ _ _⟩

/-! ### Text that never overflows is copied -/

theorem utf8_ascii (c : Nat) (rest : List Nat) (hc : c < 128) :
    _utf8 (c :: rest) = some (c, 1) := by
  simp [_utf8, hc]

/-- A `'\n'` is copied and restarts the line. -/
theorem wrapStep_newline (f : Font) (maxW : Int) (o : WrapOptions) (rest : List Nat)
    (st : WrapState) :
    (wrapStep f maxW o (10 :: rest) st).2 = 1
    ∧ (wrapStep f maxW o (10 :: rest) st).1.out = st.out ++ [10]
    ∧ (wrapStep f maxW o (10 :: rest) st).1.lastGlyph = 0xFF
    ∧ (wrapStep f maxW o (10 :: rest) st).1.lineW = 0 := by
  simp [wrapStep, stepNewline, clearBreak, pushChar]

/-- A printable ASCII byte that does not overflow the line is copied and measured. -/
theorem wrapStep_plain (f : Font) (maxW : Int) (o : WrapOptions) (c : Nat) (rest : List Nat)
    (st : WrapState) (hc : isPlain c)
    (hfit : st.lineW + (glyphAdvanceWithKerning f st.lastGlyph c + f.glyphSpacing.width) ≤ maxW) :
    (wrapStep f maxW o (c :: rest) st).2 = 1
    ∧ (wrapStep f maxW o (c :: rest) st).1.out = st.out ++ [c]
    ∧ (wrapStep f maxW o (c :: rest) st).1.lastGlyph = c
    ∧ (wrapStep f maxW o (c :: rest) st).1.lineW
        = st.lineW + (glyphAdvanceWithKerning f st.lastGlyph c + f.glyphSpacing.width) := by
  obtain ⟨h32, h128⟩ := hc
  have h10 : c ≠ 10 := by omega
  have hA0 : c ≠ 0xA0 := by omega
  have h2060 : c ≠ 0x2060 := by omega
  have h200B : c ≠ 0x200B := by omega
  have hAD : c ≠ 0xAD := by omega
  have hasc : _isAscii c = true := by simp [_isAscii]; omega
  have hnot : ¬ st.lineW + (glyphAdvanceWithKerning f st.lastGlyph c + f.glyphSpacing.width) > maxW :=
    not_lt.mpr hfit
  unfold wrapStep
  simp only [h10, if_false, utf8_ascii c rest h128, hA0, h2060, h200B, hAD, false_and, hasc,
    and_self, if_true]
  by_cases hs : _isSpace c = true
  · have hc32 : c = 32 := by
      simp [_isSpace] at hs; omega
    subst hc32
    simp only [hs, if_true, stepSpace, pushChar, markBreak]
    rw [if_neg hnot]
    simp
  · simp only [hs, if_false]
    by_cases hh : _isHyphen c = true
    · simp only [hh, if_true, stepHyphen, pushChar, markBreak]
      rw [if_neg hnot]
      simp
    · simp only [hh, if_false, stepAscii, pushChar]
      rw [if_neg hnot]
      simp

theorem wrapLoop_nil (f : Font) (maxW : Int) (o : WrapOptions) (fuel : Nat) (st : WrapState) :
    wrapLoop f maxW o fuel [] st = st := by
  cases fuel <;> rfl

theorem wrapLoop_cons (f : Font) (maxW : Int) (o : WrapOptions) (fuel c : Nat) (r : List Nat)
    (st : WrapState) :
    wrapLoop f maxW o (fuel + 1) (c :: r) st
      = wrapLoop f maxW o fuel ((c :: r).drop (wrapStep f maxW o (c :: r) st).2)
          (wrapStep f maxW o (c :: r) st).1 := rfl

/-- Bytes that never overflow are copied one by one, whatever follows them. -/
theorem wrapLoop_copies (f : Font) (maxW : Int) (o : WrapOptions) :
    ∀ (t rest : List Nat) (fuel : Nat) (st : WrapState),
      (∀ c ∈ t, c = 10 ∨ isPlain c) → staysWithin f maxW t st.lastGlyph st.lineW →
      t.length ≤ fuel →
      ∃ st' : WrapState,
        wrapLoop f maxW o fuel (t ++ rest) st = wrapLoop f maxW o (fuel - t.length) rest st'
        ∧ st'.out = st.out ++ t
        ∧ (st'.lastGlyph, st'.lineW) = lineEnd f t st.lastGlyph st.lineW := by
  intro t
  induction t with
  | nil =>
    intro rest fuel st _ _ _
    exact ⟨st, by simp, by simp, rfl⟩
  | cons c t ih =>
    intro rest fuel st hb hfit hfuel
    obtain ⟨k, rfl⟩ : ∃ k, fuel = k + 1 := ⟨fuel - 1, by simp at hfuel; omega⟩
    have hk : t.length ≤ k := by simp at hfuel; omega
    have hbt : ∀ c ∈ t, c = 10 ∨ isPlain c := fun x hx => hb x (List.mem_cons_of_mem _ hx)
    by_cases h10 : c = 10
    · subst h10
      obtain ⟨h2, hout, hlast, hw⟩ := wrapStep_newline f maxW o (t ++ rest) st
      have hfit' : staysWithin f maxW t (wrapStep f maxW o (10 :: (t ++ rest)) st).1.lastGlyph
          (wrapStep f maxW o (10 :: (t ++ rest)) st).1.lineW := by
        rw [hlast, hw]; simpa [staysWithin] using hfit
      obtain ⟨st', h1, h2', h3⟩ := ih rest k _ hbt hfit' hk
      refine ⟨st', ?_, ?_, ?_⟩
      · rw [List.cons_append, wrapLoop_cons, h2]
        simpa using h1
      · rw [h2', hout]; simp
      · rw [h3, hlast, hw]; simp [lineEnd]
    · have hp : isPlain c := (hb c (List.mem_cons_self _ _)).resolve_left h10
      have hfit0 : staysWithin f maxW (c :: t) st.lastGlyph st.lineW := hfit
      simp only [staysWithin, h10, if_false] at hfit0
      obtain ⟨h2, hout, hlast, hw⟩ := wrapStep_plain f maxW o c (t ++ rest) st hp hfit0.1
      have hfit' : staysWithin f maxW t (wrapStep f maxW o (c :: (t ++ rest)) st).1.lastGlyph
          (wrapStep f maxW o (c :: (t ++ rest)) st).1.lineW := by
        rw [hlast, hw]; exact hfit0.2
      obtain ⟨st', h1, h2', h3⟩ := ih rest k _ hbt hfit' hk
      refine ⟨st', ?_, ?_, ?_⟩
      · rw [List.cons_append, wrapLoop_cons, h2]
        simpa using h1
      · rw [h2', hout]; simp
      · rw [h3, hlast, hw]; simp [lineEnd, h10]

/-- The two bytes of a soft hyphen only register a break candidate. -/
theorem wrapStep_softHyphen (f : Font) (maxW : Int) (o : WrapOptions) (rest : List Nat)
    (st : WrapState) (ho : o.allowSoftHyphen = true) :
    wrapStep f maxW o (0xC2 :: 0xAD :: rest) st = (stepSoftHyphen o st, 2) := by
  have h : _utf8 (0xC2 :: 0xAD :: rest) = some (0xAD, 2) := by
    have e1 : (194 &&& 224 : Nat) = 192 := by decide
    have e2 : ((194 &&& 31) <<< 6 ||| 173 &&& 63 : Nat) = 173 := by decide
    simp [_utf8, byteAt, e1, e2]
  unfold wrapStep
  simp [h, ho]

theorem staysWithin_append (f : Font) (maxW : Int) :
    ∀ (a b : List Nat) (last : Nat) (w : Int),
      staysWithin f maxW (a ++ b) last w ↔
        staysWithin f maxW a last w
        ∧ staysWithin f maxW b (lineEnd f a last w).1 (lineEnd f a last w).2 := by
  intro a
  induction a with
  | nil => intro b last w; simp [staysWithin, lineEnd]
  | cons c a ih =>
    intro b last w
    by_cases h10 : c = 10
    · simp [staysWithin, lineEnd, h10, ih]
    · simp [staysWithin, lineEnd, h10, ih, and_assoc]

/-- C9: with `allowSoftHyphen` enabled and a positive `maxWidth` under which `"abcdef"` fits
(by the wrapping engine's own running width), `wrapText` turns the bytes of `"abc\u00ADdef"`
into `"abcdef"`, for every glyph table and in every hyphenation mode (and whatever the other
options are): the soft hyphen adds no output byte and no width, and no `'-'` or `'\n'` appears. -/
theorem wrapText_soft_hyphen_fits (f : Font) (maxWidth : Int) (o : WrapOptions)
    (colors : Option ColorRuns) (sc : Scratch) (ho : o.allowSoftHyphen = true)
    (hpos : 0 < maxWidth) (hfit : staysWithin f maxWidth (bytesOf "abcdef") 0xFF 0) :
    (wrapText f (bytesOf "abc" ++ [0xC2, 0xAD] ++ bytesOf "def") maxWidth o colors sc).out
      = bytesOf "abcdef" := by
  have habc : bytesOf "abc" = [97, 98, 99] := by decide
  have hdef : bytesOf "def" = [100, 101, 102] := by decide
  have hall : bytesOf "abcdef" = [97, 98, 99] ++ [100, 101, 102] := by decide
  rw [hall, staysWithin_append] at hfit
  obtain ⟨hfit1, hfit2⟩ := hfit
  have hmax : max 0 maxWidth = maxWidth := max_eq_right hpos.le
  have hne : ¬ (((bytesOf "abc" ++ [0xC2, 0xAD] ++ bytesOf "def").isEmpty = true) ∨ maxWidth ≤ 0) := by
    rw [habc, hdef]; simp; exact hpos
  unfold wrapText
  rw [if_neg hne]
  simp only [hmax]
  have hlen : (bytesOf "abc" ++ [0xC2, 0xAD] ++ bytesOf "def").length = 8 := by
    rw [habc, hdef]; rfl
  rw [hlen, habc, hdef, List.append_assoc]
  obtain ⟨st1, e1, o1, l1⟩ := wrapLoop_copies f maxWidth o [97, 98, 99]
    ([0xC2, 0xAD] ++ [100, 101, 102]) 8
    { out := [], colors := colors, scratch := sc, lastGlyph := 0xFF, lineW := 0,
      lastBreakOut := -1, lastBreakLineW := 0, lastBreakHy := false, lastBreakHyCount := 0 }
    (by intro c hc; right; simp at hc; rcases hc with rfl | rfl | rfl <;> simp [isPlain])
    hfit1 (by simp)
  rw [e1]
  have e2 : wrapLoop f maxWidth o (8 - [97, 98, 99].length) ([0xC2, 0xAD] ++ [100, 101, 102]) st1
      = wrapLoop f maxWidth o 4 ([100, 101, 102] ++ []) (stepSoftHyphen o st1) := by
    show wrapLoop f maxWidth o (4 + 1) (0xC2 :: 0xAD :: [100, 101, 102]) st1 = _
    rw [wrapLoop_cons, wrapStep_softHyphen f maxWidth o _ st1 ho]
    rfl
  rw [e2]
  have hl : (stepSoftHyphen o st1).lastGlyph = st1.lastGlyph := rfl
  have hw : (stepSoftHyphen o st1).lineW = st1.lineW := rfl
  have ho' : (stepSoftHyphen o st1).out = st1.out := rfl
  have l1a : st1.lastGlyph = (lineEnd f [97, 98, 99] 0xFF 0).1 := congrArg Prod.fst l1
  have l1b : st1.lineW = (lineEnd f [97, 98, 99] 0xFF 0).2 := congrArg Prod.snd l1
  obtain ⟨st2, e3, o3, _⟩ := wrapLoop_copies f maxWidth o [100, 101, 102] [] 4
    (stepSoftHyphen o st1)
    (by intro c hc; right; simp at hc; rcases hc with rfl | rfl | rfl <;> simp [isPlain])
    (by rw [hl, hw, l1a, l1b]; exact hfit2) (by simp)
  rw [e3, wrapLoop_nil, o3, ho', o1]
  rfl

/-- C9 at a concrete glyph table: uniform advance 10 and `maxWidth = 100`, hyphenation
`Manual`. -/
theorem wrapText_soft_hyphen_fits_witness :
    (wrapText (uniformFont 10) (bytesOf "abc" ++ [0xC2, 0xAD] ++ bytesOf "def") 100
        { plainOptions with hyphenationMode := HyphenationMode.Manual } none Scratch.initial).out
      = bytesOf "abcdef" :=
  wrapText_soft_hyphen_fits (uniformFont 10) 100 _ none Scratch.initial rfl (by decide)
    (by simp [staysWithin, bytesOf, glyphAdvanceWithKerning, uniformFont])

theorem prePassStep_maxLineWidth_le (f : Font) (g : Nat) (b : Bool) (s : PrePass) :
    s.maxLineWidth ≤ (prePassStep f g b s).maxLineWidth := by
  unfold prePassStep
  split_ifs <;> simp only [le_refl]
  all_goals omega

theorem prePass_maxLineWidth_le (f : Font) :
    ∀ (t : List Nat) (s : PrePass), s.maxLineWidth ≤ (prePass f t s).maxLineWidth := by
  intro t
  induction t with
  | nil => intro s; exact le_refl _
  | cons c t ih =>
    intro s
    exact le_trans (prePassStep_maxLineWidth_le f c _ s) (ih _)

theorem getD_set_self (l : List Int) (i : Nat) (a : Int) (h : i < l.length) :
    (l.set i a).getD i 0 = a := by
  simp [List.getD_eq_getElem?_getD, List.getElem?_set, h]

/-- If the widest line the pre-pass sees is within `M`, the wrapping engine's running width
never exceeds `M` on the same bytes (non-positive horizontal spacing). -/
theorem staysWithin_of_prePass (f : Font) (M : Int) (hsx : f.glyphSpacing.width ≤ 0) :
    ∀ (t : List Nat) (s : PrePass) (last : Nat) (lineW : Int),
      (∀ c ∈ t, c = 10 ∨ isPlain c) →
      s.lines < s.lineWidths.length →
      lineW ≤ s.lineWidths.getD s.lines 0 →
      samePrev s.prevGlyph last →
      (prePass f t s).maxLineWidth ≤ M →
      staysWithin f M t last lineW := by
  intro t
  induction t with
  | nil => intro s last lineW _ _ _ _ _; trivial
  | cons c t ih =>
    intro s last lineW hb hlen hw hprev hM
    have hbt : ∀ c ∈ t, c = 10 ∨ isPlain c := fun x hx => hb x (List.mem_cons_of_mem _ hx)
    by_cases h10 : c = 10
    · subst h10
      simp only [staysWithin, if_true]
      refine ih _ 0xFF 0 hbt ?_ ?_ ?_ hM
      · simp only [prePassStep, if_true, List.length_set]
        split_ifs with h
        · simp only [resize]
          split_ifs with h'
          · simp; omega
          · omega
        · omega
      · simp only [prePassStep, if_true]
        rw [getD_set_self]
        split_ifs with h
        · simp only [resize]
          split_ifs with h'
          · simp; omega
          · omega
        · omega
      · left; simp [prePassStep]
    · have hp : isPlain c := (hb c (List.mem_cons_self _ _)).resolve_left h10
      obtain ⟨h32, h128⟩ := hp
      have hge : c ≥ 32 := h32
      simp only [staysWithin, h10, if_false]
      -- the running width of the pre-pass after this glyph
      have hstep : lineW + (glyphAdvanceWithKerning f last c + f.glyphSpacing.width)
          ≤ (prePassStep f c (nextIsNotNewline t) s).lineWidths.getD
              (prePassStep f c (nextIsNotNewline t) s).lines 0 := by
        simp only [prePassStep, h10, if_false, hge, if_true]
        rw [getD_set_self _ _ _ hlen]
        have hk : glyphAdvanceWithKerning f last c
            = (if s.prevGlyph ≥ 0 then f.kerning s.prevGlyph.toNat c else 0) + f.glyphsAdvance c := by
          rcases hprev with ⟨hp1, hl⟩ | ⟨hp1, hl⟩
          · simp [glyphAdvanceWithKerning, hp1, hl]
          · have : last ≠ 0xFF := by omega
            simp [glyphAdvanceWithKerning, hp1, this]; ring
        rw [hk]
        split_ifs <;> omega
      have hmax : (prePassStep f c (nextIsNotNewline t) s).lineWidths.getD
              (prePassStep f c (nextIsNotNewline t) s).lines 0
          ≤ (prePassStep f c (nextIsNotNewline t) s).maxLineWidth := by
        simp only [prePassStep, h10, if_false, hge, if_true]
        rw [getD_set_self _ _ _ hlen]
        split_ifs <;> omega
      refine ⟨?_, ih _ c _ hbt ?_ hstep ?_ hM⟩
      · exact le_trans hstep (le_trans hmax (le_trans (prePass_maxLineWidth_le f t _) hM))
      · simp only [prePassStep, h10, if_false, hge, if_true, List.length_set]
        exact hlen
      · right
        simp only [prePassStep, h10, if_false, hge, if_true]
        exact ⟨trivial, h128⟩

/-- The box width that `calculateTextRectSize` reports bounds the wrapping engine's running
width on printable ASCII lines (non-positive horizontal spacing). -/
theorem staysWithin_of_textRectSize (f : Font) (M : Int) (t : List Nat) (sc : Scratch)
    (hsx : f.glyphSpacing.width ≤ 0) (hb : ∀ c ∈ t, c = 10 ∨ isPlain c)
    (h : (calculateTextRectSize f t sc).1.width ≤ M) : staysWithin f M t 0xFF 0 := by
  cases t with
  | nil => trivial
  | cons c t =>
    refine staysWithin_of_prePass f M hsx (c :: t)
      { lines := 0,
        lineWidths := (if sc.lineWidths.isEmpty then resize sc.lineWidths 1 0
                       else sc.lineWidths).set 0 0,
        maxLineWidth := 0, prevGlyph := -1 } 0xFF 0 hb ?_ ?_ (Or.inl ⟨rfl, rfl⟩) ?_
    · simp only [List.length_set]
      split_ifs with h'
      · simp [resize, List.isEmpty_iff.mp h']
      · exact List.length_pos.mpr (fun e => h' (by simp [e]))
    · rw [getD_set_self]
      split_ifs with h'
      · simp [resize, List.isEmpty_iff.mp h']
      · exact List.length_pos.mpr (fun e => h' (by simp [e]))
    · refine le_trans ?_ h
      simp only [calculateTextRectSize, calculateGlyphsPositions, layoutPrePass, needLines,
        AlignTopLeft]
      simp only [List.length_cons, Nat.succ_ne_zero, and_false, if_false, Bool.or_self,
        Bool.false_or, if_true, Option.getD_some, decide_True, Bool.true_and, Nat.add_one_ne_zero]
      split_ifs <;> simp

/-- Text whose running width never overflows is returned as it is. -/
theorem wrapText_out_of_staysWithin (f : Font) (t : List Nat) (maxWidth : Int) (o : WrapOptions)
    (colors : Option ColorRuns) (sc : Scratch) (hb : ∀ c ∈ t, c = 10 ∨ isPlain c)
    (hpos : 0 < maxWidth) (h : staysWithin f maxWidth t 0xFF 0) :
    (wrapText f t maxWidth o colors sc).out = t := by
  unfold wrapText
  split_ifs with he
  · rfl
  · obtain ⟨st', e1, e2, _⟩ := wrapLoop_copies f (max 0 maxWidth) o t [] t.length
      { out := [], colors := colors, scratch := sc, lastGlyph := 0xFF, lineW := 0,
        lastBreakOut := -1, lastBreakLineW := 0, lastBreakHy := false, lastBreakHyCount := 0 }
      hb (by rw [max_eq_right hpos.le]; exact h) le_rfl
    rw [List.append_nil] at e1
    show (wrapLoop f (max 0 maxWidth) o t.length t _).out = t
    rw [e1, wrapLoop_nil, e2]
    rfl

/-- C4 (as stated, refuted): four texts without `'\n'` whose `calculateTextRectSize` width is
within `maxWidth` and which `wrapText` nevertheless changes under hyphenation `None` and the
default break policies: a tab is written as a space; with horizontal spacing 5 the wrapping
engine counts the spacing after the last glyph as well; a control byte is inert for the layout
but has an advance for the wrapping engine; a multi-byte character is measured by its own
glyph boxes (10 wide here, with advance 0). -/
theorem wrapText_changes_fitting_text :
    (10 ∉ bytesOf "a\tb"
      ∧ (calculateTextRectSize (uniformFont 10) (bytesOf "a\tb") Scratch.initial).1.width ≤ 100
      ∧ (wrapText (uniformFont 10) (bytesOf "a\tb") 100 plainOptions none Scratch.initial).out
          = bytesOf "a b"
      ∧ bytesOf "a b" ≠ bytesOf "a\tb")
    ∧ ((calculateTextRectSize { uniformFont 10 with glyphSpacing := ⟨5, 0⟩ } (bytesOf "ab")
          Scratch.initial).1.width ≤ 25
      ∧ (wrapText { uniformFont 10 with glyphSpacing := ⟨5, 0⟩ } (bytesOf "ab") 25 plainOptions
          none Scratch.initial).out = bytesOf "a\nb")
    ∧ ((calculateTextRectSize (uniformFont 10) [97, 1, 98] Scratch.initial).1.width ≤ 25
      ∧ (wrapText (uniformFont 10) [97, 1, 98] 25 plainOptions none Scratch.initial).out
          = [97, 1, 10, 98])
    ∧ ((calculateTextRectSize { uniformFont 0 with glyphsSize := fun _ => ⟨10, 16⟩ }
          [0xC3, 0xA9, 0xC3, 0xA9] Scratch.initial).1.width ≤ 10
      ∧ (wrapText { uniformFont 0 with glyphsSize := fun _ => ⟨10, 16⟩ }
          [0xC3, 0xA9, 0xC3, 0xA9] 10 plainOptions none Scratch.initial).out
          = [0xC3, 0xA9, 10, 0xC3, 0xA9]) := by
  refine ⟨⟨by decide, by decide, by decide, by decide⟩, ⟨by decide, by decide⟩,
    ⟨by decide, by decide⟩, ⟨by decide, by decide⟩⟩

/-- C4 (amended): for every glyph table with non-positive (in particular zero) horizontal glyph
spacing, every `maxWidth > 0` and every text of printable ASCII bytes (32 to 127, hence without
`'\n'`, tab and control bytes) that fits on one line (`calculateTextRectSize(text).width ≤
maxWidth`), `wrapText(text, maxWidth)` returns the text unchanged, under every option set. -/
theorem wrapText_fitting_line_unchanged (f : Font) (text : List Nat) (maxWidth : Int)
    (o : WrapOptions) (colors : Option ColorRuns) (sc sc' : Scratch)
    (hsx : f.glyphSpacing.width ≤ 0) (hpos : 0 < maxWidth) (hb : ∀ c ∈ text, isPlain c)
    (hfit : (calculateTextRectSize f text sc').1.width ≤ maxWidth) :
    (wrapText f text maxWidth o colors sc).out = text :=
  wrapText_out_of_staysWithin f text maxWidth o colors sc (fun c hc => Or.inr (hb c hc)) hpos
    (staysWithin_of_textRectSize f maxWidth text sc' hsx (fun c hc => Or.inr (hb c hc)) hfit)

/-- C4 (amended) at a concrete input: `"ab cd"` with advance 10 fits in 50 pixels. -/
theorem wrapText_fitting_line_unchanged_witness :
    (wrapText (uniformFont 10) (bytesOf "ab cd") 50 plainOptions none Scratch.initial).out
      = bytesOf "ab cd" :=
  wrapText_fitting_line_unchanged (uniformFont 10) (bytesOf "ab cd") 50 plainOptions none
    Scratch.initial Scratch.initial (by decide) (by decide)
    (by intro c hc; simp [bytesOf] at hc; rcases hc with rfl | rfl | rfl | rfl | rfl <;>
          simp [isPlain])
    (by decide)

theorem mainPassStep_length (f : Font) (align : AlignmentFlag) (nl : Bool) (M : Int)
    (lw : List Int) (i g : Nat) (s : MainPass) :
    (mainPassStep f align nl M lw i g s).glyphsPositions.length = s.glyphsPositions.length := by
  unfold mainPassStep
  dsimp only
  split_ifs <;> simp

theorem mainPassStep_frame (f : Font) (align : AlignmentFlag) (nl : Bool) (M : Int)
    (lw : List Int) (i g : Nat) (s : MainPass) (k : Nat) (hk : k ≠ i) :
    (mainPassStep f align nl M lw i g s).glyphsPositions[k]? = s.glyphsPositions[k]? := by
  unfold mainPassStep
  dsimp only
  split_ifs <;> simp [List.getElem?_set, Ne.symm hk]

theorem mainPass_length (f : Font) (align : AlignmentFlag) (nl : Bool) (M : Int)
    (lw : List Int) :
    ∀ (rest : List Nat) (i : Nat) (s : MainPass),
      (mainPass f align nl M lw rest i s).glyphsPositions.length = s.glyphsPositions.length := by
  intro rest
  induction rest with
  | nil => intro i s; rfl
  | cons g rest ih =>
    intro i s
    show (mainPass f align nl M lw rest (i + 1) _).glyphsPositions.length = _
    rw [ih, mainPassStep_length]

/-- The main pass writes only at the indices it visits. -/
theorem mainPass_frame (f : Font) (align : AlignmentFlag) (nl : Bool) (M : Int)
    (lw : List Int) :
    ∀ (rest : List Nat) (i : Nat) (s : MainPass) (k : Nat), k < i →
      (mainPass f align nl M lw rest i s).glyphsPositions[k]? = s.glyphsPositions[k]? := by
  intro rest
  induction rest with
  | nil => intro i s k _; rfl
  | cons g rest ih =>
    intro i s k hk
    show (mainPass f align nl M lw rest (i + 1) _).glyphsPositions[k]? = _
    rw [ih _ _ k (by omega), mainPassStep_frame _ _ _ _ _ _ _ _ _ (by omega)]

theorem mainPass_append (f : Font) (align : AlignmentFlag) (nl : Bool) (M : Int)
    (lw : List Int) :
    ∀ (a b : List Nat) (i : Nat) (s : MainPass),
      mainPass f align nl M lw (a ++ b) i s
        = mainPass f align nl M lw b (i + a.length) (mainPass f align nl M lw a i s) := by
  intro a
  induction a with
  | nil => intro b i s; rfl
  | cons g a ih =>
    intro b i s
    show mainPass f align nl M lw (a ++ b) (i + 1) _ = _
    rw [ih]
    simp only [List.length_cons]
    rw [show i + 1 + a.length = i + (a.length + 1) by omega]
    rfl

theorem mainPassStep_lines (f : Font) (align : AlignmentFlag) (nl : Bool) (M : Int)
    (lw : List Int) (i g : Nat) (s : MainPass) :
    (mainPassStep f align nl M lw i g s).lines = s.lines + (if g = 10 then 1 else 0) := by
  unfold mainPassStep
  dsimp only
  split_ifs <;> simp_all

/-- The line counter of the main pass counts the `'\n'` bytes. -/
theorem mainPass_lines (f : Font) (align : AlignmentFlag) (nl : Bool) (M : Int)
    (lw : List Int) :
    ∀ (a : List Nat) (i : Nat) (s : MainPass),
      (mainPass f align nl M lw a i s).lines = s.lines + a.count 10 := by
  intro a
  induction a with
  | nil => intro i s; simp [mainPass]
  | cons g a ih =>
    intro i s
    show (mainPass f align nl M lw a (i + 1) _).lines = _
    rw [ih, mainPassStep_lines, List.count_cons]
    by_cases h : g = 10
    · subst h
      simp only [if_true, beq_self_eq_true]
      omega
    · have h' : (g == 10) = false := by simpa using h
      simp only [h, h', if_false]
      simp

/-- One iteration of the main pass on a glyph byte after the first index: the glyph is placed at
the pen x moved by its kerning against the previous glyph, and the pen advances. -/
theorem mainPassStep_glyph (f : Font) (align : AlignmentFlag) (nl : Bool) (M : Int)
    (lw : List Int) (i g : Nat) (s : MainPass) (hg : 32 ≤ g) (hi : 1 ≤ i) :
    mainPassStep f align nl M lw i g s
      = { vpos := ⟨(if s.prevGlyph ≥ 0 then s.vpos.x + f.kerning s.prevGlyph.toNat g
                    else s.vpos.x) + (f.glyphsAdvance g + f.glyphSpacing.width), s.vpos.y⟩,
          lines := s.lines, prevGlyph := g,
          glyphsPositions := s.glyphsPositions.set i
            ⟨if s.prevGlyph ≥ 0 then s.vpos.x + f.kerning s.prevGlyph.toNat g else s.vpos.x,
             s.vpos.y⟩ } := by
  have h10 : g ≠ 10 := by omega
  have hi0 : i ≠ 0 := by omega
  unfold mainPassStep
  simp [h10, hi0, hg]

theorem mainPassStep_control (f : Font) (align : AlignmentFlag) (nl : Bool) (M : Int)
    (lw : List Int) (i g : Nat) (s : MainPass) (hg : g < 32) (h10 : g ≠ 10) (hi : 1 ≤ i) :
    mainPassStep f align nl M lw i g s = s := by
  have hi0 : i ≠ 0 := by omega
  have hg' : ¬ 32 ≤ g := by omega
  unfold mainPassStep
  simp [h10, hi0, hg']

/-- After a run of control bytes, the first glyph of a line that has no glyph yet is placed at
the pen position. -/
theorem mainPass_first_glyph (f : Font) (align : AlignmentFlag) (nl : Bool) (M : Int)
    (lw : List Int) :
    ∀ (ctl : List Nat) (g : Nat) (post : List Nat) (i : Nat) (s : MainPass),
      1 ≤ i → s.prevGlyph = -1 → (∀ c ∈ ctl, c < 32 ∧ c ≠ 10) → 32 ≤ g →
      i + ctl.length < s.glyphsPositions.length →
      (mainPass f align nl M lw (ctl ++ g :: post) i s).glyphsPositions[i + ctl.length]?
        = some ⟨s.vpos.x, s.vpos.y⟩ := by
  intro ctl
  induction ctl with
  | nil =>
    intro g post i s hi hp _ hg hlen
    show (mainPass f align nl M lw post (i + 1) _).glyphsPositions[i]? = _
    rw [mainPass_frame f align nl M lw post (i + 1) _ i (by omega),
      mainPassStep_glyph _ _ _ _ _ _ _ _ hg hi]
    simp only [List.length_nil, Nat.add_zero] at hlen
    simp [hp, List.getElem?_set, hlen]
  | cons c ctl ih =>
    intro g post i s hi hp hc hg hlen
    have hc0 := hc c (List.mem_cons_self _ _)
    show (mainPass f align nl M lw (ctl ++ g :: post) (i + 1) _).glyphsPositions[_]? = _
    rw [mainPassStep_control _ _ _ _ _ _ _ _ hc0.1 hc0.2 hi]
    simp only [List.length_cons] at hlen ⊢
    rw [show i + (ctl.length + 1) = i + 1 + ctl.length by omega]
    exact ih g post (i + 1) s (by omega) hp (fun x hx => hc x (List.mem_cons_of_mem _ hx)) hg
      (by omega)

/-- With non-negative pen increments no glyph of the current line is placed left of the
previous one. -/
theorem mainPass_floor (f : Font) (align : AlignmentFlag) (nl : Bool) (M : Int)
    (lw : List Int)
    (H : ∀ a b : Nat, 32 ≤ a → 32 ≤ b →
      0 ≤ f.glyphsAdvance a + f.glyphSpacing.width + f.kerning a b) :
    ∀ (mid : List Nat) (b : Nat) (post : List Nat) (i : Nat) (s : MainPass),
      1 ≤ i → (s.prevGlyph = -1 ∨ ∃ p : Nat, 32 ≤ p ∧ s.prevGlyph = (p : Int)) →
      (∀ c ∈ mid, c ≠ 10) → 32 ≤ b → i + mid.length < s.glyphsPositions.length →
      ∃ v : Point,
        (mainPass f align nl M lw (mid ++ b :: post) i s).glyphsPositions[i + mid.length]?
          = some v ∧ penFloor f s ≤ v.x := by
  have hstep : ∀ (g i : Nat) (s : MainPass), 32 ≤ g → 1 ≤ i →
      (s.prevGlyph = -1 ∨ ∃ p : Nat, 32 ≤ p ∧ s.prevGlyph = (p : Int)) →
      penFloor f s ≤ (if s.prevGlyph ≥ 0 then s.vpos.x + f.kerning s.prevGlyph.toNat g
                      else s.vpos.x)
      ∧ penFloor f (mainPassStep f align nl M lw i g s)
          = (if s.prevGlyph ≥ 0 then s.vpos.x + f.kerning s.prevGlyph.toNat g else s.vpos.x) := by
    intro g i s hg hi hp
    rw [mainPassStep_glyph _ _ _ _ _ _ _ _ hg hi]
    constructor
    · rcases hp with hp | ⟨p, hp32, hp⟩
      · simp [penFloor, hp]
      · have h0 : s.prevGlyph ≥ 0 := by rw [hp]; exact Int.ofNat_nonneg p
        have := H p g hp32 hg
        simp only [penFloor, h0, if_true, hp, Int.toNat_ofNat]
        omega
    · have h0 : ((g : Nat) : Int) ≥ 0 := Int.ofNat_nonneg g
      simp only [penFloor, h0, if_true, Int.toNat_ofNat]
      omega
  intro mid
  induction mid with
  | nil =>
    intro b post i s hi hp _ hb hlen
    simp only [List.length_nil, Nat.add_zero] at hlen ⊢
    refine ⟨⟨if s.prevGlyph ≥ 0 then s.vpos.x + f.kerning s.prevGlyph.toNat b else s.vpos.x,
      s.vpos.y⟩, ?_, (hstep b i s hb hi hp).1⟩
    show (mainPass f align nl M lw post (i + 1) _).glyphsPositions[i]? = _
    rw [mainPass_frame f align nl M lw post (i + 1) _ i (by omega),
      mainPassStep_glyph _ _ _ _ _ _ _ _ hb hi]
    simp [List.getElem?_set, hlen]
  | cons c mid ih =>
    intro b post i s hi hp hc hb hlen
    have hc10 : c ≠ 10 := hc c (List.mem_cons_self _ _)
    have hmid : ∀ x ∈ mid, x ≠ 10 := fun x hx => hc x (List.mem_cons_of_mem _ hx)
    simp only [List.length_cons] at hlen ⊢
    rw [show i + (mid.length + 1) = i + 1 + mid.length by omega]
    show ∃ v : Point,
      (mainPass f align nl M lw (mid ++ b :: post) (i + 1)
        (mainPassStep f align nl M lw i c s)).glyphsPositions[i + 1 + mid.length]? = some v ∧ _
    by_cases hg : 32 ≤ c
    · obtain ⟨v, hv, hle⟩ := ih b post (i + 1) (mainPassStep f align nl M lw i c s) (by omega)
        (by rw [mainPassStep_glyph _ _ _ _ _ _ _ _ hg hi]; exact Or.inr ⟨c, hg, rfl⟩)
        hmid hb (by rw [mainPassStep_length]; omega)
      refine ⟨v, hv, ?_⟩
      rw [(hstep c i s hg hi hp).2] at hle
      exact le_trans (hstep c i s hg hi hp).1 hle
    · rw [mainPassStep_control _ _ _ _ _ _ _ _ (by omega) hc10 hi]
      exact ih b post (i + 1) s (by omega) hp hmid hb (by omega)

/-! ### The shifting pass -/

theorem shiftPass_length (minX : Int) :
    ∀ (rest : List Nat) (i : Nat) (P : List Point),
      (shiftPass minX rest i P).length = P.length := by
  intro rest
  induction rest with
  | nil => intro i P; rfl
  | cons g rest ih =>
    intro i P
    show (shiftPass minX rest (i + 1) _).length = _
    rw [ih]
    split_ifs <;> simp

theorem shiftPass_frame (minX : Int) :
    ∀ (rest : List Nat) (i : Nat) (P : List Point) (k : Nat), k < i →
      (shiftPass minX rest i P)[k]? = P[k]? := by
  intro rest
  induction rest with
  | nil => intro i P k _; rfl
  | cons g rest ih =>
    intro i P k hk
    show (shiftPass minX rest (i + 1) _)[k]? = _
    rw [ih _ _ k (by omega)]
    split_ifs
    · rw [List.getElem?_set_ne (by omega)]
    · rfl

/-- The shifting pass moves every placed glyph by `-minX`. -/
theorem shiftPass_glyph (minX : Int) :
    ∀ (pre : List Nat) (g : Nat) (post : List Nat) (i : Nat) (P : List Point) (v : Point),
      32 ≤ g → P[i + pre.length]? = some v →
      (shiftPass minX (pre ++ g :: post) i P)[i + pre.length]? = some ⟨v.x - minX, v.y⟩ := by
  intro pre
  induction pre with
  | nil =>
    intro g post i P v hg hv
    simp only [List.length_nil, Nat.add_zero] at hv ⊢
    have h10 : g ≠ 10 := by omega
    have hlt : i < P.length := by
      by_contra hcon
      rw [List.getElem?_eq_none (by omega)] at hv
      exact Option.noConfusion hv
    show (shiftPass minX post (i + 1) _)[i]? = _
    rw [shiftPass_frame minX post (i + 1) _ i (by omega)]
    simp [hg, h10, List.getElem?_set, hlt, List.getD_eq_getElem?_getD, hv]
  | cons c pre ih =>
    intro g post i P v hg hv
    simp only [List.length_cons] at hv ⊢
    rw [show i + (pre.length + 1) = i + 1 + pre.length by omega] at hv ⊢
    show (shiftPass minX (pre ++ g :: post) (i + 1) _)[i + 1 + pre.length]? = _
    refine ih g post (i + 1) _ v hg ?_
    split_ifs
    · rw [List.getElem?_set_ne (by omega)]; exact hv
    · exact hv

/-! ### Positions reported by `calculateGlyphsPositions` -/

theorem mainPassStep_glyph_any (f : Font) (align : AlignmentFlag) (nl : Bool) (M : Int)
    (lw : List Int) (i g : Nat) (s : MainPass) (hg : 32 ≤ g) :
    ∃ v : Point,
      (mainPassStep f align nl M lw i g s).glyphsPositions = s.glyphsPositions.set i v
      ∧ penFloor f (mainPassStep f align nl M lw i g s) = v.x
      ∧ (mainPassStep f align nl M lw i g s).prevGlyph = (g : Int)
      ∧ (i = 0 → s.prevGlyph = -1 → v.x = lineStartX align nl M lw s.lines) := by
  have h10 : g ≠ 10 := by omega
  have h0 : ((g : Nat) : Int) ≥ 0 := Int.ofNat_nonneg g
  unfold mainPassStep
  by_cases hi : i = 0
  · by_cases hp : s.prevGlyph ≥ 0
    · simp only [h10, hi, hg, penFloor, h0, hp, false_or, if_true, if_false, ne_eq,
        not_false_eq_true, and_self, Int.toNat_ofNat, true_and]
      refine ⟨_, rfl, by ring, ?_⟩
      intro _ h1
      rw [h1] at hp
      exact absurd hp (by decide)
    · simp only [h10, hi, hg, penFloor, h0, hp, false_or, if_true, if_false, ne_eq,
        not_false_eq_true, and_self, Int.toNat_ofNat, true_and]
      exact ⟨_, rfl, by ring, fun _ _ => rfl⟩
  · by_cases hp : s.prevGlyph ≥ 0
    · simp only [h10, hi, hg, penFloor, h0, hp, false_or, if_true, if_false, ne_eq,
        not_false_eq_true, and_self, Int.toNat_ofNat, true_and, or_self]
      exact ⟨_, rfl, by ring, fun h => h.elim⟩
    · simp only [h10, hi, hg, penFloor, h0, hp, false_or, if_true, if_false, ne_eq,
        not_false_eq_true, and_self, Int.toNat_ofNat, true_and, or_self]
      exact ⟨_, rfl, by ring, fun h => h.elim⟩

theorem mainPassStep_newline (f : Font) (align : AlignmentFlag) (nl : Bool) (M : Int)
    (lw : List Int) (i : Nat) (s : MainPass) :
    (mainPassStep f align nl M lw i 10 s).prevGlyph = -1
    ∧ (mainPassStep f align nl M lw i 10 s).vpos.x = lineStartX align nl M lw (s.lines + 1)
    ∧ (mainPassStep f align nl M lw i 10 s).glyphsPositions = s.glyphsPositions := by
  unfold mainPassStep
  simp

theorem mainPassStep_control_zero (f : Font) (align : AlignmentFlag) (nl : Bool) (M : Int)
    (lw : List Int) (g : Nat) (s : MainPass) (hg : g < 32) (h10 : g ≠ 10) :
    (mainPassStep f align nl M lw 0 g s).prevGlyph = s.prevGlyph
    ∧ (mainPassStep f align nl M lw 0 g s).vpos.x = lineStartX align nl M lw s.lines
    ∧ (mainPassStep f align nl M lw 0 g s).glyphsPositions = s.glyphsPositions := by
  have hg' : ¬ 32 ≤ g := by omega
  unfold mainPassStep
  simp [h10, hg']

theorem length_grown (buf : List Point) (n : Nat) :
    n ≤ (if buf.length < n then resize buf n ⟨0, 0⟩ else buf).length := by
  split_ifs with h
  · simp [resize, h]; omega
  · omega

/-- The positions buffer after `calculateGlyphsPositions` on a non-empty text. -/
theorem calculateGlyphsPositions_positions (f : Font) (text : List Nat) (align : AlignmentFlag)
    (buf : List Point) (lw : List Int) (wantBox : Bool) (hne : text ≠ []) :
    (calculateGlyphsPositions f text align buf lw wantBox).glyphsPositions
      = if (layoutExtent f text align buf lw wantBox).hasGlyph = true
            ∧ (layoutExtent f text align buf lw wantBox).minX < 0 then
          shiftPass (layoutExtent f text align buf lw wantBox).minX text 0
            (layoutMainPass f text align buf lw wantBox).glyphsPositions
        else (layoutMainPass f text align buf lw wantBox).glyphsPositions := by
  have hlen : text.length ≠ 0 := fun h => hne (List.length_eq_zero.mp h)
  unfold calculateGlyphsPositions
  simp only [hlen, and_false, if_false]
  by_cases h1 : (layoutExtent f text align buf lw wantBox).hasGlyph = true <;>
    by_cases h2 : (layoutExtent f text align buf lw wantBox).minX < 0 <;>
    simp [h1, h2]

/-- The final position of a placed glyph is its main-pass position moved by the shift. -/
theorem calculateGlyphsPositions_glyph (f : Font) (align : AlignmentFlag) (buf : List Point)
    (lw : List Int) (wantBox : Bool) (pre : List Nat) (g : Nat) (post : List Nat) (v : Point)
    (hg : 32 ≤ g)
    (hv : (layoutMainPass f (pre ++ g :: post) align buf lw wantBox).glyphsPositions[pre.length]?
            = some v) :
    ((calculateGlyphsPositions f (pre ++ g :: post) align buf lw wantBox).glyphsPositions.getD
        pre.length ⟨0, 0⟩).x
      = v.x + layoutShift f (pre ++ g :: post) align buf lw wantBox := by
  rw [calculateGlyphsPositions_positions _ _ _ _ _ _ (by simp), layoutShift]
  split_ifs with h
  · have := shiftPass_glyph (layoutExtent f (pre ++ g :: post) align buf lw wantBox).minX
      pre g post 0 _ v hg (by simpa using hv)
    simp only [Nat.zero_add] at this
    rw [List.getD_eq_getElem?_getD, this]
    simp; ring
  · rw [List.getD_eq_getElem?_getD, hv]
    simp

theorem layoutMainPass_eq (f : Font) (text : List Nat) (align : AlignmentFlag)
    (buf : List Point) (lw : List Int) (wantBox : Bool) :
    ∃ pos0 : List Point, text.length ≤ pos0.length ∧
      layoutMainPass f text align buf lw wantBox
        = mainPass f align (needLines align wantBox)
            (layoutPrePass f text align lw wantBox).maxLineWidth
            (layoutPrePass f text align lw wantBox).lineWidths text 0
            { vpos := ⟨0, f.yOffset⟩, lines := 0, prevGlyph := -1, glyphsPositions := pos0 } :=
  ⟨_, length_grown buf text.length, rfl⟩

/-- Main-pass positions of two glyphs of one line, in text order. -/
theorem layoutMainPass_order (f : Font) (align : AlignmentFlag) (buf : List Point)
    (lw : List Int) (wantBox : Bool)
    (H : ∀ a b : Nat, 32 ≤ a → 32 ≤ b →
      0 ≤ f.glyphsAdvance a + f.glyphSpacing.width + f.kerning a b)
    (pre : List Nat) (a : Nat) (mid : List Nat) (b : Nat) (post : List Nat)
    (ha : 32 ≤ a) (hb : 32 ≤ b) (hmid : ∀ c ∈ mid, c ≠ 10) :
    ∃ vi vj : Point,
      (layoutMainPass f (pre ++ a :: (mid ++ b :: post)) align buf lw
          wantBox).glyphsPositions[pre.length]? = some vi
      ∧ (layoutMainPass f (pre ++ a :: (mid ++ b :: post)) align buf lw
          wantBox).glyphsPositions[pre.length + 1 + mid.length]? = some vj
      ∧ vi.x ≤ vj.x := by
  obtain ⟨pos0, hlen, e⟩ := layoutMainPass_eq f (pre ++ a :: (mid ++ b :: post)) align buf lw
    wantBox
  rw [e, mainPass_append]
  simp only [Nat.zero_add]
  generalize hs : mainPass f align (needLines align wantBox) _ _ pre 0 _ = si
  have hsl : si.glyphsPositions.length = pos0.length := by
    rw [← hs, mainPass_length]
  simp only [List.length_append, List.length_cons] at hlen
  show ∃ vi vj : Point,
    (mainPass f align _ _ _ (mid ++ b :: post) (pre.length + 1)
      (mainPassStep f align _ _ _ pre.length a si)).glyphsPositions[pre.length]? = some vi
    ∧ (mainPass f align _ _ _ (mid ++ b :: post) (pre.length + 1)
      (mainPassStep f align _ _ _ pre.length a si)).glyphsPositions[pre.length + 1 + mid.length]?
        = some vj
    ∧ vi.x ≤ vj.x
  obtain ⟨v, hset, hfloor, hprev, _⟩ := mainPassStep_glyph_any f align (needLines align wantBox)
    (layoutPrePass f (pre ++ a :: (mid ++ b :: post)) align lw wantBox).maxLineWidth
    (layoutPrePass f (pre ++ a :: (mid ++ b :: post)) align lw wantBox).lineWidths
    pre.length a si ha
  obtain ⟨vj, hvj, hle⟩ := mainPass_floor f align (needLines align wantBox)
    (layoutPrePass f (pre ++ a :: (mid ++ b :: post)) align lw wantBox).maxLineWidth
    (layoutPrePass f (pre ++ a :: (mid ++ b :: post)) align lw wantBox).lineWidths H
    mid b post (pre.length + 1) _ (by omega) (Or.inr ⟨a, ha, hprev⟩) hmid hb
    (by rw [mainPassStep_length, hsl]; omega)
  refine ⟨v, vj, ?_, hvj, by rw [← hfloor]; exact hle⟩
  rw [mainPass_frame _ _ _ _ _ _ _ _ pre.length (by omega), hset]
  simp [List.getElem?_set]
  omega

/-- Main-pass position of the first glyph after a `'\n'`. -/
theorem layoutMainPass_after_newline (f : Font) (align : AlignmentFlag) (buf : List Point)
    (lw : List Int) (wantBox : Bool) (pre ctl : List Nat) (g : Nat) (post : List Nat)
    (hg : 32 ≤ g) (hctl : ∀ c ∈ ctl, c < 32 ∧ c ≠ 10) :
    ∃ v : Point,
      (layoutMainPass f (pre ++ 10 :: (ctl ++ g :: post)) align buf lw
          wantBox).glyphsPositions[pre.length + 1 + ctl.length]? = some v
      ∧ v.x = lineStartX align (needLines align wantBox)
          (layoutPrePass f (pre ++ 10 :: (ctl ++ g :: post)) align lw wantBox).maxLineWidth
          (layoutPrePass f (pre ++ 10 :: (ctl ++ g :: post)) align lw wantBox).lineWidths
          (pre.count 10 + 1) := by
  obtain ⟨pos0, hlen, e⟩ := layoutMainPass_eq f (pre ++ 10 :: (ctl ++ g :: post)) align buf lw
    wantBox
  rw [e, mainPass_append]
  simp only [Nat.zero_add]
  have hlines := mainPass_lines f align (needLines align wantBox)
    (layoutPrePass f (pre ++ 10 :: (ctl ++ g :: post)) align lw wantBox).maxLineWidth
    (layoutPrePass f (pre ++ 10 :: (ctl ++ g :: post)) align lw wantBox).lineWidths pre 0
    { vpos := ⟨0, f.yOffset⟩, lines := 0, prevGlyph := -1, glyphsPositions := pos0 }
  have hsl := mainPass_length f align (needLines align wantBox)
    (layoutPrePass f (pre ++ 10 :: (ctl ++ g :: post)) align lw wantBox).maxLineWidth
    (layoutPrePass f (pre ++ 10 :: (ctl ++ g :: post)) align lw wantBox).lineWidths pre 0
    { vpos := ⟨0, f.yOffset⟩, lines := 0, prevGlyph := -1, glyphsPositions := pos0 }
  generalize mainPass f align (needLines align wantBox) _ _ pre 0 _ = si at hlines hsl ⊢
  simp only [List.length_append, List.length_cons, Nat.zero_add] at hlen hlines hsl
  obtain ⟨hp, hx, hpos⟩ := mainPassStep_newline f align (needLines align wantBox)
    (layoutPrePass f (pre ++ 10 :: (ctl ++ g :: post)) align lw wantBox).maxLineWidth
    (layoutPrePass f (pre ++ 10 :: (ctl ++ g :: post)) align lw wantBox).lineWidths
    pre.length si
  refine ⟨_, mainPass_first_glyph f align _ _ _ ctl g post (pre.length + 1) _ (by omega) hp
    hctl hg (by rw [hpos, hsl]; omega), ?_⟩
  rw [hx, hlines]

/-- Main-pass position of the first glyph of the text. -/
theorem layoutMainPass_first_line (f : Font) (align : AlignmentFlag) (buf : List Point)
    (lw : List Int) (wantBox : Bool) (ctl : List Nat) (g : Nat) (post : List Nat)
    (hg : 32 ≤ g) (hctl : ∀ c ∈ ctl, c < 32 ∧ c ≠ 10) :
    ∃ v : Point,
      (layoutMainPass f (ctl ++ g :: post) align buf lw wantBox).glyphsPositions[ctl.length]?
        = some v
      ∧ v.x = lineStartX align (needLines align wantBox)
          (layoutPrePass f (ctl ++ g :: post) align lw wantBox).maxLineWidth
          (layoutPrePass f (ctl ++ g :: post) align lw wantBox).lineWidths 0 := by
  obtain ⟨pos0, hlen, e⟩ := layoutMainPass_eq f (ctl ++ g :: post) align buf lw wantBox
  rw [e]
  generalize (layoutPrePass f (ctl ++ g :: post) align lw wantBox).maxLineWidth = M
  generalize (layoutPrePass f (ctl ++ g :: post) align lw wantBox).lineWidths = lws
  simp only [List.length_append, List.length_cons] at hlen
  cases ctl with
  | nil =>
    obtain ⟨v, hset, _, _, hx⟩ := mainPassStep_glyph_any f align (needLines align wantBox) M lws
      0 g { vpos := ⟨0, f.yOffset⟩, lines := 0, prevGlyph := -1, glyphsPositions := pos0 } hg
    refine ⟨v, ?_, hx rfl rfl⟩
    show (mainPass f align _ M lws post (0 + 1) _).glyphsPositions[0]? = _
    have h0 : 0 < pos0.length := by
      simp only [List.length_nil] at hlen
      omega
    rw [mainPass_frame _ _ _ _ _ _ _ _ 0 (by omega), hset]
    simp [List.getElem?_set, h0]
  | cons c ctl =>
    have hc := hctl c (List.mem_cons_self _ _)
    obtain ⟨hp, hx, hpos⟩ := mainPassStep_control_zero f align (needLines align wantBox) M lws c
      { vpos := ⟨0, f.yOffset⟩, lines := 0, prevGlyph := -1, glyphsPositions := pos0 } hc.1 hc.2
    simp only [List.length_cons] at hlen
    have := mainPass_first_glyph f align (needLines align wantBox) M lws ctl g post 1 _
      (le_refl 1) hp (fun x hx => hctl x (List.mem_cons_of_mem _ hx)) hg
      (by rw [hpos]; show 1 + ctl.length < pos0.length; omega)
    refine ⟨_, ?_, hx⟩
    simp only [List.length_cons]
    rw [show ctl.length + 1 = 1 + ctl.length by omega]
    exact this

/-- C10 (as stated, refuted). With kerning -30 after `'a'` and advance 10, `"ab"` is placed at
x = 20 and x = 0: x decreases along the line. With glyph x-offset -3 (advance 10, left
alignment), the first glyph after the `'\n'` of `"a\nb"` ends at x = 3 while the start x of its
line is 0. -/
theorem calculateGlyphsPositions_not_monotone :
    ((calculateGlyphsPositions { uniformFont 10 with kerning := fun _ _ => -30 } (bytesOf "ab")
        AlignTopLeft [] [] true).glyphsPositions.getD 0 ⟨0, 0⟩).x = 20
    ∧ ((calculateGlyphsPositions { uniformFont 10 with kerning := fun _ _ => -30 } (bytesOf "ab")
        AlignTopLeft [] [] true).glyphsPositions.getD 1 ⟨0, 0⟩).x = 0
    ∧ ((calculateGlyphsPositions { uniformFont 10 with glyphsOffset := fun _ => ⟨-3, 0⟩ }
        (bytesOf "a\nb") AlignTopLeft [] [] true).glyphsPositions.getD 2 ⟨0, 0⟩).x = 3
    ∧ lineStartX AlignTopLeft (needLines AlignTopLeft true)
        (layoutPrePass { uniformFont 10 with glyphsOffset := fun _ => ⟨-3, 0⟩ }
          (bytesOf "a\nb") AlignTopLeft [] true).maxLineWidth
        (layoutPrePass { uniformFont 10 with glyphsOffset := fun _ => ⟨-3, 0⟩ }
          (bytesOf "a\nb") AlignTopLeft [] true).lineWidths 1 = 0 := by
  refine ⟨by decide, by decide, by decide, by decide⟩

/-- C10 (amended). For every glyph table, alignment, text and buffer content: (1) when the pen
increments are non-negative (`advance[a] + spacing + kerning[a][b] ≥ 0` for all glyph bytes
`a`, `b ≥ 32`), two glyph bytes of one line (no `'\n'` between them) get non-decreasing x in
text order; (2) the first glyph after a `'\n'` (only control bytes in between) is placed at the
alignment-adjusted start x of its line, moved right by the shift `-minX` that the final pass
applies when the leftmost glyph edge `minX` is negative; (3) so is the first glyph of the text,
on line 0; (4) the shift is never negative. -/
theorem calculateGlyphsPositions_line_order (f : Font) (align : AlignmentFlag)
    (buf : List Point) (lw : List Int) (wantBox : Bool) :
    ((∀ a b : Nat, 32 ≤ a → 32 ≤ b →
        0 ≤ f.glyphsAdvance a + f.glyphSpacing.width + f.kerning a b) →
      ∀ (pre : List Nat) (a : Nat) (mid : List Nat) (b : Nat) (post : List Nat),
      32 ≤ a → 32 ≤ b → (∀ c ∈ mid, c ≠ 10) →
      ((calculateGlyphsPositions f (pre ++ a :: (mid ++ b :: post)) align buf lw
          wantBox).glyphsPositions.getD pre.length ⟨0, 0⟩).x
        ≤ ((calculateGlyphsPositions f (pre ++ a :: (mid ++ b :: post)) align buf lw
          wantBox).glyphsPositions.getD (pre.length + 1 + mid.length) ⟨0, 0⟩).x)
    ∧ (∀ (pre ctl : List Nat) (g : Nat) (post : List Nat),
      32 ≤ g → (∀ c ∈ ctl, c < 32 ∧ c ≠ 10) →
      ((calculateGlyphsPositions f (pre ++ 10 :: (ctl ++ g :: post)) align buf lw
          wantBox).glyphsPositions.getD (pre.length + 1 + ctl.length) ⟨0, 0⟩).x
        = lineStartX align (needLines align wantBox)
            (layoutPrePass f (pre ++ 10 :: (ctl ++ g :: post)) align lw wantBox).maxLineWidth
            (layoutPrePass f (pre ++ 10 :: (ctl ++ g :: post)) align lw wantBox).lineWidths
            (pre.count 10 + 1)
          + layoutShift f (pre ++ 10 :: (ctl ++ g :: post)) align buf lw wantBox)
    ∧ (∀ (ctl : List Nat) (g : Nat) (post : List Nat),
      32 ≤ g → (∀ c ∈ ctl, c < 32 ∧ c ≠ 10) →
      ((calculateGlyphsPositions f (ctl ++ g :: post) align buf lw
          wantBox).glyphsPositions.getD ctl.length ⟨0, 0⟩).x
        = lineStartX align (needLines align wantBox)
            (layoutPrePass f (ctl ++ g :: post) align lw wantBox).maxLineWidth
            (layoutPrePass f (ctl ++ g :: post) align lw wantBox).lineWidths 0
          + layoutShift f (ctl ++ g :: post) align buf lw wantBox)
    ∧ ∀ text : List Nat, 0 ≤ layoutShift f text align buf lw wantBox := by
  refine ⟨?_, ?_, ?_, ?_⟩
  · intro H pre a mid b post ha hb hmid
    obtain ⟨vi, vj, hi, hj, hle⟩ := layoutMainPass_order f align buf lw wantBox H pre a mid b post
      ha hb hmid
    have e : pre ++ a :: (mid ++ b :: post) = (pre ++ a :: mid) ++ b :: post := by simp
    have hl : (pre ++ a :: mid).length = pre.length + 1 + mid.length := by
      simp only [List.length_append, List.length_cons]; omega
    rw [calculateGlyphsPositions_glyph f align buf lw wantBox pre a (mid ++ b :: post) vi ha hi]
    rw [e] at hj ⊢
    rw [← hl] at hj ⊢
    rw [calculateGlyphsPositions_glyph f align buf lw wantBox (pre ++ a :: mid) b post vj hb hj]
    omega
  · intro pre ctl g post hg hctl
    obtain ⟨v, hv, hx⟩ := layoutMainPass_after_newline f align buf lw wantBox pre ctl g post hg
      hctl
    have e : pre ++ 10 :: (ctl ++ g :: post) = (pre ++ 10 :: ctl) ++ g :: post := by simp
    have hl : (pre ++ 10 :: ctl).length = pre.length + 1 + ctl.length := by
      simp only [List.length_append, List.length_cons]; omega
    rw [← hx]
    rw [e] at hv ⊢
    rw [← hl] at hv ⊢
    exact calculateGlyphsPositions_glyph f align buf lw wantBox (pre ++ 10 :: ctl) g post v hg hv
  · intro ctl g post hg hctl
    obtain ⟨v, hv, hx⟩ := layoutMainPass_first_line f align buf lw wantBox ctl g post hg hctl
    rw [← hx]
    exact calculateGlyphsPositions_glyph f align buf lw wantBox ctl g post v hg hv
  · intro text
    unfold layoutShift
    split_ifs with h
    · omega
    · exact le_refl 0

/-- C10 (amended) at a concrete input: advance 10, no kerning, right alignment, text
`"ab\ncd"`. -/
theorem calculateGlyphsPositions_line_order_witness :
    ((calculateGlyphsPositions (uniformFont 10) (bytesOf "ab\ncd")
        { AlignTopLeft with alignRight := true } [] [] true).glyphsPositions.getD 3 ⟨0, 0⟩).x
      ≤ ((calculateGlyphsPositions (uniformFont 10) (bytesOf "ab\ncd")
        { AlignTopLeft with alignRight := true } [] [] true).glyphsPositions.getD 4 ⟨0, 0⟩).x :=
  (calculateGlyphsPositions_line_order (uniformFont 10) { AlignTopLeft with alignRight := true }
    [] [] true).1 (by intro a b _ _; simp [uniformFont]) (bytesOf "ab\n") 99 [] 100 []
    (by decide) (by decide) (by simp)

/-! ### The wrapping loop runs to the end of the text -/

theorem utf8_length_pos (s : List Nat) (cp len : Nat) (h : _utf8 s = some (cp, len)) :
    1 ≤ len := by
  unfold _utf8 at h
  split at h
  · exact Option.noConfusion h
  · split_ifs at h <;> simp only [Option.some.injEq, Prod.mk.injEq] at h <;> omega

theorem utf8_cons_ne_none (c : Nat) (r : List Nat) : _utf8 (c :: r) ≠ none := by
  simp only [_utf8]
  split_ifs <;> simp

/-- Every iteration of the loop advances the cursor by at least one byte. -/
theorem wrapStep_advances (f : Font) (maxW : Int) (o : WrapOptions) (c : Nat) (r : List Nat)
    (st : WrapState) : 1 ≤ (wrapStep f maxW o (c :: r) st).2 := by
  simp only [wrapStep]
  split
  · exact le_refl 1
  · split
    · next h => exact absurd h (utf8_cons_ne_none c r)
    · next cp len h =>
      have hl := utf8_length_pos _ _ _ h
      split_ifs <;> first | exact hl | exact le_refl 1

/-- Once the fuel covers the remaining bytes, more fuel changes nothing: `wrapText` runs the
loop until the cursor has reached the end. -/
theorem wrapLoop_fuel (f : Font) (maxW : Int) (o : WrapOptions) :
    ∀ (n m : Nat) (rest : List Nat) (st : WrapState), rest.length ≤ n → rest.length ≤ m →
      wrapLoop f maxW o n rest st = wrapLoop f maxW o m rest st := by
  intro n
  induction n with
  | zero =>
    intro m rest st hn _
    have : rest = [] := List.length_eq_zero.mp (Nat.le_zero.mp hn)
    subst this
    rw [wrapLoop_nil, wrapLoop_nil]
  | succ n ih =>
    intro m rest st hn hm
    cases rest with
    | nil => rw [wrapLoop_nil, wrapLoop_nil]
    | cons c r =>
      obtain ⟨m', rfl⟩ : ∃ m', m = m' + 1 := ⟨m - 1, by simp at hm; omega⟩
      rw [wrapLoop_cons, wrapLoop_cons]
      have hk := wrapStep_advances f maxW o c r st
      simp only [List.length_cons] at hn hm
      exact ih m' _ _ (by rw [List.length_drop, List.length_cons]; omega)
        (by rw [List.length_drop, List.length_cons]; omega)

/-! ### The box reported by `calculateGlyphsPositions` -/

/-- C12: for empty text with a box requested, `calculateGlyphsPositions` reports the box
`(0, glyphHeight)` and returns the positions buffer (and the scratch line widths) as they were
given: same length, same entries. -/
theorem calculateGlyphsPositions_empty_text (f : Font) (align : AlignmentFlag)
    (buf : List Point) (lw : List Int) :
    (calculateGlyphsPositions f [] align buf lw true).textBoxSize = some ⟨0, f.glyphHeight⟩
    ∧ (calculateGlyphsPositions f [] align buf lw true).glyphsPositions = buf
    ∧ (calculateGlyphsPositions f [] align buf lw true).glyphsPositions.length = buf.length
    ∧ (∀ i : Nat, (calculateGlyphsPositions f [] align buf lw true).glyphsPositions[i]? = buf[i]?)
    ∧ (calculateGlyphsPositions f [] align buf lw true).lineWidths = lw := by
  refine ⟨rfl, rfl, rfl, fun _ => rfl, rfl⟩

theorem mainPassStep_vposY (f : Font) (align : AlignmentFlag) (nl : Bool) (M : Int)
    (lw : List Int) (i g : Nat) (s : MainPass) :
    (mainPassStep f align nl M lw i g s).vpos.y
      = s.vpos.y + (if g = 10 then f.glyphHeight + f.glyphSpacing.height else 0) := by
  unfold mainPassStep
  dsimp only
  split_ifs <;> simp_all

/-- The pen y after the main pass: one line pitch per `'\n'`. -/
theorem mainPass_vposY (f : Font) (align : AlignmentFlag) (nl : Bool) (M : Int)
    (lw : List Int) :
    ∀ (a : List Nat) (i : Nat) (s : MainPass),
      (mainPass f align nl M lw a i s).vpos.y
        = s.vpos.y + (a.count 10 : Int) * (f.glyphHeight + f.glyphSpacing.height) := by
  intro a
  induction a with
  | nil => intro i s; simp [mainPass]
  | cons g a ih =>
    intro i s
    show (mainPass f align nl M lw a (i + 1) _).vpos.y = _
    rw [ih, mainPassStep_vposY, List.count_cons]
    by_cases h : g = 10
    · subst h
      simp only [if_true, beq_self_eq_true]
      push_cast
      ring
    · have h' : (g == 10) = false := by simpa using h
      simp only [h, h', if_false]
      simp

/-! ### The bounding-box pass -/

theorem extentStep_control (f : Font) (P : List Point) (i g : Nat) (e : Extent) (hg : g < 32) :
    extentStep f P i g e = e := by
  simp [extentStep, hg]

theorem extentStep_glyph (f : Font) (P : List Point) (i g : Nat) (e : Extent) (hg : 32 ≤ g) :
    extentStep f P i g e
      = if e.hasGlyph = true then
          { minX := min e.minX (glyphLeft f P i g), maxX := max e.maxX (glyphRight f P i g),
            hasGlyph := true }
        else { minX := glyphLeft f P i g, maxX := glyphRight f P i g, hasGlyph := true } := by
  have h1 : ¬ g < 32 := by omega
  have h2 : g ≠ 10 := by omega
  cases he : e.hasGlyph <;> simp [extentStep, h1, h2, he, glyphLeft, glyphRight]

theorem extentPass_cons (f : Font) (P : List Point) (g : Nat) (rest : List Nat) (i : Nat)
    (e : Extent) :
    extentPass f P (g :: rest) i e = extentPass f P rest (i + 1) (extentStep f P i g e) := rfl

/-- Once a glyph has been seen the extent only grows. -/
theorem extentPass_grows (f : Font) (P : List Point) :
    ∀ (rest : List Nat) (i : Nat) (e : Extent), e.hasGlyph = true →
      (extentPass f P rest i e).hasGlyph = true
      ∧ (extentPass f P rest i e).minX ≤ e.minX ∧ e.maxX ≤ (extentPass f P rest i e).maxX := by
  intro rest
  induction rest with
  | nil => intro i e h; exact ⟨h, le_refl _, le_refl _⟩
  | cons g rest ih =>
    intro i e h
    rw [extentPass_cons]
    by_cases hg : 32 ≤ g
    · rw [extentStep_glyph f P i g e hg, if_pos h]
      obtain ⟨h1, h2, h3⟩ := ih (i + 1)
        ⟨min e.minX (glyphLeft f P i g), max e.maxX (glyphRight f P i g), true⟩ rfl
      exact ⟨h1, le_trans h2 (min_le_left _ _), le_trans (le_max_left _ _) h3⟩
    · rw [extentStep_control f P i g e (by omega)]
      exact ih (i + 1) e h

/-- Without a glyph byte the pass leaves the extent as it is. -/
theorem extentPass_no_glyph (f : Font) (P : List Point) :
    ∀ (rest : List Nat) (i : Nat) (e : Extent), (∀ g ∈ rest, g < 32) →
      extentPass f P rest i e = e := by
  intro rest
  induction rest with
  | nil => intro i e _; rfl
  | cons g rest ih =>
    intro i e h
    rw [extentPass_cons, extentStep_control f P i g e (h g (List.mem_cons_self _ _))]
    exact ih (i + 1) e (fun x hx => h x (List.mem_cons_of_mem _ hx))

/-- Every placed glyph lies within the extent. -/
theorem extentPass_bounds (f : Font) (P : List Point) :
    ∀ (pre : List Nat) (g : Nat) (post : List Nat) (i : Nat) (e : Extent), 32 ≤ g →
      (extentPass f P (pre ++ g :: post) i e).hasGlyph = true
      ∧ (extentPass f P (pre ++ g :: post) i e).minX ≤ glyphLeft f P (i + pre.length) g
      ∧ glyphRight f P (i + pre.length) g ≤ (extentPass f P (pre ++ g :: post) i e).maxX := by
  intro pre
  induction pre with
  | nil =>
    intro g post i e hg
    rw [List.nil_append, extentPass_cons, extentStep_glyph f P i g e hg]
    simp only [List.length_nil, Nat.add_zero]
    split_ifs with h
    · obtain ⟨h1, h2, h3⟩ := extentPass_grows f P post (i + 1)
        ⟨min e.minX (glyphLeft f P i g), max e.maxX (glyphRight f P i g), true⟩ rfl
      exact ⟨h1, le_trans h2 (min_le_right _ _), le_trans (le_max_right _ _) h3⟩
    · exact extentPass_grows f P post (i + 1)
        ⟨glyphLeft f P i g, glyphRight f P i g, true⟩ rfl
  | cons c pre ih =>
    intro g post i e hg
    simp only [List.length_cons]
    rw [show i + (pre.length + 1) = i + 1 + pre.length by omega, List.cons_append,
      extentPass_cons]
    exact ih g post (i + 1) (extentStep f P i c e) hg

/-- The left end of the extent is the incoming one or the left edge of a placed glyph. -/
theorem extentPass_min_attained (f : Font) (P : List Point) :
    ∀ (rest : List Nat) (i : Nat) (e : Extent),
      ((e.hasGlyph = true ∧ (extentPass f P rest i e).minX = e.minX)
        ∨ ∃ (pre : List Nat) (g : Nat) (post : List Nat), rest = pre ++ g :: post ∧ 32 ≤ g
            ∧ (extentPass f P rest i e).minX = glyphLeft f P (i + pre.length) g)
      ∨ (extentPass f P rest i e).hasGlyph = false := by
  intro rest
  induction rest with
  | nil =>
    intro i e
    cases h : e.hasGlyph
    · exact Or.inr h
    · exact Or.inl (Or.inl ⟨rfl, rfl⟩)
  | cons g rest ih =>
    intro i e
    rw [extentPass_cons]
    have lift : ∀ e' : Extent,
        (∃ (pre : List Nat) (g' : Nat) (post : List Nat), rest = pre ++ g' :: post ∧ 32 ≤ g'
            ∧ (extentPass f P rest (i + 1) e').minX = glyphLeft f P (i + 1 + pre.length) g') →
        ∃ (pre : List Nat) (g' : Nat) (post : List Nat), g :: rest = pre ++ g' :: post ∧ 32 ≤ g'
            ∧ (extentPass f P rest (i + 1) e').minX = glyphLeft f P (i + pre.length) g' := by
      rintro e' ⟨pre, g', post, h1, h2, h3⟩
      refine ⟨g :: pre, g', post, by rw [h1]; rfl, h2, ?_⟩
      rw [h3, List.length_cons, show i + 1 + pre.length = i + (pre.length + 1) by omega]
    by_cases hg : 32 ≤ g
    · rw [extentStep_glyph f P i g e hg]
      split_ifs with he
      · rcases ih (i + 1) ⟨min e.minX (glyphLeft f P i g), max e.maxX (glyphRight f P i g), true⟩
          with (⟨_, h⟩ | h) | h
        · rcases min_choice e.minX (glyphLeft f P i g) with hm | hm
          · exact Or.inl (Or.inl ⟨he, by rw [h]; exact hm⟩)
          · exact Or.inl (Or.inr ⟨[], g, rest, rfl, hg, by rw [h]; simpa using hm⟩)
        · exact Or.inl (Or.inr (lift _ h))
        · exact Or.inr h
      · rcases ih (i + 1) ⟨glyphLeft f P i g, glyphRight f P i g, true⟩ with (⟨_, h⟩ | h) | h
        · exact Or.inl (Or.inr ⟨[], g, rest, rfl, hg, by rw [h]; simp⟩)
        · exact Or.inl (Or.inr (lift _ h))
        · exact Or.inr h
    · rw [extentStep_control f P i g e (by omega)]
      rcases ih (i + 1) e with (h | h) | h
      · exact Or.inl (Or.inl h)
      · exact Or.inl (Or.inr (lift _ h))
      · exact Or.inr h

/-- The right end of the extent is the incoming one or the right edge of a placed glyph. -/
theorem extentPass_max_attained (f : Font) (P : List Point) :
    ∀ (rest : List Nat) (i : Nat) (e : Extent),
      ((e.hasGlyph = true ∧ (extentPass f P rest i e).maxX = e.maxX)
        ∨ ∃ (pre : List Nat) (g : Nat) (post : List Nat), rest = pre ++ g :: post ∧ 32 ≤ g
            ∧ (extentPass f P rest i e).maxX = glyphRight f P (i + pre.length) g)
      ∨ (extentPass f P rest i e).hasGlyph = false := by
  intro rest
  induction rest with
  | nil =>
    intro i e
    cases h : e.hasGlyph
    · exact Or.inr h
    · exact Or.inl (Or.inl ⟨rfl, rfl⟩)
  | cons g rest ih =>
    intro i e
    rw [extentPass_cons]
    have lift : ∀ e' : Extent,
        (∃ (pre : List Nat) (g' : Nat) (post : List Nat), rest = pre ++ g' :: post ∧ 32 ≤ g'
            ∧ (extentPass f P rest (i + 1) e').maxX = glyphRight f P (i + 1 + pre.length) g') →
        ∃ (pre : List Nat) (g' : Nat) (post : List Nat), g :: rest = pre ++ g' :: post ∧ 32 ≤ g'
            ∧ (extentPass f P rest (i + 1) e').maxX = glyphRight f P (i + pre.length) g' := by
      rintro e' ⟨pre, g', post, h1, h2, h3⟩
      refine ⟨g :: pre, g', post, by rw [h1]; rfl, h2, ?_⟩
      rw [h3, List.length_cons, show i + 1 + pre.length = i + (pre.length + 1) by omega]
    by_cases hg : 32 ≤ g
    · rw [extentStep_glyph f P i g e hg]
      split_ifs with he
      · rcases ih (i + 1) ⟨min e.minX (glyphLeft f P i g), max e.maxX (glyphRight f P i g), true⟩
          with (⟨_, h⟩ | h) | h
        · rcases max_choice e.maxX (glyphRight f P i g) with hm | hm
          · exact Or.inl (Or.inl ⟨he, by rw [h]; exact hm⟩)
          · exact Or.inl (Or.inr ⟨[], g, rest, rfl, hg, by rw [h]; simpa using hm⟩)
        · exact Or.inl (Or.inr (lift _ h))
        · exact Or.inr h
      · rcases ih (i + 1) ⟨glyphLeft f P i g, glyphRight f P i g, true⟩ with (⟨_, h⟩ | h) | h
        · exact Or.inl (Or.inr ⟨[], g, rest, rfl, hg, by rw [h]; simp⟩)
        · exact Or.inl (Or.inr (lift _ h))
        · exact Or.inr h
    · rw [extentStep_control f P i g e (by omega)]
      rcases ih (i + 1) e with (h | h) | h
      · exact Or.inl (Or.inl h)
      · exact Or.inl (Or.inr (lift _ h))
      · exact Or.inr h

theorem layoutMainPass_length (f : Font) (text : List Nat) (align : AlignmentFlag)
    (buf : List Point) (lw : List Int) (wantBox : Bool) :
    text.length ≤ (layoutMainPass f text align buf lw wantBox).glyphsPositions.length := by
  obtain ⟨pos0, hlen, e⟩ := layoutMainPass_eq f text align buf lw wantBox
  rw [e, mainPass_length]
  exact hlen

/-- The edges of a placed glyph in the reported positions are its main-pass edges moved by the
shift. -/
theorem glyphLeft_reported (f : Font) (align : AlignmentFlag) (buf : List Point)
    (lw : List Int) (wantBox : Bool) (pre : List Nat) (g : Nat) (post : List Nat)
    (hg : 32 ≤ g) :
    glyphLeft f (calculateGlyphsPositions f (pre ++ g :: post) align buf lw
        wantBox).glyphsPositions pre.length g
      = glyphLeft f (layoutMainPass f (pre ++ g :: post) align buf lw wantBox).glyphsPositions
          pre.length g
        + layoutShift f (pre ++ g :: post) align buf lw wantBox := by
  have hlen := layoutMainPass_length f (pre ++ g :: post) align buf lw wantBox
  simp only [List.length_append, List.length_cons] at hlen
  have hlt : pre.length
      < (layoutMainPass f (pre ++ g :: post) align buf lw wantBox).glyphsPositions.length := by
    omega
  have hv : (layoutMainPass f (pre ++ g :: post) align buf lw wantBox).glyphsPositions[pre.length]?
      = some ((layoutMainPass f (pre ++ g :: post) align buf lw
          wantBox).glyphsPositions[pre.length]) := List.getElem?_eq_getElem hlt
  unfold glyphLeft
  rw [calculateGlyphsPositions_glyph f align buf lw wantBox pre g post _ hg hv,
    List.getD_eq_getElem?_getD, hv]
  simp only [Option.getD_some]
  ring

/-- C11: for non-empty text with a box requested, the reported height is
`yOffset + k * (glyphHeight + vertical spacing) + glyphHeight` with `k` the number of `'\n'`
bytes; the reported width is the maximum line width of the pre-pass when the text has no glyph
byte, and otherwise the larger of that and `maxX - minX`, where `minX` is the least left edge
and `maxX` the greatest right edge (position plus x-offset, plus glyph width) over the placed
glyphs in the reported positions. -/
theorem calculateGlyphsPositions_box (f : Font) (text : List Nat) (align : AlignmentFlag)
    (buf : List Point) (lw : List Int) (hne : text ≠ []) :
    ∃ W minX maxX : Int,
      (calculateGlyphsPositions f text align buf lw true).textBoxSize
        = some ⟨W, f.yOffset + (text.count 10 : Int) * (f.glyphHeight + f.glyphSpacing.height)
                    + f.glyphHeight⟩
      ∧ ((∀ g ∈ text, g < 32) → W = (layoutPrePass f text align lw true).maxLineWidth)
      ∧ ((∃ g ∈ text, 32 ≤ g) →
          W = max (layoutPrePass f text align lw true).maxLineWidth (maxX - minX)
          ∧ (∀ (pre : List Nat) (g : Nat) (post : List Nat), text = pre ++ g :: post → 32 ≤ g →
              minX ≤ glyphLeft f (calculateGlyphsPositions f text align buf lw
                        true).glyphsPositions pre.length g
              ∧ glyphRight f (calculateGlyphsPositions f text align buf lw
                        true).glyphsPositions pre.length g ≤ maxX)
          ∧ (∃ (pre : List Nat) (g : Nat) (post : List Nat), text = pre ++ g :: post ∧ 32 ≤ g
              ∧ minX = glyphLeft f (calculateGlyphsPositions f text align buf lw
                        true).glyphsPositions pre.length g)
          ∧ (∃ (pre : List Nat) (g : Nat) (post : List Nat), text = pre ++ g :: post ∧ 32 ≤ g
              ∧ maxX = glyphRight f (calculateGlyphsPositions f text align buf lw
                        true).glyphsPositions pre.length g)) := by
  have hlen : text.length ≠ 0 := fun h => hne (List.length_eq_zero.mp h)
  -- the height
  have hy : (layoutMainPass f text align buf lw true).vpos.y
      = f.yOffset + (text.count 10 : Int) * (f.glyphHeight + f.glyphSpacing.height) := by
    obtain ⟨pos0, _, e⟩ := layoutMainPass_eq f text align buf lw true
    rw [e, mainPass_vposY]
  -- the reported box in terms of the extent of the bounding-box pass
  have hbox : (calculateGlyphsPositions f text align buf lw true).textBoxSize
      = some ⟨if (layoutExtent f text align buf lw true).hasGlyph = true then
                max (layoutPrePass f text align lw true).maxLineWidth
                  ((layoutExtent f text align buf lw true).maxX
                    - (layoutExtent f text align buf lw true).minX)
              else (layoutPrePass f text align lw true).maxLineWidth,
              (layoutMainPass f text align buf lw true).vpos.y + f.glyphHeight⟩ := by
    unfold calculateGlyphsPositions
    simp only [hlen, and_false, if_false, if_true]
    by_cases h1 : (layoutExtent f text align buf lw true).hasGlyph = true <;>
      by_cases h2 : (layoutExtent f text align buf lw true).minX < 0 <;>
      simp [h1, h2]
  refine ⟨_, (layoutExtent f text align buf lw true).minX + layoutShift f text align buf lw true,
    (layoutExtent f text align buf lw true).maxX + layoutShift f text align buf lw true,
    by rw [hbox, hy], ?_, ?_⟩
  · intro hctl
    have : layoutExtent f text align buf lw true = ⟨0, 0, false⟩ :=
      extentPass_no_glyph f _ text 0 _ hctl
    rw [this]
    simp
  · rintro ⟨g0, hg0, hg032⟩
    obtain ⟨pre0, post0, h0⟩ := List.append_of_mem hg0
    have hhas : (layoutExtent f text align buf lw true).hasGlyph = true := by
      have := (extentPass_bounds f (layoutMainPass f text align buf lw true).glyphsPositions
        pre0 g0 post0 0 ⟨0, 0, false⟩ hg032).1
      rw [← h0] at this
      exact this
    refine ⟨by rw [if_pos hhas]; congr 1; ring, ?_, ?_, ?_⟩
    · intro pre g post ht hg
      subst ht
      have hb := extentPass_bounds f
        (layoutMainPass f (pre ++ g :: post) align buf lw true).glyphsPositions
        pre g post 0 ⟨0, 0, false⟩ hg
      simp only [Nat.zero_add] at hb
      unfold glyphRight
      rw [glyphLeft_reported f align buf lw true pre g post hg]
      unfold glyphRight at hb
      unfold layoutExtent
      constructor
      · linarith [hb.2.1]
      · linarith [hb.2.2]
    · rcases extentPass_min_attained f (layoutMainPass f text align buf lw true).glyphsPositions
        text 0 ⟨0, 0, false⟩ with (⟨h, _⟩ | ⟨pre, g, post, ht, hg, hm⟩) | h
      · exact absurd h (by decide)
      · refine ⟨pre, g, post, ht, hg, ?_⟩
        subst ht
        rw [glyphLeft_reported f align buf lw true pre g post hg]
        simp only [Nat.zero_add] at hm
        unfold layoutExtent
        rw [hm]
      · unfold layoutExtent at hhas
        rw [h] at hhas
        exact absurd hhas (by decide)
    · rcases extentPass_max_attained f (layoutMainPass f text align buf lw true).glyphsPositions
        text 0 ⟨0, 0, false⟩ with (⟨h, _⟩ | ⟨pre, g, post, ht, hg, hm⟩) | h
      · exact absurd h (by decide)
      · refine ⟨pre, g, post, ht, hg, ?_⟩
        subst ht
        unfold glyphRight
        rw [glyphLeft_reported f align buf lw true pre g post hg]
        simp only [Nat.zero_add] at hm
        unfold glyphRight at hm
        unfold layoutExtent
        rw [hm]
        ring
      · unfold layoutExtent at hhas
        rw [h] at hhas
        exact absurd hhas (by decide)

/-- C11 at a concrete input: `"ab\ncd"` with advance 10 and `glyphHeight = 16` is not empty, and
its reported box has the height `0 + 1 * (16 + 0) + 16`. -/
theorem calculateGlyphsPositions_box_witness :
    bytesOf "ab\ncd" ≠ []
    ∧ ∃ W : Int,
        (calculateGlyphsPositions (uniformFont 10) (bytesOf "ab\ncd") AlignTopLeft [] []
          true).textBoxSize = some ⟨W, 0 + (1 : Int) * (16 + 0) + 16⟩ :=
  ⟨by decide,
   match calculateGlyphsPositions_box (uniformFont 10) (bytesOf "ab\ncd") AlignTopLeft [] []
      (by decide) with
   | ⟨W, _, _, h, _⟩ => ⟨W, h⟩⟩

/-! ### Alignment offset and clipping -/

/-- C13: for every alignment flag combination, when the destination rectangle is at least as
wide and as high as the text box, the offset `(dx, dy)` of `getDrawTextCoords` /
`fillTextCoords` keeps the translated text box inside the destination rectangle:
`0 ≤ dx`, `dx + w ≤ W`, `0 ≤ dy` and `dy + h ≤ H`. -/
theorem alignOffset_keeps_box_inside (align : AlignmentFlag) (screenCoords : Rect)
    (textBoxSize : Size) (hw : textBoxSize.width ≤ screenCoords.width)
    (hh : textBoxSize.height ≤ screenCoords.height) :
    0 ≤ (alignOffset align screenCoords textBoxSize).x
    ∧ (alignOffset align screenCoords textBoxSize).x + textBoxSize.width ≤ screenCoords.width
    ∧ 0 ≤ (alignOffset align screenCoords textBoxSize).y
    ∧ (alignOffset align screenCoords textBoxSize).y + textBoxSize.height
        ≤ screenCoords.height := by
  have half : ∀ d : Int, 0 ≤ d → 0 ≤ d.tdiv 2 ∧ d.tdiv 2 ≤ d := by
    intro d hd
    rw [Int.tdiv_eq_ediv hd (by decide)]
    constructor <;> omega
  have hx := half (screenCoords.width - textBoxSize.width) (by omega)
  have hy := half (screenCoords.height - textBoxSize.height) (by omega)
  unfold alignOffset
  refine ⟨?_, ?_, ?_, ?_⟩ <;> dsimp only <;> split_ifs <;> omega

/-- C13 at a concrete input: a 30 by 16 box centred in a 100 by 50 rectangle. -/
theorem alignOffset_keeps_box_inside_witness :
    0 ≤ (alignOffset { AlignTopLeft with alignHorizontalCenter := true,
                                         alignVerticalCenter := true }
          (Rect.ofPointSize ⟨7, 9⟩ ⟨100, 50⟩) ⟨30, 16⟩).x
    ∧ (alignOffset { AlignTopLeft with alignHorizontalCenter := true,
                                       alignVerticalCenter := true }
          (Rect.ofPointSize ⟨7, 9⟩ ⟨100, 50⟩) ⟨30, 16⟩).x + 30 ≤ 100
    ∧ 0 ≤ (alignOffset { AlignTopLeft with alignHorizontalCenter := true,
                                           alignVerticalCenter := true }
          (Rect.ofPointSize ⟨7, 9⟩ ⟨100, 50⟩) ⟨30, 16⟩).y
    ∧ (alignOffset { AlignTopLeft with alignHorizontalCenter := true,
                                       alignVerticalCenter := true }
          (Rect.ofPointSize ⟨7, 9⟩ ⟨100, 50⟩) ⟨30, 16⟩).y + 16 ≤ 50 :=
  alignOffset_keeps_box_inside _ (Rect.ofPointSize ⟨7, 9⟩ ⟨100, 50⟩) ⟨30, 16⟩ (by decide)
    (by decide)

/-- The result of `clipAndTranslateGlyph` in closed form. -/
theorem clipAndTranslateGlyph_eq (G T S : Rect) :
    clipAndTranslateGlyph G T S
      = if G.y2 < 0 ∨ G.x2 < 0 then ⟨false, G, T⟩
        else if S.intersects (trimmedGlyph G S) = false then
          ⟨false, trimmedGlyph G S,
            ⟨if G.x1 < 0 then T.x1 - G.x1 else T.x1, if G.y1 < 0 then T.y1 - G.y1 else T.y1,
             T.x2, T.y2⟩⟩
        else
          ⟨true,
            ⟨(trimmedGlyph G S).x1, (trimmedGlyph G S).y1,
             if G.x2 + S.x1 > S.x2 then S.x2 else G.x2 + S.x1,
             if G.y2 + S.y1 > S.y2 then S.y2 else G.y2 + S.y1⟩,
            ⟨if G.x1 < 0 then T.x1 - G.x1 else T.x1, if G.y1 < 0 then T.y1 - G.y1 else T.y1,
             if G.x2 + S.x1 > S.x2 then T.x2 + (S.x2 - (G.x2 + S.x1)) else T.x2,
             if G.y2 + S.y1 > S.y2 then T.y2 + (S.y2 - (G.y2 + S.y1)) else T.y2⟩⟩ := by
  unfold clipAndTranslateGlyph
  by_cases h0 : G.y2 < 0 ∨ G.x2 < 0
  · simp only [if_pos h0]
  · simp only [if_neg h0]
    have e : Rect.translate
        (if (if G.y1 < 0 then { G with y1 := 0 } else G).x1 < 0 then
          { (if G.y1 < 0 then { G with y1 := 0 } else G) with x1 := 0 }
         else (if G.y1 < 0 then { G with y1 := 0 } else G)) S.topLeft = trimmedGlyph G S := by
      by_cases a : G.y1 < 0 <;> by_cases b : G.x1 < 0 <;>
        simp [a, b, trimmedGlyph, Rect.translate, Rect.topLeft]
    have et : (if (if G.y1 < 0 then { G with y1 := 0 } else G).x1 < 0 then
          { (if G.y1 < 0 then { T with y1 := T.y1 - G.y1 } else T) with
            x1 := (if G.y1 < 0 then { T with y1 := T.y1 - G.y1 } else T).x1
                  - (if G.y1 < 0 then { G with y1 := 0 } else G).x1 }
         else (if G.y1 < 0 then { T with y1 := T.y1 - G.y1 } else T))
        = (⟨if G.x1 < 0 then T.x1 - G.x1 else T.x1, if G.y1 < 0 then T.y1 - G.y1 else T.y1,
             T.x2, T.y2⟩ : Rect) := by
      by_cases a : G.y1 < 0 <;> by_cases b : G.x1 < 0 <;> simp [a, b]
    simp only [e, et]
    by_cases hi : S.intersects (trimmedGlyph G S) = false
    · simp [hi]
    · have hi' : S.intersects (trimmedGlyph G S) = true := by simpa using hi
      simp only [hi', Bool.not_true, if_false, Bool.false_eq_true]
      by_cases c : G.y2 + S.y1 > S.y2 <;> by_cases d : G.x2 + S.x1 > S.x2 <;>
        simp [c, d, trimmedGlyph]

/-- C15: whenever `clipAndTranslateGlyph` returns true, each of the four edges of the atlas
rectangle has moved by the same amount as the same edge of the screen rectangle, measured from
the glyph rectangle translated into the viewport; hence equal width and height on entry give
equal width and height on exit. -/
theorem clipAndTranslateGlyph_trims_equally (G T S : Rect)
    (h : (clipAndTranslateGlyph G T S).visible = true) :
    (clipAndTranslateGlyph G T S).glyphTextureCoords.x1 - T.x1
        = (clipAndTranslateGlyph G T S).glyphScreenCoords.x1 - (G.translate S.topLeft).x1
    ∧ (clipAndTranslateGlyph G T S).glyphTextureCoords.y1 - T.y1
        = (clipAndTranslateGlyph G T S).glyphScreenCoords.y1 - (G.translate S.topLeft).y1
    ∧ (clipAndTranslateGlyph G T S).glyphTextureCoords.x2 - T.x2
        = (clipAndTranslateGlyph G T S).glyphScreenCoords.x2 - (G.translate S.topLeft).x2
    ∧ (clipAndTranslateGlyph G T S).glyphTextureCoords.y2 - T.y2
        = (clipAndTranslateGlyph G T S).glyphScreenCoords.y2 - (G.translate S.topLeft).y2
    ∧ (G.width = T.width → G.height = T.height →
        (clipAndTranslateGlyph G T S).glyphScreenCoords.width
            = (clipAndTranslateGlyph G T S).glyphTextureCoords.width
        ∧ (clipAndTranslateGlyph G T S).glyphScreenCoords.height
            = (clipAndTranslateGlyph G T S).glyphTextureCoords.height) := by
  rw [clipAndTranslateGlyph_eq] at h ⊢
  by_cases h0 : G.y2 < 0 ∨ G.x2 < 0
  · rw [if_pos h0] at h
    simp at h
  · rw [if_neg h0] at h ⊢
    by_cases hi : S.intersects (trimmedGlyph G S) = false
    · rw [if_pos hi] at h
      simp at h
    · rw [if_neg hi]
      simp only [Rect.translate, Rect.topLeft, Rect.width, Rect.height, trimmedGlyph]
      refine ⟨?_, ?_, ?_, ?_, ?_⟩
      · split_ifs <;> omega
      · split_ifs <;> omega
      · split_ifs <;> omega
      · split_ifs <;> omega
      · intro hw hh
        constructor
        · split_ifs <;> omega
        · split_ifs <;> omega

/-- C15 at a concrete input: a 10 by 16 glyph at (-3, 40) in the viewport (0, 0, 100, 50) loses
3 columns on the left and 6 rows at the bottom, on both rectangles. -/
theorem clipAndTranslateGlyph_trims_equally_witness :
    (clipAndTranslateGlyph (Rect.ofPointSize ⟨-3, 40⟩ ⟨10, 16⟩) (Rect.ofPointSize ⟨20, 0⟩ ⟨10, 16⟩)
        (Rect.ofPointSize ⟨0, 0⟩ ⟨100, 50⟩)).glyphScreenCoords = ⟨0, 40, 6, 49⟩
    ∧ (clipAndTranslateGlyph (Rect.ofPointSize ⟨-3, 40⟩ ⟨10, 16⟩)
        (Rect.ofPointSize ⟨20, 0⟩ ⟨10, 16⟩)
        (Rect.ofPointSize ⟨0, 0⟩ ⟨100, 50⟩)).glyphTextureCoords = ⟨23, 0, 29, 9⟩
    ∧ (clipAndTranslateGlyph (Rect.ofPointSize ⟨-3, 40⟩ ⟨10, 16⟩)
        (Rect.ofPointSize ⟨20, 0⟩ ⟨10, 16⟩)
        (Rect.ofPointSize ⟨0, 0⟩ ⟨100, 50⟩)).glyphTextureCoords.x1 - 20
        = (clipAndTranslateGlyph (Rect.ofPointSize ⟨-3, 40⟩ ⟨10, 16⟩)
            (Rect.ofPointSize ⟨20, 0⟩ ⟨10, 16⟩)
            (Rect.ofPointSize ⟨0, 0⟩ ⟨100, 50⟩)).glyphScreenCoords.x1 - (-3) :=
  ⟨by decide, by decide,
   (clipAndTranslateGlyph_trims_equally (Rect.ofPointSize ⟨-3, 40⟩ ⟨10, 16⟩)
      (Rect.ofPointSize ⟨20, 0⟩ ⟨10, 16⟩) (Rect.ofPointSize ⟨0, 0⟩ ⟨100, 50⟩) (by decide)).1⟩

/-- The test `intersects` spelled out. -/
theorem Rect.intersects_iff (a b : Rect) :
    a.intersects b = true ↔
      ¬ (a.x2 = a.x1 - 1 ∧ a.y2 = a.y1 - 1) ∧ ¬ (b.x2 = b.x1 - 1 ∧ b.y2 = b.y1 - 1)
      ∧ (if a.x2 - a.x1 + 1 < 0 then a.x2 else a.x1) ≤ (if b.x2 - b.x1 + 1 < 0 then b.x1 else b.x2)
      ∧ (if b.x2 - b.x1 + 1 < 0 then b.x2 else b.x1) ≤ (if a.x2 - a.x1 + 1 < 0 then a.x1 else a.x2)
      ∧ (if a.y2 - a.y1 + 1 < 0 then a.y2 else a.y1) ≤ (if b.y2 - b.y1 + 1 < 0 then b.y1 else b.y2)
      ∧ (if b.y2 - b.y1 + 1 < 0 then b.y2 else b.y1)
          ≤ (if a.y2 - a.y1 + 1 < 0 then a.y1 else a.y2) := by
  unfold Rect.intersects Rect.isNull
  by_cases n1 : a.x2 = a.x1 - 1 ∧ a.y2 = a.y1 - 1
  · simp [n1]
  · by_cases n2 : b.x2 = b.x1 - 1 ∧ b.y2 = b.y1 - 1
    · simp [n2]
    · have e1 : (decide (a.x2 = a.x1 - 1) && decide (a.y2 = a.y1 - 1)) = false := by
        simpa using n1
      have e2 : (decide (b.x2 = b.x1 - 1) && decide (b.y2 = b.y1 - 1)) = false := by
        simpa using n2
      simp only [e1, e2, Bool.or_self, Bool.false_eq_true, if_false, n1, n2, not_false_eq_true,
        true_and]
      generalize (if a.x2 - a.x1 + 1 < 0 then a.x2 else a.x1) = l1
      generalize (if a.x2 - a.x1 + 1 < 0 then a.x1 else a.x2) = r1
      generalize (if b.x2 - b.x1 + 1 < 0 then b.x2 else b.x1) = l2
      generalize (if b.x2 - b.x1 + 1 < 0 then b.x1 else b.x2) = r2
      generalize (if a.y2 - a.y1 + 1 < 0 then a.y2 else a.y1) = t1
      generalize (if a.y2 - a.y1 + 1 < 0 then a.y1 else a.y2) = b1
      generalize (if b.y2 - b.y1 + 1 < 0 then b.y2 else b.y1) = t2
      generalize (if b.y2 - b.y1 + 1 < 0 then b.y1 else b.y2) = b2
      by_cases hx : l1 > r2 ∨ l2 > r1
      · rw [if_pos hx]
        constructor
        · intro h; exact absurd h (by decide)
        · rintro ⟨h1, h2, _, _⟩
          rcases hx with hx | hx <;> omega
      · rw [if_neg hx]
        by_cases hy : t1 > b2 ∨ t2 > b1
        · rw [if_pos hy]
          constructor
          · intro h; exact absurd h (by decide)
          · rintro ⟨_, _, h3, h4⟩
            rcases hy with hy | hy <;> omega
        · rw [if_neg hy]
          simp only [not_or, not_lt, gt_iff_lt] at hx hy
          exact ⟨fun _ => ⟨hx.1, hx.2, hy.1, hy.2⟩, fun _ => rfl⟩

/-- C14 (as stated, refuted): a glyph rectangle of width 0 and height 10 inside the viewport
(the rectangle of a glyph whose table entry has width 0) makes `clipAndTranslateGlyph` return
true with a screen rectangle that covers no pixel. -/
theorem clipAndTranslateGlyph_emits_empty_rect :
    (clipAndTranslateGlyph (Rect.ofPointSize ⟨5, 5⟩ ⟨0, 10⟩) (Rect.ofPointSize ⟨0, 0⟩ ⟨0, 10⟩)
        (Rect.ofPointSize ⟨0, 0⟩ ⟨100, 100⟩)).visible = true
    ∧ (clipAndTranslateGlyph (Rect.ofPointSize ⟨5, 5⟩ ⟨0, 10⟩) (Rect.ofPointSize ⟨0, 0⟩ ⟨0, 10⟩)
        (Rect.ofPointSize ⟨0, 0⟩ ⟨100, 100⟩)).glyphScreenCoords.isValid = false := by
  constructor <;> decide

/-- C14 (amended): whenever `clipAndTranslateGlyph` returns true, the resulting screen rectangle
has all four edges within the viewport rectangle, and it is non-empty when the glyph rectangle
and the viewport are non-empty on entry; whenever the glyph rectangle translated into viewport
space does not intersect the viewport, it returns false. -/
theorem clipAndTranslateGlyph_inside_viewport (G T S : Rect) :
    ((clipAndTranslateGlyph G T S).visible = true →
      S.x1 ≤ (clipAndTranslateGlyph G T S).glyphScreenCoords.x1
      ∧ (clipAndTranslateGlyph G T S).glyphScreenCoords.x2 ≤ S.x2
      ∧ S.y1 ≤ (clipAndTranslateGlyph G T S).glyphScreenCoords.y1
      ∧ (clipAndTranslateGlyph G T S).glyphScreenCoords.y2 ≤ S.y2)
    ∧ ((clipAndTranslateGlyph G T S).visible = true → G.isValid = true → S.isValid = true →
      (clipAndTranslateGlyph G T S).glyphScreenCoords.isValid = true)
    ∧ ((G.translate S.topLeft).intersects S = false →
      (clipAndTranslateGlyph G T S).visible = false) := by
  rw [clipAndTranslateGlyph_eq]
  by_cases h0 : G.y2 < 0 ∨ G.x2 < 0
  · simp only [if_pos h0]
    exact ⟨fun h => absurd h (by decide), fun h => absurd h (by decide), fun _ => trivial⟩
  · simp only [if_neg h0]
    simp only [not_or, not_lt] at h0
    by_cases hi : S.intersects (trimmedGlyph G S) = false
    · simp only [if_pos hi]
      exact ⟨fun h => absurd h (by decide), fun h => absurd h (by decide), fun _ => trivial⟩
    · simp only [if_neg hi]
      have hi' : S.intersects (trimmedGlyph G S) = true := by simpa using hi
      rw [Rect.intersects_iff] at hi'
      simp only [trimmedGlyph] at hi'
      refine ⟨fun _ => ?_, fun _ hG hS => ?_, fun hn => ?_⟩
      · simp only [trimmedGlyph]
        refine ⟨?_, ?_, ?_, ?_⟩ <;> split_ifs <;> omega
      · simp only [Rect.isValid, Bool.and_eq_true, decide_eq_true_eq] at hG hS ⊢
        obtain ⟨_, _, h1, h2, h3, h4⟩ := hi'
        simp only [trimmedGlyph]
        constructor
        · split_ifs at h1 h2 ⊢ <;> omega
        · split_ifs at h3 h4 ⊢ <;> omega
      · exfalso
        have hn' : ¬ (G.translate S.topLeft).intersects S = true := by simp [hn]
        apply hn'
        rw [Rect.intersects_iff]
        simp only [Rect.translate, Rect.topLeft]
        obtain ⟨n1, n2, h1, h2, h3, h4⟩ := hi'
        refine ⟨?_, n1, ?_, ?_, ?_, ?_⟩
        · intro hnull
          apply n2
          constructor
          · split_ifs <;> omega
          · split_ifs <;> omega
        · split_ifs at h1 h2 ⊢ <;> omega
        · split_ifs at h1 h2 ⊢ <;> omega
        · split_ifs at h3 h4 ⊢ <;> omega
        · split_ifs at h3 h4 ⊢ <;> omega

/-! ### Outline offsets -/

theorem mem_intRange (lo hi v : Int) : v ∈ intRange lo hi ↔ lo ≤ v ∧ v ≤ hi := by
  unfold intRange
  simp only [List.mem_map, List.mem_range, Int.ofNat_eq_coe]
  constructor
  · rintro ⟨k, hk, rfl⟩
    omega
  · rintro ⟨h1, h2⟩
    exact ⟨(v - lo).toNat, by omega, by omega⟩

theorem nodup_intRange (lo hi : Int) : (intRange lo hi).Nodup := by
  unfold intRange
  refine List.Nodup.map ?_ (List.nodup_range _)
  intro a b h
  simp only [Int.ofNat_eq_coe] at h
  omega

/-- C19 (as stated, refuted): with outline thickness 1 the list has 4 offsets, and the diagonal
neighbour `(1, 1)` is not among them. -/
theorem updateOutlineOffsets_one_not_eight :
    (updateOutlineOffsets 1).offsets.length = 4
    ∧ (⟨1, 1⟩ : Point) ∉ (updateOutlineOffsets 1).offsets := by
  constructor <;> decide

/-- C19 (amended): with outline thickness 1, `updateOutlineOffsets` produces exactly the 4
orthogonal unit neighbours of the origin, in the order up, left, right, down, and leaves the
thickness at 1. -/
theorem updateOutlineOffsets_one :
    updateOutlineOffsets 1 = { offsets := [⟨0, -1⟩, ⟨-1, 0⟩, ⟨1, 0⟩, ⟨0, 1⟩], thickness := 1 } := by
  decide

theorem mem_outline_row (r y : Int) (p : Point) :
    p ∈ (intRange (-r) r).filterMap (fun x =>
        if x = 0 ∧ y = 0 then none
        else if x * x + y * y > r * r then none
        else some (⟨x, y⟩ : Point))
      ↔ -r ≤ p.x ∧ p.x ≤ r ∧ p.y = y ∧ ¬ (p.x = 0 ∧ p.y = 0) ∧ p.x * p.x + p.y * p.y ≤ r * r := by
  simp only [List.mem_filterMap, mem_intRange]
  constructor
  · rintro ⟨x, ⟨h1, h2⟩, h⟩
    split_ifs at h with c1 c2
    · simp only [Option.some.injEq] at h
      subst h
      exact ⟨h1, h2, rfl, c1, not_lt.mp c2⟩
  · rintro ⟨h1, h2, rfl, h4, h5⟩
    refine ⟨p.x, ⟨h1, h2⟩, ?_⟩
    rw [if_neg h4, if_neg (not_lt.mpr h5)]

theorem mem_outline_offsets (r : Int) (hr : 0 < r) (p : Point) :
    p ∈ (updateOutlineOffsets r).offsets
      ↔ 0 < p.x * p.x + p.y * p.y ∧ p.x * p.x + p.y * p.y ≤ r * r := by
  have hnot : ¬ r ≤ 0 := not_le.mpr hr
  simp only [updateOutlineOffsets, if_neg hnot, List.mem_flatMap, mem_intRange]
  constructor
  · rintro ⟨y, _, hy⟩
    obtain ⟨_, _, _, h4, h5⟩ := (mem_outline_row r y p).mp hy
    refine ⟨?_, h5⟩
    by_contra hcon
    apply h4
    constructor <;> nlinarith [mul_self_nonneg p.x, mul_self_nonneg p.y]
  · rintro ⟨h1, h2⟩
    have hx : -r ≤ p.x ∧ p.x ≤ r := by
      constructor <;> nlinarith [mul_self_nonneg p.x, mul_self_nonneg p.y]
    have hy : -r ≤ p.y ∧ p.y ≤ r := by
      constructor <;> nlinarith [mul_self_nonneg p.x, mul_self_nonneg p.y]
    refine ⟨p.y, hy, (mem_outline_row r p.y p).mpr ⟨hx.1, hx.2, rfl, ?_, h2⟩⟩
    rintro ⟨a, b⟩
    rw [a, b] at h1
    exact absurd h1 (by decide)

theorem nodup_outline_offsets (r : Int) : (updateOutlineOffsets r).offsets.Nodup := by
  unfold updateOutlineOffsets
  split_ifs with h
  · exact List.nodup_nil
  · show List.Nodup (List.flatMap _ _)
    rw [List.nodup_flatMap]
    constructor
    · intro y _
      refine List.Nodup.filterMap ?_ (nodup_intRange _ _)
      have key : ∀ (x : Int) (b : Point),
          b ∈ (if x = 0 ∧ y = 0 then none
               else if x * x + y * y > r * r then none
               else some (⟨x, y⟩ : Point)) → b.x = x := by
        intro x b hb
        split_ifs at hb
        · exact absurd hb (by simp)
        · exact absurd hb (by simp)
        · simp only [Option.mem_def, Option.some.injEq] at hb
          rw [← hb]
      intro a a' b hb hb'
      exact (key a b hb).symm.trans (key a' b hb')
    · refine (List.Nodup.pairwise_of_forall_ne (nodup_intRange _ _) ?_)
      intro y _ y' _ hne
      show List.Disjoint _ _
      intro p hp hp'
      have h1 := ((mem_outline_row r y p).mp hp).2.2.1
      have h2 := ((mem_outline_row r y' p).mp hp').2.2.1
      exact hne (h1.symm.trans h2)

/-- C20: for every outline thickness `r ≥ 0`, `updateOutlineOffsets` leaves in
`m_outlineOffsets` exactly the integer points `(dx, dy)` with `0 < dx² + dy² ≤ r²`, each once
and never the origin; the list is empty iff `r = 0`, and the thickness afterwards is positive
(the outline is enabled) iff the list is non-empty. -/
theorem updateOutlineOffsets_disk (r : Int) (hr : 0 ≤ r) :
    (∀ p : Point, p ∈ (updateOutlineOffsets r).offsets
        ↔ 0 < p.x * p.x + p.y * p.y ∧ p.x * p.x + p.y * p.y ≤ r * r)
    ∧ (updateOutlineOffsets r).offsets.Nodup
    ∧ (⟨0, 0⟩ : Point) ∉ (updateOutlineOffsets r).offsets
    ∧ ((updateOutlineOffsets r).offsets = [] ↔ r = 0)
    ∧ (0 < (updateOutlineOffsets r).thickness ↔ (updateOutlineOffsets r).offsets ≠ []) := by
  rcases eq_or_lt_of_le hr with h0 | hpos
  · subst h0
    refine ⟨fun p => ?_, nodup_outline_offsets 0, by decide, by decide, by decide⟩
    have he : (updateOutlineOffsets 0).offsets = [] := by decide
    rw [he]
    constructor
    · intro h
      exact absurd h (List.not_mem_nil p)
    · rintro ⟨h1, h2⟩
      omega
  · have hmem := mem_outline_offsets r hpos
    have hone : (⟨1, 0⟩ : Point) ∈ (updateOutlineOffsets r).offsets :=
      (hmem ⟨1, 0⟩).mpr ⟨by decide, by
        show (1 : Int) * 1 + 0 * 0 ≤ r * r
        nlinarith⟩
    have hne : (updateOutlineOffsets r).offsets ≠ [] := List.ne_nil_of_mem hone
    refine ⟨hmem, nodup_outline_offsets r, ?_, ?_, ?_⟩
    · intro h
      have := ((hmem ⟨0, 0⟩).mp h).1
      exact absurd this (by decide)
    · constructor
      · intro h
        exact absurd h hne
      · intro h
        omega
    · constructor
      · intro _
        exact hne
      · intro _
        have hnot : ¬ r ≤ 0 := not_le.mpr hpos
        have hemp : ((updateOutlineOffsets r).offsets.isEmpty) = false := by
          cases h : (updateOutlineOffsets r).offsets with
          | nil => exact absurd h hne
          | cons a l => rfl
        have ht : (updateOutlineOffsets r).thickness
            = if (updateOutlineOffsets r).offsets.isEmpty then 0 else r := by
          simp only [updateOutlineOffsets, if_neg hnot]
        rw [ht, hemp]
        simpa using hpos

/-- C20 at a concrete input: thickness 2 gives the 12 points of the disk of radius 2 without
the origin, and the outline stays enabled. -/
theorem updateOutlineOffsets_disk_witness :
    (updateOutlineOffsets 2).offsets.length = 12
    ∧ (updateOutlineOffsets 2).offsets.Nodup
    ∧ (0 < (updateOutlineOffsets 2).thickness ↔ (updateOutlineOffsets 2).offsets ≠ []) :=
  ⟨by decide, (updateOutlineOffsets_disk 2 (by decide)).2.1,
   (updateOutlineOffsets_disk 2 (by decide)).2.2.2.2⟩

/-! ### Decoding of lead bytes -/

theorem lead2_mask (c : Nat) (h1 : 0xC0 ≤ c) (h2 : c ≤ 0xDF) : c &&& 0xE0 = 0xC0 := by
  interval_cases c <;> rfl

theorem lead3_mask (c : Nat) (h1 : 0xE0 ≤ c) (h2 : c ≤ 0xEF) :
    c &&& 0xE0 ≠ 0xC0 ∧ c &&& 0xF0 = 0xE0 := by
  interval_cases c <;> decide

theorem lead4_mask (c : Nat) (h1 : 0xF0 ≤ c) (h2 : c ≤ 0xF7) :
    c &&& 0xE0 ≠ 0xC0 ∧ c &&& 0xF0 ≠ 0xE0 ∧ c &&& 0xF8 = 0xF0 := by
  interval_cases c <;> decide

/-- C18 (as stated, refuted): the lead byte `0xC3` followed by the ASCII letter `'A'`, which is
not a continuation byte, is decoded as a two-byte sequence (code point `0xC1`), not as the
single byte `0xC3`; `wrapText` copies both bytes in one step. -/
theorem utf8_no_continuation_check :
    _utf8 [0xC3, 0x41] = some (0xC1, 2)
    ∧ _utf8 [0xC3, 0x41] ≠ some (0xC3, 1)
    ∧ (wrapStep (uniformFont 10) 100 plainOptions [0xC3, 0x41]
        { out := [], colors := none, scratch := Scratch.initial, lastGlyph := 0xFF, lineW := 0,
          lastBreakOut := -1, lastBreakLineW := 0, lastBreakHy := false,
          lastBreakHyCount := 0 }).2 = 2 := by
  refine ⟨by decide, by decide, by decide⟩

/-- C18 (amended): `_utf8` does not look at the continuation bits: a lead byte of a two-, three-
or four-byte form followed by as many further bytes as the form needs, of any value, is decoded
as that many bytes. It falls back to the single byte (code point equal to the byte, length 1)
for a three-byte lead byte with no byte after it and for a four-byte lead byte with at most one
byte after it, and `wrapText` then copies that byte alone and moves its cursor by one. -/
theorem utf8_decodes_or_falls_back :
    (∀ (c0 b : Nat) (rest : List Nat), 0xC0 ≤ c0 → c0 ≤ 0xDF →
      _utf8 (c0 :: b :: rest) = some (((c0 &&& 0x1F) <<< 6) ||| (b &&& 0x3F), 2))
    ∧ (∀ (c0 b1 b2 : Nat) (rest : List Nat), 0xE0 ≤ c0 → c0 ≤ 0xEF →
      _utf8 (c0 :: b1 :: b2 :: rest)
        = some (((c0 &&& 0x0F) <<< 12) ||| ((b1 &&& 0x3F) <<< 6) ||| (b2 &&& 0x3F), 3))
    ∧ (∀ (c0 b1 b2 b3 : Nat) (rest : List Nat), 0xF0 ≤ c0 → c0 ≤ 0xF7 →
      _utf8 (c0 :: b1 :: b2 :: b3 :: rest)
        = some (((c0 &&& 0x07) <<< 18) ||| ((b1 &&& 0x3F) <<< 12) ||| ((b2 &&& 0x3F) <<< 6)
                ||| (b3 &&& 0x3F), 4))
    ∧ (∀ c0 : Nat, 0xE0 ≤ c0 → c0 ≤ 0xEF → _utf8 [c0] = some (c0, 1))
    ∧ (∀ (c0 : Nat) (rest : List Nat), 0xF0 ≤ c0 → c0 ≤ 0xF7 → rest.length ≤ 1 →
      _utf8 (c0 :: rest) = some (c0, 1))
    ∧ (∀ (f : Font) (maxW : Int) (o : WrapOptions) (st : WrapState) (c0 : Nat),
      0xE0 ≤ c0 → c0 ≤ 0xF7 →
      (wrapStep f maxW o [c0] st).2 = 1
      ∧ ∃ pre : List Nat, (wrapStep f maxW o [c0] st).1.out = pre ++ [c0]) := by
  have fb3 : ∀ c0 : Nat, 0xE0 ≤ c0 → c0 ≤ 0xEF → _utf8 [c0] = some (c0, 1) := by
    intro c0 h1 h2
    obtain ⟨m1, _⟩ := lead3_mask c0 h1 h2
    have h80 : ¬ c0 < 0x80 := by omega
    have hF8 : c0 &&& 0xF8 ≠ 0xF0 := by interval_cases c0 <;> decide
    simp [_utf8, h80, m1, hF8]
  have fb4 : ∀ (c0 : Nat) (rest : List Nat), 0xF0 ≤ c0 → c0 ≤ 0xF7 → rest.length ≤ 1 →
      _utf8 (c0 :: rest) = some (c0, 1) := by
    intro c0 rest h1 h2 hl
    obtain ⟨m1, m2, _⟩ := lead4_mask c0 h1 h2
    have h80 : ¬ c0 < 0x80 := by omega
    have hl' : ¬ 3 ≤ (c0 :: rest).length := by simp only [List.length_cons]; omega
    simp only [_utf8, h80, m1, m2, hl', if_false, false_and, and_false]
  refine ⟨?_, ?_, ?_, fb3, fb4, ?_⟩
  · intro c0 b rest h1 h2
    have h80 : ¬ c0 < 0x80 := by omega
    simp [_utf8, h80, lead2_mask c0 h1 h2, byteAt]
  · intro c0 b1 b2 rest h1 h2
    obtain ⟨m1, m2⟩ := lead3_mask c0 h1 h2
    have h80 : ¬ c0 < 0x80 := by omega
    simp [_utf8, h80, m1, m2, byteAt]
  · intro c0 b1 b2 b3 rest h1 h2
    obtain ⟨m1, m2, m3⟩ := lead4_mask c0 h1 h2
    have h80 : ¬ c0 < 0x80 := by omega
    simp [_utf8, h80, m1, m2, m3, byteAt]
  · intro f maxW o st c0 h1 h2
    have hu : _utf8 [c0] = some (c0, 1) := by
      by_cases h : c0 ≤ 0xEF
      · exact fb3 c0 h1 h
      · exact fb4 c0 [] (by omega) h2 (by simp)
    have h10 : c0 ≠ 10 := by omega
    have hasc : _isAscii c0 = false := by simp [_isAscii]; omega
    have e : wrapStep f maxW o [c0] st = (stepWide f maxW o [c0] 1 c0 st, 1) := by
      have a1 : c0 ≠ 0xA0 := by omega
      have a2 : c0 ≠ 0x2060 := by omega
      have a3 : c0 ≠ 0x200B := by omega
      have a4 : c0 ≠ 0xAD := by omega
      simp [wrapStep, h10, hu, a1, a2, a3, a4, hasc]
    rw [e]
    exact ⟨rfl, _, rfl⟩

/-! ### Atlas builder and font loader -/

/-- C16 (as stated, refuted): with a readable, parseable font and the requested range
`firstGlyph = 100`, `lastGlyph = 50`, `build` does not fail: it returns the tables of the
resolved range from 100 to 100. -/
theorem build_reversed_range_succeeds :
    build plainRasterizer zeroBuildResult reversedRangeSettings
        ≠ Except.error BuildError.invalidGlyphRange
    ∧ ∃ result : TrueTypeFontBuildResult,
        build plainRasterizer zeroBuildResult reversedRangeSettings = Except.ok result := by
  have e : build plainRasterizer zeroBuildResult reversedRangeSettings
      = Except.ok (buildTables plainRasterizer zeroBuildResult 100 100) := by
    simp [build, plainRasterizer, reversedRangeSettings, clamp]
  rw [e]
  exact ⟨by simp, _, rfl⟩

/-- C16 (amended): `build` never fails with the 'invalid glyph range' error. The last glyph is
clamped into `[firstGlyph, 255]` with `firstGlyph` already clamped into `[0, 255]`, so the
resolved range is never empty; a request with `lastGlyph` below `firstGlyph`, such as 100 and
50, resolves to the single glyph `firstGlyph`. -/
theorem build_never_invalid_glyph_range (ext : Rasterizer) (blank : TrueTypeFontBuildResult)
    (settings : TrueTypeFontSettings) :
    build ext blank settings ≠ Except.error BuildError.invalidGlyphRange
    ∧ 0 ≤ clamp settings.firstGlyph 0 255
    ∧ clamp settings.firstGlyph 0 255 ≤ clamp settings.lastGlyph (clamp settings.firstGlyph 0 255) 255
    ∧ clamp settings.lastGlyph (clamp settings.firstGlyph 0 255) 255 ≤ 255
    ∧ (settings.lastGlyph < clamp settings.firstGlyph 0 255 →
        clamp settings.lastGlyph (clamp settings.firstGlyph 0 255) 255
          = clamp settings.firstGlyph 0 255)
    ∧ clamp 50 (clamp 100 0 255) 255 = 100 := by
  have h1 : 0 ≤ clamp settings.firstGlyph 0 255 ∧ clamp settings.firstGlyph 0 255 ≤ 255 := by
    unfold clamp
    split_ifs <;> omega
  have h2 : clamp settings.firstGlyph 0 255
        ≤ clamp settings.lastGlyph (clamp settings.firstGlyph 0 255) 255
      ∧ clamp settings.lastGlyph (clamp settings.firstGlyph 0 255) 255 ≤ 255 := by
    generalize clamp settings.firstGlyph 0 255 = a at h1 ⊢
    unfold clamp
    split_ifs <;> omega
  refine ⟨?_, h1.1, h2.1, h2.2, ?_, by decide⟩
  · intro h
    simp only [build] at h
    generalize clamp settings.firstGlyph 0 255 = a at h h2
    generalize clamp settings.lastGlyph a 255 = b at h h2
    split_ifs at h with c1 c2 c3 c4 c5
    all_goals first
      | exact Except.noConfusion h
      | exact absurd (Except.error.inj h) (by decide)
      | (have : max 0 (b - a + 1) = b - a + 1 := max_eq_right (by omega)
         omega)
  · intro hlt
    generalize clamp settings.firstGlyph 0 255 = a at hlt h1 ⊢
    unfold clamp
    split_ifs
    omega

/-- On the fixed-sheet path with a loaded texture `load` succeeds, and the newline glyph ends with
advance 1 and size `(1, glyphHeight)`. -/
theorem load_sheet_newline (ext : Rasterizer) (blank : TrueTypeFontBuildResult)
    (image : Option Image) (node : FontNode) (obj : FontObject) (textureSize : Size)
    (hn : node.ttf = none) :
    ∃ obj' : FontObject,
      load ext blank (some textureSize) image node obj = Except.ok obj'
      ∧ obj'.font.glyphsAdvance 10 = 1
      ∧ obj'.font.glyphsSize 10 = ⟨1, obj'.font.glyphHeight⟩ := by
  refine ⟨_, by simp only [load, hn]; rfl, ?_, ?_⟩
  · simp [loadSheetTables, overrideDelAndNewline, setSpaceWidth]
  · simp [loadSheetTables, overrideDelAndNewline, setSpaceWidth]

/-- The tables of the outline path give the newline glyph advance 0 and size
`(1, glyphHeight)`. -/
theorem loadOutlineTables_newline (node : FontNode) (result : TrueTypeFontBuildResult)
    (f : Font) :
    (loadOutlineTables node result f).glyphsAdvance 10 = 0
    ∧ (loadOutlineTables node result f).glyphsSize 10
        = ⟨1, (loadOutlineTables node result f).glyphHeight⟩ := by
  constructor
  · simp only [loadOutlineTables]
    split_ifs <;> simp [overrideDelAndNewline, setSpaceWidth]
  · simp only [loadOutlineTables]
    split_ifs <;> simp [overrideDelAndNewline, setSpaceWidth]

/-- On the outline path `load` either leaves with the error of `build` or succeeds with the
newline glyph at advance 0 and size `(1, glyphHeight)`. -/
theorem load_outline_newline (ext : Rasterizer) (blank : TrueTypeFontBuildResult)
    (textureSize : Option Size) (image : Option Image) (node : FontNode) (obj : FontObject)
    (hn : node.ttf ≠ none) :
    (∃ e : BuildError, load ext blank textureSize image node obj = Except.error e)
    ∨ ∃ obj' : FontObject,
        load ext blank textureSize image node obj = Except.ok obj'
        ∧ obj'.font.glyphsAdvance 10 = 0
        ∧ obj'.font.glyphsSize 10 = ⟨1, obj'.font.glyphHeight⟩ := by
  cases httf : node.ttf with
  | none => exact absurd httf hn
  | some ttf =>
    simp only [load, httf]
    split
    · exact Or.inl ⟨_, rfl⟩
    · exact Or.inr ⟨_, rfl, (loadOutlineTables_newline _ _ _).1,
        (loadOutlineTables_newline _ _ _).2⟩

/-- With the rasterizer for which every call succeeds, `load` succeeds on the outline node. -/
theorem load_outlineNode_ok :
    ∃ obj' : FontObject,
      load plainRasterizer zeroBuildResult none none outlineNode zeroFontObject
        = Except.ok obj' := by
  simp [load, outlineNode, build, plainRasterizer, clamp]

/-- C17 (the code on both paths): on the fixed-sheet path with a loaded texture, `load` always
leaves the newline glyph with advance 1, not 0: its size is set to `(1, glyphHeight)` and its
advance to 0, and then the closing loop over the glyphs below 32 copies the width into the
advance. On the outline path, where `load` succeeds, it leaves advance 0. On both paths the
height of the newline glyph is `glyphHeight`. The last two parts are the two paths at a concrete
font node each (a sheet of 8 by 16 cells from glyph 32 with a texture of 128 by 128, and an
outline font for which every rasterizer call succeeds). -/
theorem load_newline_glyph :
    (∀ (ext : Rasterizer) (blank : TrueTypeFontBuildResult) (image : Option Image)
        (node : FontNode) (obj : FontObject) (textureSize : Size), node.ttf = none →
      ∃ obj' : FontObject,
        load ext blank (some textureSize) image node obj = Except.ok obj'
        ∧ obj'.font.glyphsAdvance 10 = 1
        ∧ (obj'.font.glyphsSize 10).height = obj'.font.glyphHeight)
    ∧ (∀ (ext : Rasterizer) (blank : TrueTypeFontBuildResult) (textureSize : Option Size)
        (image : Option Image) (node : FontNode) (obj obj' : FontObject), node.ttf ≠ none →
      load ext blank textureSize image node obj = Except.ok obj' →
        obj'.font.glyphsAdvance 10 = 0
        ∧ (obj'.font.glyphsSize 10).height = obj'.font.glyphHeight)
    ∧ (∃ obj' : FontObject,
        load plainRasterizer zeroBuildResult (some ⟨128, 128⟩) none sheetNode zeroFontObject
          = Except.ok obj'
        ∧ obj'.font.glyphsAdvance 10 = 1
        ∧ obj'.font.glyphsSize 10 = ⟨1, 16⟩ ∧ obj'.font.glyphHeight = 16)
    ∧ (∃ obj' : FontObject,
        load plainRasterizer zeroBuildResult none none outlineNode zeroFontObject
          = Except.ok obj'
        ∧ obj'.font.glyphsAdvance 10 = 0
        ∧ obj'.font.glyphsSize 10 = ⟨1, obj'.font.glyphHeight⟩) := by
  refine ⟨?_, ?_, ?_, ?_⟩
  · intro ext blank image node obj ts hn
    obtain ⟨obj', h1, h2, h3⟩ := load_sheet_newline ext blank image node obj ts hn
    exact ⟨obj', h1, h2, by rw [h3]⟩
  · intro ext blank ts image node obj obj' hn h
    rcases load_outline_newline ext blank ts image node obj hn with ⟨e, he⟩ | ⟨o, ho, h2, h3⟩
    · rw [he] at h
      exact Except.noConfusion h
    · rw [ho] at h
      have e := Except.ok.inj h
      subst e
      exact ⟨h2, by rw [h3]⟩
  · obtain ⟨obj', h1, h2, h3⟩ :=
      load_sheet_newline plainRasterizer zeroBuildResult none sheetNode zeroFontObject
        ⟨128, 128⟩ rfl
    have hh : obj'.font.glyphHeight = 16 := by
      have e := Except.ok.inj h1
      rw [← e]
      rfl
    exact ⟨obj', h1, h2, by rw [h3, hh], hh⟩
  · obtain ⟨obj', h1⟩ := load_outlineNode_ok
    rcases load_outline_newline plainRasterizer zeroBuildResult none none outlineNode
        zeroFontObject (by decide) with ⟨e, he⟩ | ⟨o, ho, h2, h3⟩
    · rw [he] at h1
      exact Except.noConfusion h1
    · exact ⟨o, ho, h2, h3⟩

/-! ### Reads of `_utf8` at the end of the text -/

/-- C29 (the code at the failing input): on a text that ends in the lead byte `0xC3`, `_utf8`
passes its guard `s + 1 <= e` with one byte remaining, reads the byte at index 1 (the index
equal to the length, read as 0 here) and reports length 2; `wrapText` then copies two bytes and
moves its cursor by 2, one past the end, so the output `[0xC3, 0]` is longer than the text. The
same happens for every two-byte lead byte that ends a text, and for a three-byte lead byte with
one byte after it and a four-byte lead byte with two bytes after it. -/
theorem utf8_reads_past_end :
    _utf8 [0xC3] = some (0xC0, 2)
    ∧ (wrapStep (uniformFont 10) 100 plainOptions [0xC3] (wrapStart Scratch.initial)).2 = 2
    ∧ (wrapText (uniformFont 10) [0xC3] 100 plainOptions none Scratch.initial).out = [0xC3, 0]
    ∧ (wrapText (uniformFont 10) (bytesOf "a" ++ [0xC3]) 100 plainOptions none
        Scratch.initial).out = [97, 0xC3, 0]
    ∧ (∀ c0 : Nat, 0xC0 ≤ c0 → c0 ≤ 0xDF → (_utf8 [c0]).map Prod.snd = some 2)
    ∧ (∀ c0 b1 : Nat, 0xE0 ≤ c0 → c0 ≤ 0xEF → (_utf8 [c0, b1]).map Prod.snd = some 3)
    ∧ (∀ c0 b1 b2 : Nat, 0xF0 ≤ c0 → c0 ≤ 0xF7 →
        (_utf8 [c0, b1, b2]).map Prod.snd = some 4) := by
  refine ⟨by decide, by decide, by decide, by decide, ?_, ?_, ?_⟩
  · intro c0 h1 h2
    have h80 : ¬ c0 < 0x80 := by omega
    have m := lead2_mask c0 h1 h2
    simp [_utf8, h80, m]
  · intro c0 b1 h1 h2
    have h80 : ¬ c0 < 0x80 := by omega
    obtain ⟨m1, m2⟩ := lead3_mask c0 h1 h2
    simp [_utf8, h80, m1, m2]
  · intro c0 b1 b2 h1 h2
    have h80 : ¬ c0 < 0x80 := by omega
    obtain ⟨m1, m2, m3⟩ := lead4_mask c0 h1 h2
    simp [_utf8, h80, m1, m2, m3]

/-! ### Options read by the overflow handling -/

/-- Without automatic hyphenation the overflow handling breaks at the candidate when there is
one and otherwise starts a new line, whatever the break policies are. -/
theorem breakOnOverflow_eq (o : WrapOptions) (anywhere : Bool) (st : WrapState)
    (h : o.hyphenationMode ≠ HyphenationMode.Auto) :
    breakOnOverflow o anywhere st
      = if st.lastBreakOut ≥ 0 then commitBreak o st false else newline st := by
  unfold breakOnOverflow
  by_cases hb : st.lastBreakOut ≥ 0
  · simp only [hb, if_true]
  · simp only [hb, if_false]
    split_ifs
    · simp [commitBreak, hb, h]
    · rfl

theorem wrapStep_ignores_break_policies (f : Font) (maxW : Int) (o : WrapOptions)
    (ow : OverflowWrapMode) (wb : WordBreakMode) (keep : Bool) (cur : List Nat) (st : WrapState)
    (h : o.hyphenationMode ≠ HyphenationMode.Auto) :
    wrapStep f maxW { o with overflowWrapMode := ow, wordBreakMode := wb,
                             keepCJKWordsTogether := keep } cur st
      = wrapStep f maxW o cur st := by
  have hA : ∀ (c : Nat) (s : WrapState),
      stepAscii f maxW { o with overflowWrapMode := ow, wordBreakMode := wb,
                                keepCJKWordsTogether := keep } c s = stepAscii f maxW o c s := by
    intro c s
    simp only [stepAscii]
    rw [breakOnOverflow_eq _ _ _ h, breakOnOverflow_eq _ _ _ (by exact h)]
    rfl
  have hW : ∀ (cu : List Nat) (len cp : Nat) (s : WrapState),
      stepWide f maxW { o with overflowWrapMode := ow, wordBreakMode := wb,
                               keepCJKWordsTogether := keep } cu len cp s
        = stepWide f maxW o cu len cp s := by
    intro cu len cp s
    simp only [stepWide]
    rw [breakOnOverflow_eq _ _ _ h, breakOnOverflow_eq _ _ _ (by exact h)]
    rfl
  cases cur with
  | nil => rfl
  | cons c rest =>
    simp only [wrapStep]
    split
    · rfl
    · split
      · rfl
      · next cp len _ =>
        rw [hA, hW]
        rfl

theorem wrapLoop_ignores_break_policies (f : Font) (maxW : Int) (o : WrapOptions)
    (ow : OverflowWrapMode) (wb : WordBreakMode) (keep : Bool)
    (h : o.hyphenationMode ≠ HyphenationMode.Auto) :
    ∀ (fuel : Nat) (cur : List Nat) (st : WrapState),
      wrapLoop f maxW { o with overflowWrapMode := ow, wordBreakMode := wb,
                               keepCJKWordsTogether := keep } fuel cur st
        = wrapLoop f maxW o fuel cur st := by
  intro fuel
  induction fuel with
  | zero => intro cur st; rfl
  | succ k ih =>
    intro cur st
    cases cur with
    | nil => rfl
    | cons c rest =>
      rw [wrapLoop_cons, wrapLoop_cons, wrapStep_ignores_break_policies _ _ _ _ _ _ _ _ h, ih]

/-- C27: when `hyphenationMode` is not `Auto`, `wrapText` does not depend on `overflowWrapMode`,
`wordBreakMode` or `keepCJKWordsTogether`: replacing those three fields of an option set by any
values leaves the returned string (and the colour list and scratch buffers) the same, for every
text, glyph table and `maxWidth`. -/
theorem wrapText_ignores_break_policies (f : Font) (text : List Nat) (maxWidth : Int)
    (o : WrapOptions) (ow : OverflowWrapMode) (wb : WordBreakMode) (keep : Bool)
    (colors : Option ColorRuns) (sc : Scratch)
    (h : o.hyphenationMode ≠ HyphenationMode.Auto) :
    wrapText f text maxWidth { o with overflowWrapMode := ow, wordBreakMode := wb,
                                      keepCJKWordsTogether := keep } colors sc
      = wrapText f text maxWidth o colors sc := by
  unfold wrapText
  rw [wrapLoop_ignores_break_policies _ _ _ _ _ _ h]

/-- C27 at a concrete input: `"hello"` at advance 8 and `maxWidth = 20` is wrapped the same
under `BreakWord`, `BreakAll` and kept CJK words as under the plain options. -/
theorem wrapText_ignores_break_policies_witness :
    plainOptions.hyphenationMode ≠ HyphenationMode.Auto
    ∧ wrapText (uniformFont 8) (bytesOf "hello") 20
        { plainOptions with overflowWrapMode := OverflowWrapMode.BreakWord,
                            wordBreakMode := WordBreakMode.BreakAll,
                            keepCJKWordsTogether := true } none Scratch.initial
      = wrapText (uniformFont 8) (bytesOf "hello") 20 plainOptions none Scratch.initial :=
  ⟨by decide, wrapText_ignores_break_policies (uniformFont 8) (bytesOf "hello") 20 plainOptions
    OverflowWrapMode.BreakWord WordBreakMode.BreakAll true none Scratch.initial (by decide)⟩

/-! ### The loop of `wrapText` on ASCII text -/

theorem wrapStep_ascii (f : Font) (maxW : Int) (o : WrapOptions) (c : Nat) (rest : List Nat)
    (st : WrapState) (hc : c < 128) :
    wrapStep f maxW o (c :: rest) st = (asciiStep f maxW o c st, 1) := by
  have hA0 : c ≠ 0xA0 := by omega
  have h2060 : c ≠ 0x2060 := by omega
  have h200B : c ≠ 0x200B := by omega
  have hAD : c ≠ 0xAD := by omega
  have hasc : _isAscii c = true := by simp [_isAscii]; omega
  unfold wrapStep asciiStep
  by_cases h10 : c = 10
  · simp only [h10, if_true]
  · simp only [h10, if_false, utf8_ascii c rest hc, hA0, h2060, h200B, hAD, false_and, hasc,
      and_self, if_true]
    split_ifs <;> rfl

/-- On ASCII bytes the loop of `wrapText` runs one iteration per byte, whatever follows them. -/
theorem wrapLoop_ascii (f : Font) (maxW : Int) (o : WrapOptions) :
    ∀ (a rest : List Nat) (fuel : Nat) (st : WrapState),
      (∀ c ∈ a, c < 128) → a.length ≤ fuel →
      wrapLoop f maxW o fuel (a ++ rest) st
        = wrapLoop f maxW o (fuel - a.length) rest (asciiRun f maxW o a st) := by
  intro a
  induction a with
  | nil => intro rest fuel st _ _; simp [asciiRun]
  | cons c a ih =>
    intro rest fuel st hb hfuel
    obtain ⟨k, rfl⟩ : ∃ k, fuel = k + 1 := ⟨fuel - 1, by simp at hfuel; omega⟩
    have hk : a.length ≤ k := by simp at hfuel; omega
    rw [List.cons_append, wrapLoop_cons,
      wrapStep_ascii f maxW o c (a ++ rest) st (hb c (List.mem_cons_self _ _))]
    simp only [List.drop_one, List.tail_cons, List.length_cons]
    rw [ih rest k _ (fun x hx => hb x (List.mem_cons_of_mem _ hx)) hk]
    rw [show k + 1 - (a.length + 1) = k - a.length by omega]
    rfl

/-- The string `wrapText` returns for an ASCII text and a positive width, with no colour
list. -/
theorem wrapText_ascii (f : Font) (text : List Nat) (maxWidth : Int) (o : WrapOptions)
    (sc : Scratch) (hb : ∀ c ∈ text, c < 128) (hpos : 0 < maxWidth) :
    (wrapText f text maxWidth o none sc).out
      = (asciiRun f maxWidth o text (wrapStart sc)).out := by
  have hmax : max 0 maxWidth = maxWidth := max_eq_right (le_of_lt hpos)
  unfold wrapText
  split_ifs with h
  · rcases h with h | h
    · have : text = [] := by simpa using h
      subst this
      rfl
    · omega
  · have := wrapLoop_ascii f maxWidth o text [] text.length (wrapStart sc) hb (le_refl _)
    simp only [List.append_nil, Nat.sub_self] at this
    rw [hmax]
    show (wrapLoop f maxWidth o text.length text (wrapStart sc)).out = _
    rw [this]
    rfl

theorem asciiRun_append (f : Font) (maxW : Int) (o : WrapOptions) :
    ∀ (a b : List Nat) (st : WrapState),
      asciiRun f maxW o (a ++ b) st = asciiRun f maxW o b (asciiRun f maxW o a st) := by
  intro a
  induction a with
  | nil => intro b st; rfl
  | cons c a ih => intro b st; exact ih b _

/-! ### Visible content -/

theorem visibleBytes_append (a b : List Nat) :
    visibleBytes (a ++ b) = visibleBytes a ++ visibleBytes b := by
  simp [visibleBytes]

theorem visibleBytes_insertAt_newline (out : List Nat) (pos : Int) :
    visibleBytes (insertAt out pos 10) = visibleBytes out := by
  unfold insertAt
  rw [visibleBytes_append]
  have h : visibleBytes (10 :: out.drop pos.toNat) = visibleBytes (out.drop pos.toNat) := by
    simp [visibleBytes]
  rw [h, ← visibleBytes_append, List.take_append_drop]

/-- Without a hyphen to show at the candidate and without automatic hyphenation, committing a
break adds a `'\n'` only. -/
theorem commitBreak_visible (o : WrapOptions) (st : WrapState) (forced : Bool)
    (ho : o.hyphenationMode = HyphenationMode.None) (hy : st.lastBreakHy = false) :
    visibleBytes (commitBreak o st forced).out = visibleBytes st.out
    ∧ (commitBreak o st forced).lastBreakHy = false := by
  have hne : ¬ (forced = true ∧ o.hyphenationMode = HyphenationMode.Auto) := by
    intro h
    rw [ho] at h
    exact absurd h.2 (by decide)
  have hhy : ¬ (st.lastBreakHy = true ∧ st.lastBreakHyCount > 0) := by
    intro h
    rw [hy] at h
    exact absurd h.1 (by decide)
  unfold commitBreak
  by_cases hb : st.lastBreakOut ≥ 0
  · rw [if_pos hb, if_neg hhy]
    exact ⟨visibleBytes_insertAt_newline _ _, rfl⟩
  · rw [if_neg hb, if_neg hne]
    refine ⟨?_, rfl⟩
    show visibleBytes (st.out ++ [10]) = _
    rw [visibleBytes_append]
    simp [visibleBytes]

theorem breakOnOverflow_visible (o : WrapOptions) (anywhere : Bool) (st : WrapState)
    (ho : o.hyphenationMode = HyphenationMode.None) (hy : st.lastBreakHy = false) :
    visibleBytes (breakOnOverflow o anywhere st).out = visibleBytes st.out
    ∧ (breakOnOverflow o anywhere st).lastBreakHy = false := by
  unfold breakOnOverflow
  split_ifs
  · exact commitBreak_visible o st false ho hy
  · exact commitBreak_visible o st true ho hy
  · refine ⟨?_, rfl⟩
    show visibleBytes (st.out ++ [10]) = _
    rw [visibleBytes_append]
    simp [visibleBytes]

theorem stepSpace_visible (f : Font) (maxW : Int) (o : WrapOptions) (st : WrapState)
    (ho : o.hyphenationMode = HyphenationMode.None) (hy : st.lastBreakHy = false) :
    visibleBytes (stepSpace f maxW o st).out = visibleBytes st.out
    ∧ (stepSpace f maxW o st).lastBreakHy = false := by
  unfold stepSpace
  by_cases hov : st.lineW + (glyphAdvanceWithKerning f st.lastGlyph 32 + f.glyphSpacing.width)
      > maxW
  · simp only [hov, if_true]
    exact ⟨(commitBreak_visible o st false ho hy).1, rfl⟩
  · simp only [hov, if_false]
    refine ⟨?_, rfl⟩
    show visibleBytes (st.out ++ [32]) = _
    rw [visibleBytes_append]
    simp [visibleBytes]

theorem stepHyphen_visible (f : Font) (maxW : Int) (o : WrapOptions) (c : Nat) (st : WrapState)
    (ho : o.hyphenationMode = HyphenationMode.None) (hy : st.lastBreakHy = false) :
    visibleBytes (stepHyphen f maxW o c st).out = visibleBytes st.out ++ visibleBytes [c]
    ∧ (stepHyphen f maxW o c st).lastBreakHy = false := by
  unfold stepHyphen
  refine ⟨?_, rfl⟩
  by_cases hov : st.lineW + (glyphAdvanceWithKerning f st.lastGlyph c + f.glyphSpacing.width)
      > maxW
  · simp only [hov, if_true]
    show visibleBytes ((commitBreak o st false).out ++ [c]) = _
    rw [visibleBytes_append, (commitBreak_visible o st false ho hy).1]
  · simp only [hov, if_false]
    show visibleBytes (st.out ++ [c]) = _
    rw [visibleBytes_append]

theorem stepAscii_visible (f : Font) (maxW : Int) (o : WrapOptions) (c : Nat) (st : WrapState)
    (ho : o.hyphenationMode = HyphenationMode.None) (hy : st.lastBreakHy = false) :
    visibleBytes (stepAscii f maxW o c st).out = visibleBytes st.out ++ visibleBytes [c]
    ∧ (stepAscii f maxW o c st).lastBreakHy = false := by
  unfold stepAscii
  by_cases hov : st.lineW + (glyphAdvanceWithKerning f st.lastGlyph c + f.glyphSpacing.width)
      > maxW
  · simp only [hov, if_true]
    constructor
    · show visibleBytes ((breakOnOverflow o _ st).out ++ [c]) = _
      rw [visibleBytes_append, (breakOnOverflow_visible o _ st ho hy).1]
    · exact (breakOnOverflow_visible o _ st ho hy).2
  · simp only [hov, if_false]
    constructor
    · show visibleBytes (st.out ++ [c]) = _
      rw [visibleBytes_append]
    · exact hy

/-- One iteration on an ASCII byte adds that byte to the visible content when it is not a
space, tab or newline, and nothing otherwise. -/
theorem asciiStep_visible (f : Font) (maxW : Int) (o : WrapOptions) (c : Nat) (st : WrapState)
    (ho : o.hyphenationMode = HyphenationMode.None) (hy : st.lastBreakHy = false) :
    visibleBytes (asciiStep f maxW o c st).out = visibleBytes st.out ++ visibleBytes [c]
    ∧ (asciiStep f maxW o c st).lastBreakHy = false := by
  unfold asciiStep
  by_cases h10 : c = 10
  · subst h10
    rw [if_pos rfl]
    refine ⟨?_, rfl⟩
    show visibleBytes (st.out ++ [10]) = _
    rw [visibleBytes_append]
  · rw [if_neg h10]
    by_cases hs : _isSpace c = true
    · rw [if_pos hs]
      have hv : visibleBytes [c] = [] := by
        simp only [_isSpace, Bool.or_eq_true, decide_eq_true_eq] at hs
        rcases hs with h | h <;> subst h <;> rfl
      rw [hv, List.append_nil]
      exact stepSpace_visible f maxW o st ho hy
    · rw [if_neg hs]
      by_cases hh : _isHyphen c = true
      · rw [if_pos hh]
        exact stepHyphen_visible f maxW o c st ho hy
      · rw [if_neg hh]
        exact stepAscii_visible f maxW o c st ho hy

theorem asciiRun_visible (f : Font) (maxW : Int) (o : WrapOptions)
    (ho : o.hyphenationMode = HyphenationMode.None) :
    ∀ (t : List Nat) (st : WrapState), st.lastBreakHy = false →
      visibleBytes (asciiRun f maxW o t st).out = visibleBytes st.out ++ visibleBytes t := by
  intro t
  induction t with
  | nil => intro st _; simp [asciiRun, visibleBytes]
  | cons c t ih =>
    intro st hy
    obtain ⟨h1, h2⟩ := asciiStep_visible f maxW o c st ho hy
    show visibleBytes (asciiRun f maxW o t (asciiStep f maxW o c st)).out = _
    rw [ih _ h2, h1, List.append_assoc, ← visibleBytes_append]
    rfl

/-- C30: for every ASCII text, glyph table, `maxWidth` and option set with
`hyphenationMode = None` (and every colour list), the bytes of `wrapText(text, maxWidth)` other
than `' '`, `'\t'` and `'\n'` are the bytes of `text` other than `' '`, `'\t'` and `'\n'`, in the
same order. -/
theorem wrapText_keeps_visible_bytes (f : Font) (text : List Nat) (maxWidth : Int)
    (o : WrapOptions) (colors : Option ColorRuns) (sc : Scratch)
    (hb : ∀ c ∈ text, c < 128) (ho : o.hyphenationMode = HyphenationMode.None) :
    visibleBytes (wrapText f text maxWidth o colors sc).out = visibleBytes text := by
  unfold wrapText
  split_ifs with h
  · rfl
  · have := wrapLoop_ascii f (max 0 maxWidth) o text [] text.length
      { out := [], colors := colors, scratch := sc, lastGlyph := 0xFF, lineW := 0,
        lastBreakOut := -1, lastBreakLineW := 0, lastBreakHy := false, lastBreakHyCount := 0 }
      hb (le_refl _)
    simp only [List.append_nil, Nat.sub_self] at this
    show visibleBytes (wrapLoop f (max 0 maxWidth) o text.length text _).out = _
    rw [this]
    show visibleBytes (asciiRun f (max 0 maxWidth) o text _).out = _
    rw [asciiRun_visible f _ o ho text _ rfl]
    rfl

/-- C30 at a concrete input: `"ab c de"` at advance 10 and `maxWidth = 45` is wrapped to
`"ab \ncde"`, whose visible bytes are `"abcde"`. -/
theorem wrapText_keeps_visible_bytes_witness :
    (∀ c ∈ bytesOf "ab c de", c < 128)
    ∧ plainOptions.hyphenationMode = HyphenationMode.None
    ∧ visibleBytes (wrapText (uniformFont 10) (bytesOf "ab c de") 45 plainOptions none
        Scratch.initial).out = visibleBytes (bytesOf "ab c de") :=
  ⟨by decide, rfl, wrapText_keeps_visible_bytes (uniformFont 10) (bytesOf "ab c de") 45
    plainOptions none Scratch.initial (by decide) rfl⟩

/-! ### The loop of `wrapText` after a hard line reset -/

theorem insertAt_append (p out : List Nat) (k : Int) (ch : Nat) (hk : 0 ≤ k) :
    insertAt (p ++ out) (k + (p.length : Int)) ch = p ++ insertAt out k ch := by
  obtain ⟨n, rfl⟩ := Int.eq_ofNat_of_zero_le hk
  have e : ((n : Int) + (p.length : Int)).toNat = p.length + n := by omega
  unfold insertAt
  rw [e]
  simp [List.take_append, List.drop_append]

theorem shiftOut_pushChar (p : List Nat) (st : WrapState) (ch : Nat) (hc : st.colors = none) :
    pushChar (shiftOut p st) ch = shiftOut p (pushChar st ch) := by
  cases st
  simp only at hc
  subst hc
  simp [pushChar, shiftOut, updateColors]

theorem shiftOut_markBreak (p : List Nat) (st : WrapState) (hy : Bool) (hyc : Int) :
    markBreak (shiftOut p st) hy hyc = shiftOut p (markBreak st hy hyc) := by
  cases st
  simp [markBreak, shiftOut]
  omega

theorem shiftOut_newline (p : List Nat) (st : WrapState) (hc : st.colors = none) :
    newline (shiftOut p st) = shiftOut p (newline st) := by
  cases st
  simp only at hc
  subst hc
  simp [newline, clearBreak, shiftOut, updateColors]

theorem shiftOut_commitBreak (o : WrapOptions) (p : List Nat) (st : WrapState) (forced : Bool)
    (hc : st.colors = none) :
    commitBreak o (shiftOut p st) forced = shiftOut p (commitBreak o st forced) := by
  cases st with
  | mk out colors scratch lastGlyph lineW lastBreakOut lastBreakLineW lastBreakHy
      lastBreakHyCount =>
    simp only at hc
    subst hc
    by_cases hb : lastBreakOut ≥ 0
    · have hb' : lastBreakOut + (p.length : Int) ≥ 0 := by omega
      have hb1 : lastBreakOut + 1 ≥ 0 := by omega
      by_cases hh : lastBreakHy = true ∧ lastBreakHyCount > 0
      · simp only [commitBreak, shiftOut, hb, hb', if_true, hh, and_self, clearBreak,
          updateColors]
        rw [insertAt_append p out lastBreakOut 45 hb,
          show lastBreakOut + (p.length : Int) + 1 = lastBreakOut + 1 + (p.length : Int) by ring,
          insertAt_append p _ (lastBreakOut + 1) 10 hb1]
        simp
      · simp only [commitBreak, shiftOut, hb, hb', if_true, hh, if_false, clearBreak,
          updateColors]
        rw [insertAt_append p out lastBreakOut 10 hb]
        simp
    · simp only [commitBreak, shiftOut, hb, if_false, newline, clearBreak, updateColors]
      split_ifs <;> first | (simp; done) | (exfalso; omega)

theorem shiftOut_breakOnOverflow (o : WrapOptions) (anywhere : Bool) (p : List Nat)
    (st : WrapState) (hc : st.colors = none) :
    breakOnOverflow o anywhere (shiftOut p st) = shiftOut p (breakOnOverflow o anywhere st) := by
  have hiff : (shiftOut p st).lastBreakOut ≥ 0 ↔ st.lastBreakOut ≥ 0 := by
    simp only [shiftOut]
    split_ifs with h
    · constructor
      · intro _; exact h
      · intro _; omega
    · exact Iff.rfl
  unfold breakOnOverflow
  by_cases hb : st.lastBreakOut ≥ 0
  · rw [if_pos (hiff.mpr hb), if_pos hb, shiftOut_commitBreak o p st false hc]
  · rw [if_neg (fun h => hb (hiff.mp h)), if_neg hb]
    split_ifs
    · exact shiftOut_commitBreak o p st true hc
    · exact shiftOut_newline p st hc

theorem commitBreak_colors_none (o : WrapOptions) (st : WrapState) (forced : Bool)
    (hc : st.colors = none) : (commitBreak o st forced).colors = none :=
  commitBreak_colors (fun c => c = none) (fun c _ _ _ h => by rw [h]; rfl) o st forced hc

theorem breakOnOverflow_colors_none (o : WrapOptions) (anywhere : Bool) (st : WrapState)
    (hc : st.colors = none) : (breakOnOverflow o anywhere st).colors = none :=
  breakOnOverflow_colors (fun c => c = none) (fun c _ _ _ h => by rw [h]; rfl) o anywhere st hc

theorem shiftOut_stepNewline (p : List Nat) (st : WrapState) (hc : st.colors = none) :
    stepNewline (shiftOut p st) = shiftOut p (stepNewline st) := by
  cases st
  simp only at hc
  subst hc
  simp [stepNewline, clearBreak, pushChar, shiftOut, updateColors]

theorem shiftOut_stepSpace (f : Font) (maxW : Int) (o : WrapOptions) (p : List Nat)
    (st : WrapState) (hc : st.colors = none) :
    stepSpace f maxW o (shiftOut p st) = shiftOut p (stepSpace f maxW o st) := by
  have hl : (shiftOut p st).lineW = st.lineW := rfl
  have hg : (shiftOut p st).lastGlyph = st.lastGlyph := rfl
  unfold stepSpace
  by_cases hov : st.lineW + (glyphAdvanceWithKerning f st.lastGlyph 32 + f.glyphSpacing.width)
      > maxW
  · simp only [hl, hg, hov, if_true]
    rw [shiftOut_commitBreak o p st false hc, shiftOut_markBreak]
  · simp only [hl, hg, hov, if_false]
    cases st
    simp only at hc
    subst hc
    simp [pushChar, markBreak, shiftOut, updateColors]
    omega

theorem shiftOut_stepHyphen (f : Font) (maxW : Int) (o : WrapOptions) (c : Nat) (p : List Nat)
    (st : WrapState) (hc : st.colors = none) :
    stepHyphen f maxW o c (shiftOut p st) = shiftOut p (stepHyphen f maxW o c st) := by
  have hl : (shiftOut p st).lineW = st.lineW := rfl
  have hg : (shiftOut p st).lastGlyph = st.lastGlyph := rfl
  have key : ∀ (s : WrapState) (w : Int), s.colors = none →
      ({ markBreak { pushChar (shiftOut p s) c with
            lineW := (pushChar (shiftOut p s) c).lineW + w } false 0 with lastGlyph := c }
          : WrapState)
        = shiftOut p { markBreak { pushChar s c with lineW := (pushChar s c).lineW + w } false 0
                       with lastGlyph := c } := by
    intro s w hs
    cases s
    simp only at hs
    subst hs
    simp [pushChar, markBreak, shiftOut, updateColors]
    omega
  unfold stepHyphen
  by_cases hov : st.lineW + (glyphAdvanceWithKerning f st.lastGlyph c + f.glyphSpacing.width)
      > maxW
  · simp only [hl, hg, hov, if_true]
    rw [shiftOut_commitBreak o p st false hc]
    exact key _ _ (commitBreak_colors_none o st false hc)
  · simp only [hl, hg, hov, if_false]
    exact key _ _ hc

theorem shiftOut_stepAscii (f : Font) (maxW : Int) (o : WrapOptions) (c : Nat) (p : List Nat)
    (st : WrapState) (hc : st.colors = none) :
    stepAscii f maxW o c (shiftOut p st) = shiftOut p (stepAscii f maxW o c st) := by
  have hl : (shiftOut p st).lineW = st.lineW := rfl
  have hg : (shiftOut p st).lastGlyph = st.lastGlyph := rfl
  have key : ∀ (s : WrapState) (w : Int), s.colors = none →
      ({ pushChar (shiftOut p s) c with
            lineW := (pushChar (shiftOut p s) c).lineW + w, lastGlyph := c } : WrapState)
        = shiftOut p { pushChar s c with lineW := (pushChar s c).lineW + w, lastGlyph := c } := by
    intro s w hs
    cases s
    simp only at hs
    subst hs
    simp [pushChar, shiftOut, updateColors]
  unfold stepAscii
  by_cases hov : st.lineW + (glyphAdvanceWithKerning f st.lastGlyph c + f.glyphSpacing.width)
      > maxW
  · simp only [hl, hg, hov, if_true]
    rw [shiftOut_breakOnOverflow o _ p st hc]
    exact key _ _ (breakOnOverflow_colors_none o _ st hc)
  · simp only [hl, hg, hov, if_false]
    exact key _ _ hc

/-- One iteration on an ASCII byte commutes with putting bytes in front of the output. -/
theorem shiftOut_asciiStep (f : Font) (maxW : Int) (o : WrapOptions) (c : Nat) (p : List Nat)
    (st : WrapState) (hc : st.colors = none) :
    asciiStep f maxW o c (shiftOut p st) = shiftOut p (asciiStep f maxW o c st) := by
  unfold asciiStep
  split_ifs
  · exact shiftOut_stepNewline p st hc
  · exact shiftOut_stepSpace f maxW o p st hc
  · exact shiftOut_stepHyphen f maxW o c p st hc
  · exact shiftOut_stepAscii f maxW o c p st hc

theorem asciiStep_colors_none (f : Font) (maxW : Int) (o : WrapOptions) (c : Nat)
    (st : WrapState) (hc : st.colors = none) : (asciiStep f maxW o c st).colors = none := by
  have hP : ∀ (c : Option ColorRuns) (pos n : Int), 0 ≤ n → c = none →
      updateColors c pos n = none := fun c _ _ _ h => by rw [h]; rfl
  unfold asciiStep
  split_ifs
  · exact pushChar_colors (fun c => c = none) hP st 10 hc
  · exact stepSpace_colors (fun c => c = none) hP f maxW o st hc
  · exact stepHyphen_colors (fun c => c = none) hP f maxW o c st hc
  · exact stepAscii_colors (fun c => c = none) hP f maxW o c st hc

theorem shiftOut_asciiRun (f : Font) (maxW : Int) (o : WrapOptions) (p : List Nat) :
    ∀ (t : List Nat) (st : WrapState), st.colors = none →
      asciiRun f maxW o t (shiftOut p st) = shiftOut p (asciiRun f maxW o t st) := by
  intro t
  induction t with
  | nil => intro st _; rfl
  | cons c t ih =>
    intro st hc
    show asciiRun f maxW o t (asciiStep f maxW o c (shiftOut p st)) = _
    rw [shiftOut_asciiStep f maxW o c p st hc, ih _ (asciiStep_colors_none f maxW o c st hc)]
    rfl

theorem commitBreak_scratch (o : WrapOptions) (st : WrapState) (forced : Bool) :
    (commitBreak o st forced).scratch = st.scratch := by
  unfold commitBreak
  split_ifs <;> rfl

theorem breakOnOverflow_scratch (o : WrapOptions) (anywhere : Bool) (st : WrapState) :
    (breakOnOverflow o anywhere st).scratch = st.scratch := by
  unfold breakOnOverflow
  split_ifs
  · exact commitBreak_scratch o st false
  · exact commitBreak_scratch o st true
  · rfl

/-- An iteration on an ASCII byte leaves the scratch buffers alone. -/
theorem asciiStep_scratch (f : Font) (maxW : Int) (o : WrapOptions) (c : Nat) (st : WrapState) :
    (asciiStep f maxW o c st).scratch = st.scratch := by
  unfold asciiStep
  split_ifs
  · rfl
  · unfold stepSpace
    dsimp only
    split_ifs
    · exact commitBreak_scratch o st false
    · rfl
  · unfold stepHyphen
    show (if _ then commitBreak o st false else st).scratch = _
    split_ifs
    · exact commitBreak_scratch o st false
    · rfl
  · unfold stepAscii
    show (if _ then breakOnOverflow o _ st else st).scratch = _
    split_ifs
    · exact breakOnOverflow_scratch o _ st
    · rfl

theorem asciiRun_scratch (f : Font) (maxW : Int) (o : WrapOptions) :
    ∀ (t : List Nat) (st : WrapState), (asciiRun f maxW o t st).scratch = st.scratch := by
  intro t
  induction t with
  | nil => intro st; rfl
  | cons c t ih =>
    intro st
    show (asciiRun f maxW o t (asciiStep f maxW o c st)).scratch = _
    rw [ih, asciiStep_scratch]

theorem asciiRun_colors_none (f : Font) (maxW : Int) (o : WrapOptions) :
    ∀ (t : List Nat) (st : WrapState), st.colors = none →
      (asciiRun f maxW o t st).colors = none := by
  intro t
  induction t with
  | nil => intro st h; exact h
  | cons c t ih => intro st h; exact ih _ (asciiStep_colors_none f maxW o c st h)

/-- A literal `'\n'` leaves the loop in its entry state, with the output so far and the `'\n'`
in front. -/
theorem stepNewline_eq_shiftOut (st : WrapState) (hc : st.colors = none) :
    stepNewline st = shiftOut (st.out ++ [10]) (wrapStart st.scratch) := by
  cases st
  simp only at hc
  subst hc
  simp [stepNewline, clearBreak, pushChar, shiftOut, wrapStart, updateColors]

/-- C24: a literal newline is a hard reset, so wrapping distributes over it: for every glyph
table, `maxWidth > 0`, option set and ASCII texts `a` and `b`, with no colour list,
`wrapText(a + "\n" + b) = wrapText(a) + "\n" + wrapText(b)`. -/
theorem wrapText_distributes_over_newline (f : Font) (a b : List Nat) (maxWidth : Int)
    (o : WrapOptions) (sc : Scratch) (ha : ∀ c ∈ a, c < 128) (hb : ∀ c ∈ b, c < 128)
    (hpos : 0 < maxWidth) :
    (wrapText f (a ++ 10 :: b) maxWidth o none sc).out
      = (wrapText f a maxWidth o none sc).out ++ 10 :: (wrapText f b maxWidth o none sc).out := by
  have hab : ∀ c ∈ a ++ 10 :: b, c < 128 := by
    intro c hc
    rcases List.mem_append.mp hc with h | h
    · exact ha c h
    · rcases List.mem_cons.mp h with h | h
      · omega
      · exact hb c h
  rw [wrapText_ascii f _ maxWidth o sc hab hpos, wrapText_ascii f a maxWidth o sc ha hpos,
    wrapText_ascii f b maxWidth o sc hb hpos, asciiRun_append]
  show (asciiRun f maxWidth o b
      (asciiStep f maxWidth o 10 (asciiRun f maxWidth o a (wrapStart sc)))).out = _
  have hstep : ∀ s : WrapState, asciiStep f maxWidth o 10 s = stepNewline s := fun s => by
    simp [asciiStep]
  have hc : (asciiRun f maxWidth o a (wrapStart sc)).colors = none :=
    asciiRun_colors_none f maxWidth o a _ rfl
  rw [hstep, stepNewline_eq_shiftOut _ hc, asciiRun_scratch,
    shiftOut_asciiRun f maxWidth o _ b _ rfl]
  show ((asciiRun f maxWidth o a (wrapStart sc)).out ++ [10])
      ++ (asciiRun f maxWidth o b (wrapStart (wrapStart sc).scratch)).out = _
  simp [wrapStart]

/-- C24 at a concrete input: `"ab cd"` and `"hello"` at advance 10 and `maxWidth = 25`. -/
theorem wrapText_distributes_over_newline_witness :
    (∀ c ∈ bytesOf "ab cd", c < 128) ∧ (∀ c ∈ bytesOf "hello", c < 128) ∧ (0 : Int) < 25
    ∧ (wrapText (uniformFont 10) (bytesOf "ab cd" ++ 10 :: bytesOf "hello") 25 plainOptions none
        Scratch.initial).out
      = (wrapText (uniformFont 10) (bytesOf "ab cd") 25 plainOptions none Scratch.initial).out
        ++ 10 :: (wrapText (uniformFont 10) (bytesOf "hello") 25 plainOptions none
            Scratch.initial).out :=
  ⟨by decide, by decide, by decide,
    wrapText_distributes_over_newline (uniformFont 10) (bytesOf "ab cd") (bytesOf "hello") 25
      plainOptions Scratch.initial (by decide) (by decide) (by decide)⟩

/-! ### Placed glyphs: pen advance, left edge and box -/

/-- One iteration of the main pass on a glyph byte: the glyph is written at a point `v` on the
pen's line, and the pen moves on from `v` by the advance and the horizontal spacing. -/
theorem mainPassStep_glyph_point (f : Font) (align : AlignmentFlag) (nl : Bool) (M : Int)
    (lw : List Int) (i g : Nat) (s : MainPass) (hg : 32 ≤ g) :
    ∃ v : Point,
      (mainPassStep f align nl M lw i g s).glyphsPositions = s.glyphsPositions.set i v
      ∧ (mainPassStep f align nl M lw i g s).vpos
          = ⟨v.x + (f.glyphsAdvance g + f.glyphSpacing.width), v.y⟩
      ∧ (mainPassStep f align nl M lw i g s).prevGlyph = (g : Int)
      ∧ v.y = s.vpos.y := by
  have h10 : g ≠ 10 := by omega
  unfold mainPassStep
  by_cases hi : i = 0
  · simp only [h10, hi, hg, false_or, if_true, if_false, ne_eq, not_false_eq_true, and_self]
    refine ⟨_, rfl, ?_⟩
    simp
  · simp only [h10, hi, hg, false_or, if_true, if_false, ne_eq, not_false_eq_true, and_self,
      or_self]
    refine ⟨_, rfl, ?_⟩
    simp

/-- After a glyph `a` and a run of control bytes, the next glyph of the line is placed at the
pen position moved by its kerning against `a`. -/
theorem mainPass_next_glyph (f : Font) (align : AlignmentFlag) (nl : Bool) (M : Int)
    (lw : List Int) (a : Nat) :
    ∀ (ctl : List Nat) (g : Nat) (post : List Nat) (i : Nat) (s : MainPass),
      1 ≤ i → s.prevGlyph = (a : Int) → (∀ c ∈ ctl, c < 32 ∧ c ≠ 10) → 32 ≤ g →
      i + ctl.length < s.glyphsPositions.length →
      (mainPass f align nl M lw (ctl ++ g :: post) i s).glyphsPositions[i + ctl.length]?
        = some ⟨s.vpos.x + f.kerning a g, s.vpos.y⟩ := by
  intro ctl
  induction ctl with
  | nil =>
    intro g post i s hi hp _ hg hlen
    show (mainPass f align nl M lw post (i + 1) _).glyphsPositions[i]? = _
    rw [mainPass_frame f align nl M lw post (i + 1) _ i (by omega),
      mainPassStep_glyph _ _ _ _ _ _ _ _ hg hi]
    simp only [List.length_nil, Nat.add_zero] at hlen
    have h0 : ((a : Nat) : Int) ≥ 0 := Int.ofNat_nonneg a
    simp [hp, h0, List.getElem?_set, hlen]
  | cons c ctl ih =>
    intro g post i s hi hp hc hg hlen
    have hc0 := hc c (List.mem_cons_self _ _)
    show (mainPass f align nl M lw (ctl ++ g :: post) (i + 1) _).glyphsPositions[_]? = _
    rw [mainPassStep_control _ _ _ _ _ _ _ _ hc0.1 hc0.2 hi]
    simp only [List.length_cons] at hlen ⊢
    rw [show i + (ctl.length + 1) = i + 1 + ctl.length by omega]
    exact ih g post (i + 1) s (by omega) hp (fun x hx => hc x (List.mem_cons_of_mem _ hx)) hg
      (by omega)

/-- The final pass leaves the y of a placed glyph as the main pass set it. -/
theorem calculateGlyphsPositions_glyph_y (f : Font) (align : AlignmentFlag) (buf : List Point)
    (lw : List Int) (wantBox : Bool) (pre : List Nat) (g : Nat) (post : List Nat) (v : Point)
    (hg : 32 ≤ g)
    (hv : (layoutMainPass f (pre ++ g :: post) align buf lw wantBox).glyphsPositions[pre.length]?
            = some v) :
    ((calculateGlyphsPositions f (pre ++ g :: post) align buf lw wantBox).glyphsPositions.getD
        pre.length ⟨0, 0⟩).y = v.y := by
  rw [calculateGlyphsPositions_positions _ _ _ _ _ _ (by simp)]
  split_ifs with h
  · have := shiftPass_glyph (layoutExtent f (pre ++ g :: post) align buf lw wantBox).minX
      pre g post 0 _ v hg (by simpa using hv)
    simp only [Nat.zero_add] at this
    rw [List.getD_eq_getElem?_getD, this]
    simp
  · rw [List.getD_eq_getElem?_getD, hv]
    simp

/-- The main-pass position of a placed glyph and the pen after it. -/
theorem layoutMainPass_glyph (f : Font) (align : AlignmentFlag) (buf : List Point)
    (lw : List Int) (wantBox : Bool) (pre : List Nat) (g : Nat) (post : List Nat)
    (hg : 32 ≤ g) :
    ∃ (v : Point) (pos0 : List Point) (s : MainPass),
      (pre ++ g :: post).length ≤ pos0.length
      ∧ s.glyphsPositions.length = pos0.length
      ∧ layoutMainPass f (pre ++ g :: post) align buf lw wantBox
          = mainPass f align (needLines align wantBox)
              (layoutPrePass f (pre ++ g :: post) align lw wantBox).maxLineWidth
              (layoutPrePass f (pre ++ g :: post) align lw wantBox).lineWidths post
              (pre.length + 1) s
      ∧ s.glyphsPositions[pre.length]? = some v
      ∧ s.vpos = ⟨v.x + (f.glyphsAdvance g + f.glyphSpacing.width), v.y⟩
      ∧ s.prevGlyph = (g : Int)
      ∧ v.y = f.yOffset + (pre.count 10 : Int) * (f.glyphHeight + f.glyphSpacing.height) := by
  obtain ⟨pos0, hlen, e⟩ := layoutMainPass_eq f (pre ++ g :: post) align buf lw wantBox
  rw [e, mainPass_append]
  simp only [Nat.zero_add]
  have hy := mainPass_vposY f align (needLines align wantBox)
    (layoutPrePass f (pre ++ g :: post) align lw wantBox).maxLineWidth
    (layoutPrePass f (pre ++ g :: post) align lw wantBox).lineWidths pre 0
    { vpos := ⟨0, f.yOffset⟩, lines := 0, prevGlyph := -1, glyphsPositions := pos0 }
  have hsl := mainPass_length f align (needLines align wantBox)
    (layoutPrePass f (pre ++ g :: post) align lw wantBox).maxLineWidth
    (layoutPrePass f (pre ++ g :: post) align lw wantBox).lineWidths pre 0
    { vpos := ⟨0, f.yOffset⟩, lines := 0, prevGlyph := -1, glyphsPositions := pos0 }
  generalize mainPass f align (needLines align wantBox) _ _ pre 0 _ = si at hy hsl ⊢
  simp only at hy hsl
  obtain ⟨v, hset, hvpos, hprev, hvy⟩ := mainPassStep_glyph_point f align
    (needLines align wantBox)
    (layoutPrePass f (pre ++ g :: post) align lw wantBox).maxLineWidth
    (layoutPrePass f (pre ++ g :: post) align lw wantBox).lineWidths pre.length g si hg
  simp only [List.length_append, List.length_cons] at hlen
  refine ⟨v, pos0, _, by simp only [List.length_append, List.length_cons]; exact hlen,
    by rw [mainPassStep_length, hsl], rfl, ?_, hvpos, hprev, by rw [hvy, hy]⟩
  rw [hset]
  simp [List.getElem?_set]
  omega

/-- The main-pass positions of two consecutive placed glyphs of one line. -/
theorem layoutMainPass_consecutive (f : Font) (align : AlignmentFlag) (buf : List Point)
    (lw : List Int) (wantBox : Bool) (pre : List Nat) (a : Nat) (ctl : List Nat) (b : Nat)
    (post : List Nat) (ha : 32 ≤ a) (hb : 32 ≤ b) (hctl : ∀ c ∈ ctl, c < 32 ∧ c ≠ 10) :
    ∃ v : Point,
      (layoutMainPass f (pre ++ a :: (ctl ++ b :: post)) align buf lw
          wantBox).glyphsPositions[pre.length]? = some v
      ∧ (layoutMainPass f (pre ++ a :: (ctl ++ b :: post)) align buf lw
          wantBox).glyphsPositions[pre.length + 1 + ctl.length]?
        = some ⟨v.x + (f.glyphsAdvance a + f.glyphSpacing.width) + f.kerning a b, v.y⟩ := by
  obtain ⟨v, pos0, s, hlen, hsl, e, hv, hvpos, hprev, _⟩ :=
    layoutMainPass_glyph f align buf lw wantBox pre a (ctl ++ b :: post) ha
  simp only [List.length_append, List.length_cons] at hlen
  refine ⟨v, ?_, ?_⟩
  · rw [e, mainPass_frame _ _ _ _ _ _ _ _ pre.length (by omega)]
    exact hv
  · rw [e, mainPass_next_glyph f align _ _ _ a ctl b post (pre.length + 1) s (by omega) hprev
      hctl hb (by rw [hsl]; omega), hvpos]

/-- C21: in the positions `calculateGlyphsPositions` reports, for every glyph table, alignment
and buffer content: (1) two glyph bytes `a`, `b` that are consecutive placed glyphs of a line
(only control bytes other than `'\n'` between them) satisfy
`pos[j].x - pos[i].x = advance[a] + horizontal spacing + kerning[a][b]`; (2) the first glyph
after a `'\n'` is placed at the start x of its line (moved by the shift of the final pass), with
no kerning term; (3) so is the first glyph of the text; (4) a glyph on line `k` (after `k`
bytes `'\n'`) has `y = yOffset + k * (glyphHeight + vertical spacing)`. -/
theorem calculateGlyphsPositions_pen_advance (f : Font) (align : AlignmentFlag)
    (buf : List Point) (lw : List Int) (wantBox : Bool) :
    (∀ (pre : List Nat) (a : Nat) (ctl : List Nat) (b : Nat) (post : List Nat),
      32 ≤ a → 32 ≤ b → (∀ c ∈ ctl, c < 32 ∧ c ≠ 10) →
      ((calculateGlyphsPositions f (pre ++ a :: (ctl ++ b :: post)) align buf lw
          wantBox).glyphsPositions.getD (pre.length + 1 + ctl.length) ⟨0, 0⟩).x
        - ((calculateGlyphsPositions f (pre ++ a :: (ctl ++ b :: post)) align buf lw
          wantBox).glyphsPositions.getD pre.length ⟨0, 0⟩).x
        = f.glyphsAdvance a + f.glyphSpacing.width + f.kerning a b)
    ∧ (∀ (pre ctl : List Nat) (g : Nat) (post : List Nat),
      32 ≤ g → (∀ c ∈ ctl, c < 32 ∧ c ≠ 10) →
      ((calculateGlyphsPositions f (pre ++ 10 :: (ctl ++ g :: post)) align buf lw
          wantBox).glyphsPositions.getD (pre.length + 1 + ctl.length) ⟨0, 0⟩).x
        = lineStartX align (needLines align wantBox)
            (layoutPrePass f (pre ++ 10 :: (ctl ++ g :: post)) align lw wantBox).maxLineWidth
            (layoutPrePass f (pre ++ 10 :: (ctl ++ g :: post)) align lw wantBox).lineWidths
            (pre.count 10 + 1)
          + layoutShift f (pre ++ 10 :: (ctl ++ g :: post)) align buf lw wantBox)
    ∧ (∀ (ctl : List Nat) (g : Nat) (post : List Nat),
      32 ≤ g → (∀ c ∈ ctl, c < 32 ∧ c ≠ 10) →
      ((calculateGlyphsPositions f (ctl ++ g :: post) align buf lw
          wantBox).glyphsPositions.getD ctl.length ⟨0, 0⟩).x
        = lineStartX align (needLines align wantBox)
            (layoutPrePass f (ctl ++ g :: post) align lw wantBox).maxLineWidth
            (layoutPrePass f (ctl ++ g :: post) align lw wantBox).lineWidths 0
          + layoutShift f (ctl ++ g :: post) align buf lw wantBox)
    ∧ (∀ (pre : List Nat) (g : Nat) (post : List Nat), 32 ≤ g →
      ((calculateGlyphsPositions f (pre ++ g :: post) align buf lw
          wantBox).glyphsPositions.getD pre.length ⟨0, 0⟩).y
        = f.yOffset + (pre.count 10 : Int) * (f.glyphHeight + f.glyphSpacing.height)) := by
  refine ⟨?_, ?_, ?_, ?_⟩
  · intro pre a ctl b post ha hb hctl
    obtain ⟨v, hi, hj⟩ := layoutMainPass_consecutive f align buf lw wantBox pre a ctl b post
      ha hb hctl
    have e : pre ++ a :: (ctl ++ b :: post) = (pre ++ a :: ctl) ++ b :: post := by simp
    have hl : (pre ++ a :: ctl).length = pre.length + 1 + ctl.length := by
      simp only [List.length_append, List.length_cons]; omega
    rw [calculateGlyphsPositions_glyph f align buf lw wantBox pre a (ctl ++ b :: post) v ha hi]
    rw [e] at hj ⊢
    rw [← hl] at hj ⊢
    rw [calculateGlyphsPositions_glyph f align buf lw wantBox (pre ++ a :: ctl) b post _ hb hj]
    ring
  · intro pre ctl g post hg hctl
    obtain ⟨v, hv, hx⟩ := layoutMainPass_after_newline f align buf lw wantBox pre ctl g post hg
      hctl
    have e : pre ++ 10 :: (ctl ++ g :: post) = (pre ++ 10 :: ctl) ++ g :: post := by simp
    have hl : (pre ++ 10 :: ctl).length = pre.length + 1 + ctl.length := by
      simp only [List.length_append, List.length_cons]; omega
    rw [← hx]
    rw [e] at hv ⊢
    rw [← hl] at hv ⊢
    exact calculateGlyphsPositions_glyph f align buf lw wantBox (pre ++ 10 :: ctl) g post v hg hv
  · intro ctl g post hg hctl
    obtain ⟨v, hv, hx⟩ := layoutMainPass_first_line f align buf lw wantBox ctl g post hg hctl
    rw [← hx]
    exact calculateGlyphsPositions_glyph f align buf lw wantBox ctl g post v hg hv
  · intro pre g post hg
    obtain ⟨v, pos0, s, hlen, hsl, e, hv, _, _, hy⟩ :=
      layoutMainPass_glyph f align buf lw wantBox pre g post hg
    have hv' : (layoutMainPass f (pre ++ g :: post) align buf lw
        wantBox).glyphsPositions[pre.length]? = some v := by
      rw [e, mainPass_frame _ _ _ _ _ _ _ _ pre.length (by omega)]
      exact hv
    rw [calculateGlyphsPositions_glyph_y f align buf lw wantBox pre g post v hg hv', hy]

/-- The extent of the bounding-box pass, moved by the shift, bounds every placed glyph in the
reported positions. -/
theorem reported_glyph_within_extent (f : Font) (align : AlignmentFlag) (buf : List Point)
    (lw : List Int) (wantBox : Bool) (pre : List Nat) (g : Nat) (post : List Nat)
    (hg : 32 ≤ g) :
    (layoutExtent f (pre ++ g :: post) align buf lw wantBox).hasGlyph = true
    ∧ (layoutExtent f (pre ++ g :: post) align buf lw wantBox).minX
        + layoutShift f (pre ++ g :: post) align buf lw wantBox
        ≤ glyphLeft f (calculateGlyphsPositions f (pre ++ g :: post) align buf lw
            wantBox).glyphsPositions pre.length g
    ∧ glyphRight f (calculateGlyphsPositions f (pre ++ g :: post) align buf lw
            wantBox).glyphsPositions pre.length g
        ≤ (layoutExtent f (pre ++ g :: post) align buf lw wantBox).maxX
          + layoutShift f (pre ++ g :: post) align buf lw wantBox := by
  obtain ⟨h1, h2, h3⟩ := extentPass_bounds f
    (layoutMainPass f (pre ++ g :: post) align buf lw wantBox).glyphsPositions pre g post 0
    { minX := 0, maxX := 0, hasGlyph := false } hg
  simp only [Nat.zero_add] at h2 h3
  have hl := glyphLeft_reported f align buf lw wantBox pre g post hg
  refine ⟨h1, ?_, ?_⟩
  · rw [hl]
    have : (layoutExtent f (pre ++ g :: post) align buf lw wantBox).minX
        ≤ glyphLeft f (layoutMainPass f (pre ++ g :: post) align buf lw
            wantBox).glyphsPositions pre.length g := h2
    omega
  · unfold glyphRight at h3 ⊢
    rw [hl]
    have : glyphLeft f (layoutMainPass f (pre ++ g :: post) align buf lw
            wantBox).glyphsPositions pre.length g + (f.glyphsSize g).width
        ≤ (layoutExtent f (pre ++ g :: post) align buf lw wantBox).maxX := h3
    omega

/-- C22: after `calculateGlyphsPositions`, no placed glyph extends left of zero: for every glyph
table (negative offsets and kerning included), alignment and buffer content, the left edge
`pos[i].x + offset[text[i]].x` of every glyph byte is at least 0. -/
theorem calculateGlyphsPositions_left_edge_nonneg (f : Font) (align : AlignmentFlag)
    (buf : List Point) (lw : List Int) (wantBox : Bool) (pre : List Nat) (g : Nat)
    (post : List Nat) (hg : 32 ≤ g) :
    0 ≤ ((calculateGlyphsPositions f (pre ++ g :: post) align buf lw
            wantBox).glyphsPositions.getD pre.length ⟨0, 0⟩).x + (f.glyphsOffset g).x := by
  obtain ⟨h1, h2, _⟩ := reported_glyph_within_extent f align buf lw wantBox pre g post hg
  unfold glyphLeft at h2
  unfold layoutShift at h2
  by_cases hneg : (layoutExtent f (pre ++ g :: post) align buf lw wantBox).minX < 0
  · rw [if_pos ⟨h1, hneg⟩] at h2
    omega
  · rw [if_neg (fun h => hneg h.2)] at h2
    omega

/-- C22 at a concrete input: with glyph x-offset -3 and advance 10, the glyphs of `"a\nb"` end
with their left edges at 0. -/
theorem calculateGlyphsPositions_left_edge_nonneg_witness :
    (32 : Nat) ≤ 98
    ∧ 0 ≤ ((calculateGlyphsPositions { uniformFont 10 with glyphsOffset := fun _ => ⟨-3, 0⟩ }
            (bytesOf "a\n" ++ 98 :: []) AlignTopLeft [] [] true).glyphsPositions.getD
              (bytesOf "a\n").length ⟨0, 0⟩).x
          + (({ uniformFont 10 with glyphsOffset := fun _ => ⟨-3, 0⟩ } : Font).glyphsOffset 98).x :=
  ⟨by decide, calculateGlyphsPositions_left_edge_nonneg
    { uniformFont 10 with glyphsOffset := fun _ => ⟨-3, 0⟩ } AlignTopLeft [] [] true
    (bytesOf "a\n") 98 [] (by decide)⟩

/-- The box `calculateGlyphsPositions` reports for a non-empty text. -/
theorem calculateGlyphsPositions_textBoxSize (f : Font) (text : List Nat)
    (align : AlignmentFlag) (buf : List Point) (lw : List Int) (hne : text ≠ []) :
    (calculateGlyphsPositions f text align buf lw true).textBoxSize
      = some ⟨if (layoutExtent f text align buf lw true).hasGlyph = true then
                max (layoutPrePass f text align lw true).maxLineWidth
                  ((layoutExtent f text align buf lw true).maxX
                    - (layoutExtent f text align buf lw true).minX)
              else (layoutPrePass f text align lw true).maxLineWidth,
              (layoutMainPass f text align buf lw true).vpos.y + f.glyphHeight⟩ := by
  have hlen : text.length ≠ 0 := fun h => hne (List.length_eq_zero.mp h)
  unfold calculateGlyphsPositions
  simp only [hlen, and_false, if_false, if_true]
  by_cases h1 : (layoutExtent f text align buf lw true).hasGlyph = true <;>
    by_cases h2 : (layoutExtent f text align buf lw true).minX < 0 <;>
    simp [h1, h2]

/-- C28 (as stated, refuted): with glyph x-offset 5, width 10 and advance 10, the glyph of
`"a"` is placed at x = 0, so its right edge is 15, while the reported box width is 10. -/
theorem calculateGlyphsPositions_glyph_outside_box :
    glyphRight { uniformFont 10 with glyphsOffset := fun _ => ⟨5, 0⟩ }
        (calculateGlyphsPositions { uniformFont 10 with glyphsOffset := fun _ => ⟨5, 0⟩ }
          (bytesOf "a") AlignTopLeft [] [] true).glyphsPositions 0 97 = 15
    ∧ (calculateGlyphsPositions { uniformFont 10 with glyphsOffset := fun _ => ⟨5, 0⟩ }
          (bytesOf "a") AlignTopLeft [] [] true).textBoxSize = some ⟨10, 16⟩ := by
  constructor <;> decide

/-- C28 (amended): the reported box is at least as wide as the placed glyphs' extent: for any
two glyph bytes of the text, the right edge of the one minus the left edge of the other is at
most the reported box width. Hence every placed glyph's right edge is within the box width
whenever some placed glyph has its left edge at 0 (or less), as is the case after the final
pass has shifted a negative left edge to 0. -/
theorem calculateGlyphsPositions_box_covers_extent (f : Font) (text : List Nat)
    (align : AlignmentFlag) (buf : List Point) (lw : List Int) :
    ∃ box : Size,
      (calculateGlyphsPositions f text align buf lw true).textBoxSize = some box
      ∧ (∀ (pre : List Nat) (g : Nat) (post pre' : List Nat) (g' : Nat) (post' : List Nat),
          text = pre ++ g :: post → 32 ≤ g → text = pre' ++ g' :: post' → 32 ≤ g' →
          glyphRight f (calculateGlyphsPositions f text align buf lw true).glyphsPositions
              pre.length g
            - glyphLeft f (calculateGlyphsPositions f text align buf lw true).glyphsPositions
              pre'.length g' ≤ box.width)
      ∧ ((∃ (pre' : List Nat) (g' : Nat) (post' : List Nat),
            text = pre' ++ g' :: post' ∧ 32 ≤ g'
            ∧ glyphLeft f (calculateGlyphsPositions f text align buf lw true).glyphsPositions
                pre'.length g' ≤ 0) →
          ∀ (pre : List Nat) (g : Nat) (post : List Nat), text = pre ++ g :: post → 32 ≤ g →
            glyphRight f (calculateGlyphsPositions f text align buf lw true).glyphsPositions
              pre.length g ≤ box.width)
      ∧ ((layoutExtent f text align buf lw true).minX < 0 →
          ∀ (pre : List Nat) (g : Nat) (post : List Nat), text = pre ++ g :: post → 32 ≤ g →
            glyphRight f (calculateGlyphsPositions f text align buf lw true).glyphsPositions
              pre.length g ≤ box.width) := by
  by_cases hne : text = []
  · subst hne
    refine ⟨⟨0, f.glyphHeight⟩, rfl, ?_, ?_, ?_⟩
    · intro pre g post pre' g' post' h
      exact absurd h (by simp)
    · intro _ pre g post h
      exact absurd h (by simp)
    · intro _ pre g post h
      exact absurd h (by simp)
  · have key : ∀ (pre : List Nat) (g : Nat) (post pre' : List Nat) (g' : Nat)
        (post' : List Nat), text = pre ++ g :: post → 32 ≤ g → text = pre' ++ g' :: post' →
        32 ≤ g' →
        glyphRight f (calculateGlyphsPositions f text align buf lw true).glyphsPositions
            pre.length g
          - glyphLeft f (calculateGlyphsPositions f text align buf lw true).glyphsPositions
            pre'.length g'
          ≤ (if (layoutExtent f text align buf lw true).hasGlyph = true then
                max (layoutPrePass f text align lw true).maxLineWidth
                  ((layoutExtent f text align buf lw true).maxX
                    - (layoutExtent f text align buf lw true).minX)
              else (layoutPrePass f text align lw true).maxLineWidth) := by
      intro pre g post pre' g' post' e hg e' hg'
      have h1 := reported_glyph_within_extent f align buf lw true pre g post hg
      have h2 := reported_glyph_within_extent f align buf lw true pre' g' post' hg'
      rw [← e] at h1
      rw [← e'] at h2
      rw [if_pos h1.1]
      have := le_max_right (layoutPrePass f text align lw true).maxLineWidth
        ((layoutExtent f text align buf lw true).maxX
          - (layoutExtent f text align buf lw true).minX)
      omega
    refine ⟨_, calculateGlyphsPositions_textBoxSize f text align buf lw hne, key, ?_, ?_⟩
    · rintro ⟨pre', g', post', e', hg', hle⟩ pre g post e hg
      have := key pre g post pre' g' post' e hg e' hg'
      simp only at this ⊢
      omega
    · intro hneg pre g post e hg
      have h1 := reported_glyph_within_extent f align buf lw true pre g post hg
      rw [← e] at h1
      obtain ⟨hh, _, h3⟩ := h1
      unfold layoutShift at h3
      rw [if_pos ⟨hh, hneg⟩] at h3
      simp only
      rw [if_pos hh]
      have := le_max_right (layoutPrePass f text align lw true).maxLineWidth
        ((layoutExtent f text align buf lw true).maxX
          - (layoutExtent f text align buf lw true).minX)
      omega

/-! ### The layout does not depend on the buffers -/

/-- One iteration of the main pass from two states with the same pen, at two indices that are
both the first or both not, with line starts that agree where the iteration reads them: the
pens agree afterwards and a glyph is written at the same point. -/
theorem mainPassStep_congr (f : Font) (align : AlignmentFlag) (nl : Bool) (M M' : Int)
    (lw lw' : List Int) (i i' g : Nat) (s s' : MainPass)
    (hi : i = 0 ↔ i' = 0) (hpen : samePen s s')
    (hs0 : i = 0 → lineStartX align nl M lw s.lines = lineStartX align nl M' lw' s.lines)
    (hs1 : g = 10 →
      lineStartX align nl M lw (s.lines + 1) = lineStartX align nl M' lw' (s.lines + 1)) :
    samePen (mainPassStep f align nl M lw i g s) (mainPassStep f align nl M' lw' i' g s')
    ∧ (32 ≤ g → i < s.glyphsPositions.length → i' < s'.glyphsPositions.length →
        (mainPassStep f align nl M lw i g s).glyphsPositions[i]?
          = (mainPassStep f align nl M' lw' i' g s').glyphsPositions[i']?) := by
  obtain ⟨hv, hl, hp⟩ := hpen
  cases s with
  | mk vpos lines prevGlyph pos =>
  cases s' with
  | mk vpos' lines' prevGlyph' pos' =>
  simp only at hv hl hp hs0 hs1
  subst hv hl hp
  by_cases h10 : g = 10
  · subst h10
    have e := hs1 rfl
    simp [mainPassStep, samePen, e]
  · by_cases h0 : i = 0
    · have h0' : i' = 0 := hi.mp h0
      subst h0 h0'
      have e := hs0 rfl
      by_cases hg : 32 ≤ g
      · simp only [mainPassStep, samePen, h10, hg, e, true_or, or_true, if_true, if_false,
          ne_eq, not_false_eq_true, and_self, true_and]
        intro _ h1 h2
        simp [List.getElem?_set, h1, h2]
      · simp [mainPassStep, samePen, h10, hg, e]
    · have h0' : i' ≠ 0 := fun h => h0 (hi.mpr h)
      by_cases hg : 32 ≤ g
      · simp only [mainPassStep, samePen, h10, hg, h0, h0', or_self, if_true, if_false,
          ne_eq, not_false_eq_true, and_self, true_and]
        intro _ h1 h2
        simp [List.getElem?_set, h1, h2]
      · simp [mainPassStep, samePen, h10, hg, h0, h0']

/-- The main pass over the same bytes from two states with the same pen, with line starts that
agree on the lines the pass reaches: the pens agree afterwards and every glyph byte is written
at the same point. -/
theorem mainPass_congr (f : Font) (align : AlignmentFlag) (nl : Bool) (M M' : Int)
    (lw lw' : List Int) :
    ∀ (t : List Nat) (i i' : Nat) (s s' : MainPass),
      (i = 0 ↔ i' = 0) → samePen s s' →
      (∀ k, k ≤ s.lines + t.count 10 →
        lineStartX align nl M lw k = lineStartX align nl M' lw' k) →
      i + t.length ≤ s.glyphsPositions.length → i' + t.length ≤ s'.glyphsPositions.length →
      samePen (mainPass f align nl M lw t i s) (mainPass f align nl M' lw' t i' s')
      ∧ ∀ (pre : List Nat) (g : Nat) (post : List Nat), t = pre ++ g :: post → 32 ≤ g →
          (mainPass f align nl M lw t i s).glyphsPositions[i + pre.length]?
            = (mainPass f align nl M' lw' t i' s').glyphsPositions[i' + pre.length]? := by
  intro t
  induction t with
  | nil =>
    intro i i' s s' _ hpen _ _ _
    exact ⟨hpen, fun pre g post h => absurd h (by simp)⟩
  | cons c t ih =>
    intro i i' s s' hi hpen hs hlen hlen'
    simp only [List.length_cons] at hlen hlen'
    have hc10 : s.lines + (if c = 10 then 1 else 0) ≤ s.lines + (c :: t).count 10 := by
      rw [List.count_cons]
      by_cases h : c = 10
      · subst h; simp
      · have h' : (c == 10) = false := by simpa using h
        simp [h, h']
    obtain ⟨hpen1, hpos1⟩ := mainPassStep_congr f align nl M M' lw lw' i i' c s s' hi hpen
      (fun _ => hs _ (by omega))
      (fun h => hs _ (by rw [if_pos h] at hc10; exact hc10))
    have hs' : ∀ k, k ≤ (mainPassStep f align nl M lw i c s).lines + t.count 10 →
        lineStartX align nl M lw k = lineStartX align nl M' lw' k := by
      intro k hk
      apply hs
      rw [mainPassStep_lines] at hk
      rw [List.count_cons]
      by_cases h : c = 10
      · subst h
        simp only [if_true, beq_self_eq_true] at hk ⊢
        omega
      · have h' : (c == 10) = false := by simpa using h
        simp only [h, h', if_false] at hk ⊢
        simp only [Bool.false_eq_true, if_false]
        omega
    obtain ⟨hpen2, hpos2⟩ := ih (i + 1) (i' + 1) _ _ (by omega) hpen1 hs'
      (by rw [mainPassStep_length]; omega) (by rw [mainPassStep_length]; omega)
    refine ⟨hpen2, ?_⟩
    intro pre g post e hg
    cases pre with
    | nil =>
      simp only [List.nil_append, List.cons.injEq] at e
      obtain ⟨rfl, rfl⟩ := e
      simp only [List.length_nil, Nat.add_zero]
      show (mainPass f align nl M lw t (i + 1) _).glyphsPositions[i]?
        = (mainPass f align nl M' lw' t (i' + 1) _).glyphsPositions[i']?
      rw [mainPass_frame _ _ _ _ _ _ _ _ i (by omega),
        mainPass_frame _ _ _ _ _ _ _ _ i' (by omega)]
      exact hpos1 hg (by omega) (by omega)
    | cons c' pre =>
      simp only [List.cons_append, List.cons.injEq] at e
      obtain ⟨rfl, rfl⟩ := e
      simp only [List.length_cons]
      rw [show i + (pre.length + 1) = i + 1 + pre.length by omega,
        show i' + (pre.length + 1) = i' + 1 + pre.length by omega]
      exact hpos2 pre g post rfl hg

/-- The bounding-box pass reads the positions buffer at the glyph bytes only. -/
theorem extentPass_congr (f : Font) (P P' : List Point) :
    ∀ (t : List Nat) (i i' : Nat) (e : Extent),
      (∀ (pre : List Nat) (g : Nat) (post : List Nat), t = pre ++ g :: post → 32 ≤ g →
        P.getD (i + pre.length) ⟨0, 0⟩ = P'.getD (i' + pre.length) ⟨0, 0⟩) →
      extentPass f P t i e = extentPass f P' t i' e := by
  intro t
  induction t with
  | nil => intro i i' e _; rfl
  | cons c t ih =>
    intro i i' e h
    rw [extentPass_cons, extentPass_cons]
    have hstep : extentStep f P i c e = extentStep f P' i' c e := by
      by_cases hc : 32 ≤ c
      · have := h [] c t rfl hc
        simp only [List.length_nil, Nat.add_zero] at this
        rw [extentStep_glyph _ _ _ _ _ hc, extentStep_glyph _ _ _ _ _ hc]
        simp only [glyphRight, glyphLeft, this]
      · rw [extentStep_control _ _ _ _ _ (by omega), extentStep_control _ _ _ _ _ (by omega)]
    rw [hstep]
    apply ih
    intro pre g post e' hg
    have := h (c :: pre) g post (by rw [e']; rfl) hg
    simp only [List.length_cons] at this
    rw [show i + 1 + pre.length = i + (pre.length + 1) by omega,
      show i' + 1 + pre.length = i' + (pre.length + 1) by omega]
    exact this

theorem extentPass_append (f : Font) (P : List Point) :
    ∀ (a b : List Nat) (i : Nat) (e : Extent),
      extentPass f P (a ++ b) i e = extentPass f P b (i + a.length) (extentPass f P a i e) := by
  intro a
  induction a with
  | nil => intro b i e; rfl
  | cons c a ih =>
    intro b i e
    rw [List.cons_append, extentPass_cons, extentPass_cons, ih]
    simp only [List.length_cons]
    rw [show i + 1 + a.length = i + (a.length + 1) by omega]

/-- The quad emitter reads the positions buffer at the glyph bytes only. -/
theorem emitGlyphs_congr (f : Font) (region : Option Point) (d : Point) (screenCoords : Rect)
    (P P' : List Point) :
    ∀ (t : List Nat) (i : Nat),
      (∀ (pre : List Nat) (g : Nat) (post : List Nat), t = pre ++ g :: post → 32 ≤ g →
        P.getD (i + pre.length) ⟨0, 0⟩ = P'.getD (i + pre.length) ⟨0, 0⟩) →
      emitGlyphs f region d screenCoords P t i = emitGlyphs f region d screenCoords P' t i := by
  intro t
  induction t with
  | nil => intro i _; rfl
  | cons c t ih =>
    intro i h
    have hrest : emitGlyphs f region d screenCoords P t (i + 1)
        = emitGlyphs f region d screenCoords P' t (i + 1) := by
      apply ih
      intro pre g post e' hg
      have := h (c :: pre) g post (by rw [e']; rfl) hg
      simp only [List.length_cons] at this
      rw [show i + 1 + pre.length = i + (pre.length + 1) by omega]
      exact this
    by_cases hc : c < 32
    · simp only [emitGlyphs, hc, if_true]
      exact hrest
    · have := h [] c t rfl (by omega)
      simp only [List.length_nil, Nat.add_zero] at this
      simp only [emitGlyphs, hc, if_false, this, hrest]

theorem getD_set_other (l : List Int) (i k : Nat) (a : Int) (h : k ≠ i) :
    (l.set i a).getD k 0 = l.getD k 0 := by
  simp only [List.getD_eq_getElem?_getD]
  rw [List.getElem?_set_ne (fun e => h e.symm)]

theorem getD_grown (l : List Int) (n k : Nat) (h : l.length < n) :
    (resize l n 0).getD k 0 = l.getD k 0 := by
  simp only [resize, h, if_true, List.getD_eq_getElem?_getD]
  by_cases hk : k < l.length
  · rw [List.getElem?_append_left hk]
  · have hn : l[k]? = none := List.getElem?_eq_none (by omega)
    rw [List.getElem?_append_right (by omega), hn, List.getElem?_replicate]
    split_ifs <;> rfl

theorem length_resize_grown (l : List Int) (n : Nat) (h : l.length < n) :
    (resize l n 0).length = n := by
  simp [resize, h]
  omega

/-- One iteration of the pre-pass keeps two states in agreement. -/
theorem prePassStep_congr (f : Font) (g : Nat) (spaced : Bool) (s s' : PrePass)
    (h : sameWidths s s') :
    sameWidths (prePassStep f g spaced s) (prePassStep f g spaced s')
    ∧ (prePassStep f g spaced s).lines = s.lines + (if g = 10 then 1 else 0) := by
  obtain ⟨hl, hm, hp, hlen, hlen', hw⟩ := h
  have grow : ∀ (l : List Int) (n : Nat),
      n + 1 < (if n + 1 + 1 > l.length then resize l (n + 1 + 1) 0 else l).length
      ∧ ∀ k, (if n + 1 + 1 > l.length then resize l (n + 1 + 1) 0 else l).getD k 0
          = l.getD k 0 := by
    intro l n
    by_cases hb : n + 1 + 1 > l.length
    · rw [if_pos hb]
      exact ⟨by rw [length_resize_grown l _ hb]; omega, fun k => getD_grown l _ k hb⟩
    · rw [if_neg hb]
      exact ⟨by omega, fun _ => rfl⟩
  by_cases h10 : g = 10
  · subst h10
    have e : ∀ s : PrePass, prePassStep f 10 spaced s
        = { lines := s.lines + 1,
            lineWidths := (if s.lines + 1 + 1 > s.lineWidths.length
                then resize s.lineWidths (s.lines + 1 + 1) 0 else s.lineWidths).set
                  (s.lines + 1) 0,
            maxLineWidth := s.maxLineWidth, prevGlyph := -1 } := fun s => rfl
    rw [e s, e s', if_pos rfl]
    have g1 := grow s.lineWidths s.lines
    have g2 := grow s'.lineWidths s'.lines
    refine ⟨⟨?_, hm, rfl, ?_, ?_, ?_⟩, rfl⟩
    · show s.lines + 1 = s'.lines + 1
      rw [hl]
    · show s.lines + 1 < (List.set _ _ _).length
      rw [List.length_set]
      exact g1.1
    · show s'.lines + 1 < (List.set _ _ _).length
      rw [List.length_set]
      exact g2.1
    · intro k hk
      show (List.set _ (s.lines + 1) 0).getD k 0 = (List.set _ (s'.lines + 1) 0).getD k 0
      by_cases hk1 : k = s.lines + 1
      · rw [hk1, getD_set_self _ _ _ g1.1]
        rw [hl, getD_set_self _ _ _ g2.1]
      · rw [getD_set_other _ _ _ _ hk1, getD_set_other _ _ _ _ (by rw [← hl]; exact hk1),
          g1.2, g2.2]
        exact hw k (by
          have : k ≤ s.lines + 1 := hk
          omega)
  · by_cases hg : g ≥ 32
    · have e : ∀ s : PrePass, prePassStep f g spaced s
          = { lines := s.lines,
              lineWidths := s.lineWidths.set s.lines
                ((if spaced then
                    (if s.prevGlyph ≥ 0 then s.lineWidths.getD s.lines 0
                        + f.kerning s.prevGlyph.toNat g else s.lineWidths.getD s.lines 0)
                      + f.glyphsAdvance g + f.glyphSpacing.width
                  else (if s.prevGlyph ≥ 0 then s.lineWidths.getD s.lines 0
                        + f.kerning s.prevGlyph.toNat g else s.lineWidths.getD s.lines 0)
                      + f.glyphsAdvance g)),
              maxLineWidth :=
                if (if spaced then
                    (if s.prevGlyph ≥ 0 then s.lineWidths.getD s.lines 0
                        + f.kerning s.prevGlyph.toNat g else s.lineWidths.getD s.lines 0)
                      + f.glyphsAdvance g + f.glyphSpacing.width
                  else (if s.prevGlyph ≥ 0 then s.lineWidths.getD s.lines 0
                        + f.kerning s.prevGlyph.toNat g else s.lineWidths.getD s.lines 0)
                      + f.glyphsAdvance g) > s.maxLineWidth
                then (if spaced then
                    (if s.prevGlyph ≥ 0 then s.lineWidths.getD s.lines 0
                        + f.kerning s.prevGlyph.toNat g else s.lineWidths.getD s.lines 0)
                      + f.glyphsAdvance g + f.glyphSpacing.width
                  else (if s.prevGlyph ≥ 0 then s.lineWidths.getD s.lines 0
                        + f.kerning s.prevGlyph.toNat g else s.lineWidths.getD s.lines 0)
                      + f.glyphsAdvance g)
                else s.maxLineWidth,
              prevGlyph := g } := by
        intro s
        simp only [prePassStep, h10, hg, if_true, if_false]
      rw [e s, e s', if_neg h10, ← hl, ← hm, ← hp, ← hw s.lines (le_refl _)]
      refine ⟨⟨rfl, rfl, rfl, ?_, ?_, ?_⟩, rfl⟩
      · show s.lines < (List.set _ _ _).length
        rw [List.length_set]
        exact hlen
      · show s.lines < (List.set _ _ _).length
        rw [List.length_set, hl]
        exact hlen'
      · intro k hk
        show (List.set _ s.lines _).getD k 0 = (List.set _ s.lines _).getD k 0
        by_cases hk1 : k = s.lines
        · rw [hk1, getD_set_self _ _ _ hlen, getD_set_self _ _ _ (by rw [hl]; exact hlen')]
        · rw [getD_set_other _ _ _ _ hk1, getD_set_other _ _ _ _ hk1]
          exact hw k hk
    · have e : ∀ s : PrePass, prePassStep f g spaced s = s := by
        intro s
        simp only [prePassStep, h10, hg, if_false]
      rw [e s, e s', if_neg h10]
      exact ⟨⟨hl, hm, hp, hlen, hlen', hw⟩, rfl⟩

theorem prePass_congr (f : Font) :
    ∀ (t : List Nat) (s s' : PrePass), sameWidths s s' →
      sameWidths (prePass f t s) (prePass f t s')
      ∧ (prePass f t s).lines = s.lines + t.count 10 := by
  intro t
  induction t with
  | nil => intro s s' h; exact ⟨h, by simp [prePass]⟩
  | cons c t ih =>
    intro s s' h
    obtain ⟨h1, h2⟩ := prePassStep_congr f c (nextIsNotNewline t) s s' h
    obtain ⟨h3, h4⟩ := ih _ _ h1
    refine ⟨h3, ?_⟩
    show (prePass f t (prePassStep f c (nextIsNotNewline t) s)).lines = _
    rw [h4, h2, List.count_cons]
    by_cases hc : c = 10
    · subst hc; simp; omega
    · have hc' : (c == 10) = false := by simpa using hc
      simp [hc, hc']

/-- The pre-pass block gives the same maximum line width and the same line starts whatever the
line-width buffer held before. -/
theorem layoutPrePass_congr (f : Font) (text : List Nat) (align : AlignmentFlag)
    (lw lw' : List Int) (wantBox : Bool) :
    (layoutPrePass f text align lw wantBox).maxLineWidth
      = (layoutPrePass f text align lw' wantBox).maxLineWidth
    ∧ ∀ k, k ≤ text.count 10 →
        lineStartX align (needLines align wantBox)
            (layoutPrePass f text align lw wantBox).maxLineWidth
            (layoutPrePass f text align lw wantBox).lineWidths k
          = lineStartX align (needLines align wantBox)
            (layoutPrePass f text align lw' wantBox).maxLineWidth
            (layoutPrePass f text align lw' wantBox).lineWidths k := by
  by_cases hn : needLines align wantBox = true
  · have start : ∀ l : List Int,
        0 < ((if l.isEmpty then resize l 1 0 else l).set 0 0).length
        ∧ ((if l.isEmpty then resize l 1 0 else l).set 0 0).getD 0 0 = 0 := by
      intro l
      have hpos : 0 < (if l.isEmpty then resize l 1 0 else l).length := by
        cases l with
        | nil => decide
        | cons a l => simp
      refine ⟨by rw [List.length_set]; exact hpos, getD_set_self _ _ _ hpos⟩
    have h0 : sameWidths
        { lines := 0, lineWidths := (if lw.isEmpty then resize lw 1 0 else lw).set 0 0,
          maxLineWidth := 0, prevGlyph := -1 }
        { lines := 0, lineWidths := (if lw'.isEmpty then resize lw' 1 0 else lw').set 0 0,
          maxLineWidth := 0, prevGlyph := -1 } := by
      refine ⟨rfl, rfl, rfl, (start lw).1, (start lw').1, ?_⟩
      intro k hk
      have hk0 : k = 0 := Nat.le_zero.mp hk
      subst hk0
      show (List.set _ 0 0).getD 0 0 = (List.set _ 0 0).getD 0 0
      rw [(start lw).2, (start lw').2]
    obtain ⟨⟨_, hm, _, _, _, hw⟩, hlines⟩ := prePass_congr f text _ _ h0
    have e : ∀ l : List Int, layoutPrePass f text align l wantBox
        = prePass f text ⟨0, (if l.isEmpty then resize l 1 0 else l).set 0 0, 0, -1⟩ := by
      intro l
      simp only [layoutPrePass, hn, if_true]
    rw [e lw, e lw']
    refine ⟨hm, ?_⟩
    intro k hk
    simp only [lineStartX, hn, if_true]
    rw [hm, hw k (by rw [hlines]; simpa using hk)]
  · have e : ∀ l : List Int, layoutPrePass f text align l wantBox
        = { lines := 0, lineWidths := l, maxLineWidth := 0, prevGlyph := -1 } := by
      intro l
      simp only [layoutPrePass, hn, if_false]
      rfl
    rw [e lw, e lw']
    refine ⟨rfl, ?_⟩
    intro k _
    have hn' : needLines align wantBox = false := by simpa using hn
    simp only [lineStartX, hn']
    simp

theorem getD_of_getElem?_eq (P P' : List Point) (i i' : Nat) (h : P[i]? = P'[i']?) :
    P.getD i ⟨0, 0⟩ = P'.getD i' ⟨0, 0⟩ := by
  rw [List.getD_eq_getElem?_getD, List.getD_eq_getElem?_getD, h]

/-- The main pass of `calculateGlyphsPositions` places every glyph byte at the same point and
ends with the same pen, whatever the two buffers held before. -/
theorem layoutMainPass_congr (f : Font) (text : List Nat) (align : AlignmentFlag)
    (buf buf' : List Point) (lw lw' : List Int) (wantBox : Bool) :
    samePen (layoutMainPass f text align buf lw wantBox)
      (layoutMainPass f text align buf' lw' wantBox)
    ∧ ∀ (pre : List Nat) (g : Nat) (post : List Nat), text = pre ++ g :: post → 32 ≤ g →
        (layoutMainPass f text align buf lw wantBox).glyphsPositions[pre.length]?
          = (layoutMainPass f text align buf' lw' wantBox).glyphsPositions[pre.length]? := by
  obtain ⟨pos0, hlen, e⟩ := layoutMainPass_eq f text align buf lw wantBox
  obtain ⟨pos0', hlen', e'⟩ := layoutMainPass_eq f text align buf' lw' wantBox
  obtain ⟨_, hs⟩ := layoutPrePass_congr f text align lw lw' wantBox
  rw [e, e']
  have := mainPass_congr f align (needLines align wantBox)
    (layoutPrePass f text align lw wantBox).maxLineWidth
    (layoutPrePass f text align lw' wantBox).maxLineWidth
    (layoutPrePass f text align lw wantBox).lineWidths
    (layoutPrePass f text align lw' wantBox).lineWidths text 0 0
    { vpos := ⟨0, f.yOffset⟩, lines := 0, prevGlyph := -1, glyphsPositions := pos0 }
    { vpos := ⟨0, f.yOffset⟩, lines := 0, prevGlyph := -1, glyphsPositions := pos0' }
    Iff.rfl ⟨rfl, rfl, rfl⟩ (fun k hk => hs k (by simpa using hk))
    (by simpa using hlen) (by simpa using hlen')
  simpa using this

theorem layoutExtent_congr (f : Font) (text : List Nat) (align : AlignmentFlag)
    (buf buf' : List Point) (lw lw' : List Int) (wantBox : Bool) :
    layoutExtent f text align buf lw wantBox = layoutExtent f text align buf' lw' wantBox := by
  unfold layoutExtent
  apply extentPass_congr
  intro pre g post e hg
  simp only [Nat.zero_add]
  exact getD_of_getElem?_eq _ _ _ _
    ((layoutMainPass_congr f text align buf buf' lw lw' wantBox).2 pre g post e hg)

theorem layoutShift_congr (f : Font) (text : List Nat) (align : AlignmentFlag)
    (buf buf' : List Point) (lw lw' : List Int) (wantBox : Bool) :
    layoutShift f text align buf lw wantBox = layoutShift f text align buf' lw' wantBox := by
  unfold layoutShift
  rw [layoutExtent_congr f text align buf buf' lw lw' wantBox]

/-- The point reported for a glyph byte does not depend on what the buffers held before. -/
theorem reported_point_congr (f : Font) (align : AlignmentFlag) (buf buf' : List Point)
    (lw lw' : List Int) (wantBox : Bool) (pre : List Nat) (g : Nat) (post : List Nat)
    (hg : 32 ≤ g) :
    (calculateGlyphsPositions f (pre ++ g :: post) align buf lw wantBox).glyphsPositions.getD
        pre.length ⟨0, 0⟩
      = (calculateGlyphsPositions f (pre ++ g :: post) align buf' lw' wantBox).glyphsPositions.getD
        pre.length ⟨0, 0⟩ := by
  obtain ⟨v, pos0, s, hlen, hsl, e, hv, _, _, _⟩ :=
    layoutMainPass_glyph f align buf lw wantBox pre g post hg
  have hv1 : (layoutMainPass f (pre ++ g :: post) align buf lw
      wantBox).glyphsPositions[pre.length]? = some v := by
    rw [e, mainPass_frame _ _ _ _ _ _ _ _ pre.length (by omega)]
    exact hv
  have hv2 : (layoutMainPass f (pre ++ g :: post) align buf' lw'
      wantBox).glyphsPositions[pre.length]? = some v := by
    rw [← (layoutMainPass_congr f (pre ++ g :: post) align buf buf' lw lw' wantBox).2 pre g post
      rfl hg]
    exact hv1
  have hx1 := calculateGlyphsPositions_glyph f align buf lw wantBox pre g post v hg hv1
  have hx2 := calculateGlyphsPositions_glyph f align buf' lw' wantBox pre g post v hg hv2
  have hy1 := calculateGlyphsPositions_glyph_y f align buf lw wantBox pre g post v hg hv1
  have hy2 := calculateGlyphsPositions_glyph_y f align buf' lw' wantBox pre g post v hg hv2
  rw [layoutShift_congr f _ align buf buf' lw lw' wantBox] at hx1
  generalize (calculateGlyphsPositions f (pre ++ g :: post) align buf lw
    wantBox).glyphsPositions.getD pre.length ⟨0, 0⟩ = p at hx1 hy1 ⊢
  generalize (calculateGlyphsPositions f (pre ++ g :: post) align buf' lw'
    wantBox).glyphsPositions.getD pre.length ⟨0, 0⟩ = q at hx2 hy2 ⊢
  cases p
  cases q
  simp only at hx1 hx2 hy1 hy2
  rw [hx1, hx2, hy1, hy2]

theorem textBoxSize_congr (f : Font) (text : List Nat) (align : AlignmentFlag)
    (buf buf' : List Point) (lw lw' : List Int) (wantBox : Bool) :
    (calculateGlyphsPositions f text align buf lw wantBox).textBoxSize
      = (calculateGlyphsPositions f text align buf' lw' wantBox).textBoxSize := by
  cases wantBox with
  | false => simp [calculateGlyphsPositions]
  | true =>
    by_cases hne : text = []
    · subst hne
      rfl
    · rw [calculateGlyphsPositions_textBoxSize f text align buf lw hne,
        calculateGlyphsPositions_textBoxSize f text align buf' lw' hne,
        layoutExtent_congr f text align buf buf' lw lw' true,
        (layoutPrePass_congr f text align lw lw' true).1,
        (layoutMainPass_congr f text align buf buf' lw lw' true).1.1]

/-- C26: the layout is a function of the text, the metrics and the flags only: for any two
initial contents of the positions buffer and of the line-width scratch buffer,
`calculateGlyphsPositions` on the same text, glyph table and alignment reports the same box
and the same position at every index of a glyph byte, and `getDrawTextCoords` on the two
results returns the same list of rectangle pairs. -/
theorem calculateGlyphsPositions_independent_of_buffers (f : Font) (text : List Nat)
    (align : AlignmentFlag) (buf buf' : List Point) (lw lw' : List Int) (wantBox : Bool) :
    (calculateGlyphsPositions f text align buf lw wantBox).textBoxSize
      = (calculateGlyphsPositions f text align buf' lw' wantBox).textBoxSize
    ∧ (∀ (pre : List Nat) (g : Nat) (post : List Nat), text = pre ++ g :: post → 32 ≤ g →
        (calculateGlyphsPositions f text align buf lw wantBox).glyphsPositions.getD
            pre.length ⟨0, 0⟩
          = (calculateGlyphsPositions f text align buf' lw' wantBox).glyphsPositions.getD
            pre.length ⟨0, 0⟩)
    ∧ ∀ (hasTexture : Bool) (region : Option Point) (screenCoords : Rect),
        getDrawTextCoords f hasTexture region text
            ((calculateGlyphsPositions f text align buf lw wantBox).textBoxSize.getD ⟨0, 0⟩)
            align screenCoords
            (calculateGlyphsPositions f text align buf lw wantBox).glyphsPositions
          = getDrawTextCoords f hasTexture region text
            ((calculateGlyphsPositions f text align buf' lw' wantBox).textBoxSize.getD ⟨0, 0⟩)
            align screenCoords
            (calculateGlyphsPositions f text align buf' lw' wantBox).glyphsPositions := by
  have hbox := textBoxSize_congr f text align buf buf' lw lw' wantBox
  have hpos : ∀ (pre : List Nat) (g : Nat) (post : List Nat), text = pre ++ g :: post →
      32 ≤ g →
      (calculateGlyphsPositions f text align buf lw wantBox).glyphsPositions.getD
          pre.length ⟨0, 0⟩
        = (calculateGlyphsPositions f text align buf' lw' wantBox).glyphsPositions.getD
          pre.length ⟨0, 0⟩ := by
    intro pre g post e hg
    subst e
    exact reported_point_congr f align buf buf' lw lw' wantBox pre g post hg
  refine ⟨hbox, hpos, ?_⟩
  intro hasTexture region screenCoords
  unfold getDrawTextCoords
  rw [hbox]
  split_ifs
  · rfl
  · apply emitGlyphs_congr
    intro pre g post e hg
    simp only [Nat.zero_add]
    exact hpos pre g post e hg

/-! ### Control bytes in the layout -/

/-- C23 (the code at the failing input). With horizontal glyph spacing 2 and advance 10,
appending the control byte 1 to `"a"` changes the reported box width from 10 to 12, and
appending it to `"ab\nc"` under right alignment moves the glyph `'c'` from x = 12 to x = 10:
the pre-pass adds the spacing after a line's last glyph when a control byte follows it, while
the main pass and the bounding-box pass skip the control byte. -/
theorem calculateGlyphsPositions_control_byte_not_inert :
    (calculateGlyphsPositions { uniformFont 10 with glyphSpacing := ⟨2, 0⟩ } [97]
        AlignTopLeft [] [] true).textBoxSize = some ⟨10, 16⟩
    ∧ (calculateGlyphsPositions { uniformFont 10 with glyphSpacing := ⟨2, 0⟩ } [97, 1]
        AlignTopLeft [] [] true).textBoxSize = some ⟨12, 16⟩
    ∧ (calculateGlyphsPositions { uniformFont 10 with glyphSpacing := ⟨2, 0⟩ } [97, 98, 10, 99]
        { AlignTopLeft with alignRight := true } [] [] true).glyphsPositions.getD 3 ⟨0, 0⟩
        = ⟨12, 16⟩
    ∧ (calculateGlyphsPositions { uniformFont 10 with glyphSpacing := ⟨2, 0⟩ }
        [97, 98, 10, 99, 1]
        { AlignTopLeft with alignRight := true } [] [] true).glyphsPositions.getD 3 ⟨0, 0⟩
        = ⟨10, 16⟩ := by
  refine ⟨by decide, by decide, by decide, by decide⟩

/-- The look-ahead of the pre-pass matters only for a glyph byte and a non-zero spacing. -/
theorem prePassStep_spaced (f : Font) (c : Nat) (sp sp' : Bool) (s : PrePass)
    (h : f.glyphSpacing.width = 0 ∨ sp = sp' ∨ c < 32) :
    prePassStep f c sp s = prePassStep f c sp' s := by
  rcases h with h | h | h
  · cases sp <;> cases sp' <;> simp [prePassStep, h]
  · rw [h]
  · by_cases h10 : c = 10
    · simp [prePassStep, h10]
    · have hg : ¬ c ≥ 32 := by omega
      simp [prePassStep, h10, hg]

theorem prePassStep_control (f : Font) (b : Nat) (sp : Bool) (s : PrePass) (hb : b < 32)
    (hb10 : b ≠ 10) : prePassStep f b sp s = s := by
  have hg : ¬ b ≥ 32 := by omega
  simp [prePassStep, hb10, hg]

theorem prePass_cons (f : Font) (c : Nat) (rest : List Nat) (s : PrePass) :
    prePass f (c :: rest) s = prePass f rest (prePassStep f c (nextIsNotNewline rest) s) := rfl

/-- A control byte leaves the pre-pass as it is, unless it comes between a glyph byte and the
end of its line while the horizontal spacing is not zero. -/
theorem prePass_insert_control (f : Font) (b : Nat) (post : List Nat) (hb : b < 32)
    (hb10 : b ≠ 10) :
    ∀ (pre : List Nat) (s : PrePass),
      (f.glyphSpacing.width = 0 ∨ nextIsNotNewline post = true
        ∨ ∀ g, pre.getLast? = some g → g < 32) →
      prePass f (pre ++ b :: post) s = prePass f (pre ++ post) s := by
  intro pre
  induction pre with
  | nil =>
    intro s _
    rw [List.nil_append, List.nil_append, prePass_cons, prePassStep_control f b _ s hb hb10]
  | cons c pre ih =>
    intro s h
    rw [List.cons_append, List.cons_append, prePass_cons, prePass_cons]
    cases pre with
    | nil =>
      have hstep : prePassStep f c (nextIsNotNewline ([] ++ b :: post)) s
          = prePassStep f c (nextIsNotNewline ([] ++ post)) s := by
        apply prePassStep_spaced
        rcases h with h | h | h
        · exact Or.inl h
        · refine Or.inr (Or.inl ?_)
          rw [List.nil_append, List.nil_append, h]
          simp [nextIsNotNewline, hb10]
        · exact Or.inr (Or.inr (h c rfl))
      rw [hstep]
      exact ih _ (by
        rcases h with h | h | h
        · exact Or.inl h
        · exact Or.inr (Or.inl h)
        · exact Or.inr (Or.inr (fun g hg => by simp at hg)))
    | cons d pre =>
      have hn : nextIsNotNewline ((d :: pre) ++ b :: post)
          = nextIsNotNewline ((d :: pre) ++ post) := rfl
      rw [hn]
      exact ih _ (by
        rcases h with h | h | h
        · exact Or.inl h
        · exact Or.inr (Or.inl h)
        · exact Or.inr (Or.inr (fun g hg => h g (by simpa using hg))))

theorem layoutPrePass_insert_control (f : Font) (align : AlignmentFlag) (lw : List Int)
    (wantBox : Bool) (pre : List Nat) (b : Nat) (post : List Nat) (hb : b < 32) (hb10 : b ≠ 10)
    (h : f.glyphSpacing.width = 0 ∨ nextIsNotNewline post = true
        ∨ ∀ g, pre.getLast? = some g → g < 32) :
    layoutPrePass f (pre ++ b :: post) align lw wantBox
      = layoutPrePass f (pre ++ post) align lw wantBox := by
  unfold layoutPrePass
  by_cases hn : needLines align wantBox = true
  · rw [if_pos hn, if_pos hn]
    exact prePass_insert_control f b post hb hb10 pre _ h
  · rw [if_neg hn, if_neg hn]

/-- A control byte at index 0 only sets the line start, which the next iteration would set
anyway. -/
theorem mainPassStep_absorb_control (f : Font) (align : AlignmentFlag) (nl : Bool) (M : Int)
    (lw : List Int) (b c : Nat) (s s' : MainPass) (hb : b < 32) (hb10 : b ≠ 10)
    (hpen : samePen s s') :
    samePen (mainPassStep f align nl M lw 0 c s)
      (mainPassStep f align nl M lw 1 c (mainPassStep f align nl M lw 0 b s'))
    ∧ (32 ≤ c → 0 < s.glyphsPositions.length → 1 < s'.glyphsPositions.length →
        (mainPassStep f align nl M lw 0 c s).glyphsPositions[0]?
          = (mainPassStep f align nl M lw 1 c
              (mainPassStep f align nl M lw 0 b s')).glyphsPositions[1]?) := by
  obtain ⟨hv, hl, hp⟩ := hpen
  have hbg : ¬ 32 ≤ b := by omega
  cases s with
  | mk vpos lines prevGlyph pos =>
  cases s' with
  | mk vpos' lines' prevGlyph' pos' =>
  simp only at hv hl hp
  subst hv hl hp
  by_cases h10 : c = 10
  · subst h10
    simp [mainPassStep, samePen, hb10, hbg]
  · by_cases hg : 32 ≤ c
    · simp only [mainPassStep, samePen, h10, hg, hb10, hbg, true_or, or_true, if_true,
        if_false, ne_eq, not_false_eq_true, and_self, true_and, one_ne_zero, or_self,
        false_and, and_false]
      intro _ h1 h2
      simp [List.getElem?_set, h1, h2]
    · simp [mainPassStep, samePen, h10, hg, hb10, hbg]

/-- The main pass over a text with a control byte put in front: the pen ends the same and every
glyph byte is written at the same point, one index later. -/
theorem mainPass_insert_control (f : Font) (align : AlignmentFlag) (nl : Bool) (M : Int)
    (lw : List Int) (b : Nat) (hb : b < 32) (hb10 : b ≠ 10) (post : List Nat) (i : Nat)
    (s s' : MainPass) (hi : i = 0 → post ≠ []) (hpen : samePen s s')
    (hlen : i + post.length ≤ s.glyphsPositions.length)
    (hlen' : i + 1 + post.length ≤ s'.glyphsPositions.length) :
    samePen (mainPass f align nl M lw post i s) (mainPass f align nl M lw (b :: post) i s')
    ∧ ∀ (p : List Nat) (g : Nat) (q : List Nat), post = p ++ g :: q → 32 ≤ g →
        (mainPass f align nl M lw post i s).glyphsPositions[i + p.length]?
          = (mainPass f align nl M lw (b :: post) i s').glyphsPositions[i + 1 + p.length]? := by
  by_cases h0 : i = 0
  · subst h0
    cases post with
    | nil => exact absurd rfl (hi rfl)
    | cons c post =>
      simp only [List.length_cons] at hlen hlen'
      obtain ⟨hp1, hpos1⟩ := mainPassStep_absorb_control f align nl M lw b c s s' hb hb10 hpen
      obtain ⟨hp2, hpos2⟩ := mainPass_congr f align nl M M lw lw post 1 2 _ _
        (by constructor <;> intro h <;> omega) hp1 (fun _ _ => rfl)
        (by rw [mainPassStep_length]; omega)
        (by rw [mainPassStep_length, mainPassStep_length]; omega)
      refine ⟨hp2, ?_⟩
      intro p g q e hg
      cases p with
      | nil =>
        simp only [List.nil_append, List.cons.injEq] at e
        obtain ⟨rfl, rfl⟩ := e
        show (mainPass f align nl M lw post 1 _).glyphsPositions[0]?
          = (mainPass f align nl M lw post 2 _).glyphsPositions[1]?
        rw [mainPass_frame _ _ _ _ _ _ _ _ 0 (by omega),
          mainPass_frame _ _ _ _ _ _ _ _ 1 (by omega)]
        exact hpos1 hg (by omega) (by omega)
      | cons c' p =>
        simp only [List.cons_append, List.cons.injEq] at e
        obtain ⟨rfl, rfl⟩ := e
        simp only [List.length_cons]
        have := hpos2 p g q rfl hg
        rw [show 0 + (p.length + 1) = 1 + p.length by omega,
          show 0 + 1 + (p.length + 1) = 2 + p.length by omega]
        exact this
  · have hi1 : 1 ≤ i := by omega
    have e : mainPass f align nl M lw (b :: post) i s'
        = mainPass f align nl M lw post (i + 1) s' := by
      show mainPass f align nl M lw post (i + 1) (mainPassStep f align nl M lw i b s') = _
      rw [mainPassStep_control _ _ _ _ _ _ _ _ hb hb10 hi1]
    rw [e]
    exact mainPass_congr f align nl M M lw lw post i (i + 1) s s'
      (by constructor <;> intro h <;> omega) hpen (fun _ _ => rfl) hlen hlen'

/-- The main pass of `calculateGlyphsPositions` on a text with a control byte inserted, when
the pre-pass is not affected: the pen ends the same, and every glyph byte is written at the
same point (one index later when it comes after the inserted byte). -/
theorem layoutMainPass_insert_control (f : Font) (align : AlignmentFlag) (buf : List Point)
    (lw : List Int) (wantBox : Bool) (pre : List Nat) (b : Nat) (post : List Nat) (hb : b < 32)
    (hb10 : b ≠ 10) (hne : pre ++ post ≠ [])
    (hpre : layoutPrePass f (pre ++ b :: post) align lw wantBox
      = layoutPrePass f (pre ++ post) align lw wantBox) :
    samePen (layoutMainPass f (pre ++ post) align buf lw wantBox)
      (layoutMainPass f (pre ++ b :: post) align buf lw wantBox)
    ∧ (∀ (p : List Nat) (g : Nat) (q : List Nat), pre = p ++ g :: q → 32 ≤ g →
        (layoutMainPass f (pre ++ post) align buf lw wantBox).glyphsPositions[p.length]?
          = (layoutMainPass f (pre ++ b :: post) align buf lw wantBox).glyphsPositions[p.length]?)
    ∧ (∀ (p : List Nat) (g : Nat) (q : List Nat), post = p ++ g :: q → 32 ≤ g →
        (layoutMainPass f (pre ++ post) align buf lw
            wantBox).glyphsPositions[pre.length + p.length]?
          = (layoutMainPass f (pre ++ b :: post) align buf lw
            wantBox).glyphsPositions[pre.length + 1 + p.length]?) := by
  obtain ⟨pos0, hlen, e⟩ := layoutMainPass_eq f (pre ++ post) align buf lw wantBox
  obtain ⟨pos0', hlen', e'⟩ := layoutMainPass_eq f (pre ++ b :: post) align buf lw wantBox
  rw [e, e', hpre, mainPass_append, mainPass_append]
  simp only [Nat.zero_add, List.length_append, List.length_cons] at hlen hlen' ⊢
  generalize (layoutPrePass f (pre ++ post) align lw wantBox).maxLineWidth = M
  generalize (layoutPrePass f (pre ++ post) align lw wantBox).lineWidths = lws
  obtain ⟨hpA, hposA⟩ := mainPass_congr f align (needLines align wantBox) M M lws lws pre 0 0
    { vpos := ⟨0, f.yOffset⟩, lines := 0, prevGlyph := -1, glyphsPositions := pos0 }
    { vpos := ⟨0, f.yOffset⟩, lines := 0, prevGlyph := -1, glyphsPositions := pos0' }
    Iff.rfl ⟨rfl, rfl, rfl⟩ (fun _ _ => rfl) (by simp only [Nat.zero_add]; omega)
    (by simp only [Nat.zero_add]; omega)
  have hlA := mainPass_length f align (needLines align wantBox) M lws pre 0
    { vpos := ⟨0, f.yOffset⟩, lines := 0, prevGlyph := -1, glyphsPositions := pos0 }
  have hlA' := mainPass_length f align (needLines align wantBox) M lws pre 0
    { vpos := ⟨0, f.yOffset⟩, lines := 0, prevGlyph := -1, glyphsPositions := pos0' }
  generalize mainPass f align (needLines align wantBox) M lws pre 0
    { vpos := ⟨0, f.yOffset⟩, lines := 0, prevGlyph := -1, glyphsPositions := pos0 } = A
    at hpA hposA hlA ⊢
  generalize mainPass f align (needLines align wantBox) M lws pre 0
    { vpos := ⟨0, f.yOffset⟩, lines := 0, prevGlyph := -1, glyphsPositions := pos0' } = A'
    at hpA hposA hlA' ⊢
  simp only at hlA hlA'
  have hi : pre.length = 0 → post ≠ [] := by
    intro h0 hp
    apply hne
    rw [List.length_eq_zero.mp h0, hp]
    rfl
  obtain ⟨hpB, hposB⟩ := mainPass_insert_control f align (needLines align wantBox) M lws b hb
    hb10 post pre.length A A' hi hpA (by omega) (by omega)
  refine ⟨hpB, ?_, hposB⟩
  intro p g q ep hg
  have hk : p.length < pre.length := by
    rw [ep]
    simp only [List.length_append, List.length_cons]
    omega
  rw [mainPass_frame _ _ _ _ _ _ _ _ p.length hk, mainPass_frame _ _ _ _ _ _ _ _ p.length hk]
  have := hposA p g q ep hg
  simpa only [Nat.zero_add] using this

/-- The point reported for a glyph byte: its main-pass point moved right by the shift. -/
theorem reported_point (f : Font) (align : AlignmentFlag) (buf : List Point) (lw : List Int)
    (wantBox : Bool) (text pre : List Nat) (g : Nat) (post : List Nat) (v : Point)
    (e : text = pre ++ g :: post) (hg : 32 ≤ g)
    (hv : (layoutMainPass f text align buf lw wantBox).glyphsPositions[pre.length]? = some v) :
    (calculateGlyphsPositions f text align buf lw wantBox).glyphsPositions.getD pre.length ⟨0, 0⟩
      = ⟨v.x + layoutShift f text align buf lw wantBox, v.y⟩ := by
  subst e
  have hx := calculateGlyphsPositions_glyph f align buf lw wantBox pre g post v hg hv
  have hy := calculateGlyphsPositions_glyph_y f align buf lw wantBox pre g post v hg hv
  generalize (calculateGlyphsPositions f (pre ++ g :: post) align buf lw
    wantBox).glyphsPositions.getD pre.length ⟨0, 0⟩ = p at hx hy ⊢
  cases p
  simp only at hx hy
  rw [hx, hy]

theorem layoutMainPass_glyph_some (f : Font) (align : AlignmentFlag) (buf : List Point)
    (lw : List Int) (wantBox : Bool) (text pre : List Nat) (g : Nat) (post : List Nat)
    (e : text = pre ++ g :: post) (hg : 32 ≤ g) :
    ∃ v : Point,
      (layoutMainPass f text align buf lw wantBox).glyphsPositions[pre.length]? = some v := by
  subst e
  obtain ⟨v, pos0, s, hlen, hsl, e, hv, _, _, _⟩ :=
    layoutMainPass_glyph f align buf lw wantBox pre g post hg
  refine ⟨v, ?_⟩
  rw [e, mainPass_frame _ _ _ _ _ _ _ _ pre.length (by omega)]
  exact hv

theorem layoutExtent_insert_control (f : Font) (align : AlignmentFlag) (buf : List Point)
    (lw : List Int) (wantBox : Bool) (pre : List Nat) (b : Nat) (post : List Nat) (hb : b < 32)
    (hb10 : b ≠ 10) (hne : pre ++ post ≠ [])
    (hpre : layoutPrePass f (pre ++ b :: post) align lw wantBox
      = layoutPrePass f (pre ++ post) align lw wantBox) :
    layoutExtent f (pre ++ b :: post) align buf lw wantBox
      = layoutExtent f (pre ++ post) align buf lw wantBox := by
  obtain ⟨_, h1, h2⟩ := layoutMainPass_insert_control f align buf lw wantBox pre b post hb hb10
    hne hpre
  unfold layoutExtent
  rw [extentPass_append, extentPass_append, extentPass_cons,
    extentStep_control _ _ _ _ _ hb]
  simp only [Nat.zero_add]
  have hA : extentPass f (layoutMainPass f (pre ++ b :: post) align buf lw
        wantBox).glyphsPositions pre 0 { minX := 0, maxX := 0, hasGlyph := false }
      = extentPass f (layoutMainPass f (pre ++ post) align buf lw
        wantBox).glyphsPositions pre 0 { minX := 0, maxX := 0, hasGlyph := false } := by
    apply extentPass_congr
    intro p g q e hg
    simp only [Nat.zero_add]
    exact (getD_of_getElem?_eq _ _ _ _ (h1 p g q e hg)).symm
  rw [hA]
  apply extentPass_congr
  intro p g q e hg
  exact (getD_of_getElem?_eq _ _ _ _ (h2 p g q e hg)).symm

/-- Away from the end of a line a control byte is inert: a byte `b < 32` other than `'\n'`,
inserted into a non-empty text where the byte after it exists and is not `'\n'`, or where the
byte before it is not a glyph byte, or with zero horizontal glyph spacing, changes neither the
reported box nor the position of any glyph byte, for every glyph table, alignment and buffer
content. -/
theorem calculateGlyphsPositions_control_byte_inert (f : Font) (align : AlignmentFlag)
    (buf : List Point) (lw : List Int) (wantBox : Bool) (pre : List Nat) (b : Nat)
    (post : List Nat) (hb : b < 32) (hb10 : b ≠ 10) (hne : pre ++ post ≠ [])
    (h : f.glyphSpacing.width = 0 ∨ nextIsNotNewline post = true
        ∨ ∀ g, pre.getLast? = some g → g < 32) :
    (calculateGlyphsPositions f (pre ++ b :: post) align buf lw wantBox).textBoxSize
      = (calculateGlyphsPositions f (pre ++ post) align buf lw wantBox).textBoxSize
    ∧ (∀ (p : List Nat) (g : Nat) (q : List Nat), pre = p ++ g :: q → 32 ≤ g →
        (calculateGlyphsPositions f (pre ++ b :: post) align buf lw wantBox).glyphsPositions.getD
            p.length ⟨0, 0⟩
          = (calculateGlyphsPositions f (pre ++ post) align buf lw wantBox).glyphsPositions.getD
            p.length ⟨0, 0⟩)
    ∧ (∀ (p : List Nat) (g : Nat) (q : List Nat), post = p ++ g :: q → 32 ≤ g →
        (calculateGlyphsPositions f (pre ++ b :: post) align buf lw wantBox).glyphsPositions.getD
            (pre.length + 1 + p.length) ⟨0, 0⟩
          = (calculateGlyphsPositions f (pre ++ post) align buf lw wantBox).glyphsPositions.getD
            (pre.length + p.length) ⟨0, 0⟩) := by
  have hpre := layoutPrePass_insert_control f align lw wantBox pre b post hb hb10 h
  obtain ⟨hpen, h1, h2⟩ := layoutMainPass_insert_control f align buf lw wantBox pre b post hb
    hb10 hne hpre
  have hext := layoutExtent_insert_control f align buf lw wantBox pre b post hb hb10 hne hpre
  have hshift : layoutShift f (pre ++ b :: post) align buf lw wantBox
      = layoutShift f (pre ++ post) align buf lw wantBox := by
    unfold layoutShift
    rw [hext]
  refine ⟨?_, ?_, ?_⟩
  · cases wantBox with
    | false => simp [calculateGlyphsPositions]
    | true =>
      rw [calculateGlyphsPositions_textBoxSize f _ align buf lw (by simp),
        calculateGlyphsPositions_textBoxSize f _ align buf lw hne, hext, hpre, hpen.1]
  · intro p g q e hg
    have e1 : pre ++ post = p ++ g :: (q ++ post) := by rw [e]; simp
    have e2 : pre ++ b :: post = p ++ g :: (q ++ b :: post) := by rw [e]; simp
    obtain ⟨v, hv⟩ := layoutMainPass_glyph_some f align buf lw wantBox _ p g _ e1 hg
    rw [reported_point f align buf lw wantBox _ p g _ v e1 hg hv,
      reported_point f align buf lw wantBox _ p g _ v e2 hg (by rw [← h1 p g q e hg]; exact hv),
      hshift]
  · intro p g q e hg
    have e1 : pre ++ post = (pre ++ p) ++ g :: q := by rw [e]; simp
    have e2 : pre ++ b :: post = (pre ++ b :: p) ++ g :: q := by rw [e]; simp
    have l1 : (pre ++ p).length = pre.length + p.length := by simp
    have l2 : (pre ++ b :: p).length = pre.length + 1 + p.length := by
      simp only [List.length_append, List.length_cons]; omega
    obtain ⟨v, hv⟩ := layoutMainPass_glyph_some f align buf lw wantBox _ (pre ++ p) g q e1 hg
    have hv2 : (layoutMainPass f (pre ++ b :: post) align buf lw
        wantBox).glyphsPositions[(pre ++ b :: p).length]? = some v := by
      rw [l2, ← h2 p g q e hg, ← l1]
      exact hv
    rw [← l1, ← l2, reported_point f align buf lw wantBox _ (pre ++ p) g q v e1 hg hv,
      reported_point f align buf lw wantBox _ (pre ++ b :: p) g q v e2 hg hv2, hshift]

/-- With horizontal spacing 2, the control byte 1 between the glyphs of `"ab"` leaves the box
as it is. -/
theorem calculateGlyphsPositions_control_byte_between_glyphs :
    (calculateGlyphsPositions { uniformFont 10 with glyphSpacing := ⟨2, 0⟩ } ([97] ++ 1 :: [98])
        AlignTopLeft [] [] true).textBoxSize
      = (calculateGlyphsPositions { uniformFont 10 with glyphSpacing := ⟨2, 0⟩ } ([97] ++ [98])
        AlignTopLeft [] [] true).textBoxSize :=
  (calculateGlyphsPositions_control_byte_inert { uniformFont 10 with glyphSpacing := ⟨2, 0⟩ }
    AlignTopLeft [] [] true [97] 1 [98] (by decide) (by decide) (by decide)
    (Or.inr (Or.inl (by decide)))).1

/-! ### A space that overflows -/

/-- C25 (the code at the failing input): with uniform advance 10 every word of `"ab c de"` fits
in `maxWidth = 45`, yet under every option set the output is `"ab \ncde"`: the space after
`"c"` overflows while a break candidate exists, the break is committed at that earlier
candidate and the space is dropped with nothing in its place, so the words `"c"` and `"de"`
come out joined. -/
theorem wrapText_swallows_space (o : WrapOptions) (sc : Scratch) :
    (wrapText (uniformFont 10) (bytesOf "ab c de") 45 o none sc).out = bytesOf "ab \ncde"
    ∧ wordsOf (bytesOf "ab c de") = [bytesOf "ab", bytesOf "c", bytesOf "de"]
    ∧ wordsOf (wrapText (uniformFont 10) (bytesOf "ab c de") 45 o none sc).out
        = [bytesOf "ab", bytesOf "cde"] := by
  have e : (wrapText (uniformFont 10) (bytesOf "ab c de") 45 o none sc).out
      = bytesOf "ab \ncde" := by
    rw [wrapText_ascii _ _ _ _ _ (by decide) (by decide)]
    rfl
  rw [e]
  exact ⟨rfl, by decide, by decide⟩

/-! ### Re-wrapping a wrapped string -/

end BitmapFont
